import Mathlib

/-!
# TeenyJVM interpreter (`project01-bjuarez/jvm.c`)

A shallow embedding of `pop`, `push` and `execute` of `jvm.c`, and theorems about
single instructions and whole runs.

Conventions of the embedding.

* `int32_t` values are integers in `[-2^31, 2^31)`; arithmetic is done in `Int`
  and reduced with `to_int32`. Narrowing casts are `to_int8`, `to_int16`, and the
  unsigned program counter (`u4`) is a natural number reduced with `to_u4`.
* A run of `execute` either yields a value or stops for one of the reasons of
  `halt_t`: a failed `assert` (`abort`), an integer-division trap (`sigfpe`), a
  heap handle that was never allocated (`mem_access`).
  `undefined` is not a stop of the program: it marks an access outside the
  accessed object (the code array, the locals, a heap block), which `jvm.c`
  performs without any check, going on with whatever the memory there holds.
  The embedding does not hold that memory, so it describes a run up to such an
  access and no further.
  `no_fuel` is not a behaviour of the program either: it says that the bound on
  the number of loop iterations given to `run` was too small.
* The operand stack is the list of its live entries, top first
  (`contents[size-1]`, ..., `contents[0]`); `length` is its capacity.
* Memory is not bounded: `calloc` succeeds whenever the requested element
  count is positive and representable.
-/

namespace TeenyJVM

/-! ## Machine integers -/

/-- Conversion to `int8_t`: the representative modulo 2^8 in `[-128, 127]`. -/
def to_int8 (x : Int) : Int := (x + 128) % 256 - 128

/-- Conversion to `int16_t`: the representative modulo 2^16 in `[-32768, 32767]`. -/
def to_int16 (x : Int) : Int := (x + 32768) % 65536 - 32768

/-- Conversion to `int32_t`: the representative modulo 2^32 in `[-2^31, 2^31)`. -/
def to_int32 (x : Int) : Int := (x + 2147483648) % 4294967296 - 2147483648

/-- Conversion to `u4` (`uint32_t`): the representative modulo 2^32 in `[0, 2^32)`. -/
def to_u4 (x : Int) : Nat := (x % 4294967296).toNat

/-- The values an `int32_t` can hold. -/
@[reducible] def is_int32 (x : Int) : Prop := -2147483648 ≤ x ∧ x ≤ 2147483647

/-! ## Outcomes -/

/-- Reasons for which a run yields no value. -/
inductive halt_t where
  /-- a failed `assert` (in `pop`, `push`) aborts the process -/
  | abort
  /-- integer division trap: zero divisor, or a quotient that is not an `int32_t` -/
  | sigfpe
  /-- access outside the accessed object, or a shift by a count outside `0..31`: the
  program goes on there in a way the embedding does not describe -/
  | undefined
  /-- a heap handle that no allocation returned -/
  | mem_access
  /-- the iteration bound of the model ran out -/
  | no_fuel
  deriving DecidableEq

/-- The C struct `optional_value_t`. -/
structure optional_value_t where
  has_value : Bool
  value : Int
  deriving DecidableEq

/-! ## Class model -/

/-- The C struct `code_t` (declared in `read_class.h`): bytecode and frame sizes. -/
structure code_t where
  /-- the bytes of the method, `u1 *code` -/
  code : List Nat
  max_stack : Nat
  max_locals : Nat
  deriving DecidableEq

/-- The C struct `method_t`, reduced to what `execute` reads. -/
structure method_t where
  code : code_t
  /-- Modelled from the spec: the descriptor parser is not among the sources; each
  Method exposes its declared parameter count. -/
  number_of_parameters : Nat
  deriving DecidableEq

/-- Modelled from the spec: `get_number_of_parameters` is declared in `read_class.h`
and its body is not among the sources; it yields the declared parameter count of
the method. -/
def get_number_of_parameters (meth : method_t) : Nat := meth.number_of_parameters

/-- A constant-pool entry: a `CONSTANT_Integer_info` with its `bytes`, or any other
kind of entry. -/
inductive cp_info where
  | integer (bytes : Int)
  | other
  deriving DecidableEq

/-- The C struct `class_file_t` as `execute` uses it. `find_method_from_index` is
declared in `read_class.h` and its body is not among the sources, so the lookup
is a parameter of the class: `none` stands for an index that names no method. -/
structure class_file_t where
  constant_pool : List cp_info
  find_method_from_index : Int → Option method_t

/-! ## Opcodes -/

/-- Modelled from the spec: `jvm.h` is not among the sources; the opcodes carry the
numbers of the class-file instruction set the interpreter executes. -/
@[reducible, simp] def i_nop : Nat := 0x00
@[reducible, simp] def i_iconst_m1 : Nat := 0x02
@[reducible, simp] def i_iconst_0 : Nat := 0x03
@[reducible, simp] def i_iconst_5 : Nat := 0x08
@[reducible, simp] def i_bipush : Nat := 0x10
@[reducible, simp] def i_sipush : Nat := 0x11
@[reducible, simp] def i_ldc : Nat := 0x12
@[reducible, simp] def i_iload : Nat := 0x15
@[reducible, simp] def i_aload : Nat := 0x19
@[reducible, simp] def i_iload_0 : Nat := 0x1a
@[reducible, simp] def i_iload_3 : Nat := 0x1d
@[reducible, simp] def i_aload_0 : Nat := 0x2a
@[reducible, simp] def i_aload_3 : Nat := 0x2d
@[reducible, simp] def i_iaload : Nat := 0x2e
@[reducible, simp] def i_istore : Nat := 0x36
@[reducible, simp] def i_astore : Nat := 0x3a
@[reducible, simp] def i_istore_0 : Nat := 0x3b
@[reducible, simp] def i_istore_3 : Nat := 0x3e
@[reducible, simp] def i_astore_0 : Nat := 0x4b
@[reducible, simp] def i_astore_3 : Nat := 0x4e
@[reducible, simp] def i_iastore : Nat := 0x4f
@[reducible, simp] def i_dup : Nat := 0x59
@[reducible, simp] def i_iadd : Nat := 0x60
@[reducible, simp] def i_isub : Nat := 0x64
@[reducible, simp] def i_imul : Nat := 0x68
@[reducible, simp] def i_idiv : Nat := 0x6c
@[reducible, simp] def i_irem : Nat := 0x70
@[reducible, simp] def i_ineg : Nat := 0x74
@[reducible, simp] def i_ishl : Nat := 0x78
@[reducible, simp] def i_ishr : Nat := 0x7a
@[reducible, simp] def i_iushr : Nat := 0x7c
@[reducible, simp] def i_iand : Nat := 0x7e
@[reducible, simp] def i_ior : Nat := 0x80
@[reducible, simp] def i_ixor : Nat := 0x82
@[reducible, simp] def i_iinc : Nat := 0x84
@[reducible, simp] def i_ifeq : Nat := 0x99
@[reducible, simp] def i_ifne : Nat := 0x9a
@[reducible, simp] def i_iflt : Nat := 0x9b
@[reducible, simp] def i_ifge : Nat := 0x9c
@[reducible, simp] def i_ifgt : Nat := 0x9d
@[reducible, simp] def i_ifle : Nat := 0x9e
@[reducible, simp] def i_if_icmpeq : Nat := 0x9f
@[reducible, simp] def i_if_icmpne : Nat := 0xa0
@[reducible, simp] def i_if_icmplt : Nat := 0xa1
@[reducible, simp] def i_if_icmpge : Nat := 0xa2
@[reducible, simp] def i_if_icmpgt : Nat := 0xa3
@[reducible, simp] def i_if_icmple : Nat := 0xa4
@[reducible, simp] def i_goto : Nat := 0xa7
@[reducible, simp] def i_ireturn : Nat := 0xac
@[reducible, simp] def i_areturn : Nat := 0xb0
@[reducible, simp] def i_return : Nat := 0xb1
@[reducible, simp] def i_getstatic : Nat := 0xb2
@[reducible, simp] def i_invokevirtual : Nat := 0xb6
@[reducible, simp] def i_invokestatic : Nat := 0xb8
@[reducible, simp] def i_newarray : Nat := 0xbc
@[reducible, simp] def i_arraylength : Nat := 0xbe

/-! ## Operand stack -/

/-- The C struct `stack_t`: `length` is the capacity, `contents` the `size` live
entries, the top of the stack first. -/
structure stack_t where
  length : Nat
  contents : List Int
  deriving DecidableEq

/-- The field `size` of the C struct. -/
def stack_t.size (s : stack_t) : Nat := s.contents.length

/-- The C function `pop`: `assert(stack->size > 0)`, then remove and return the
top entry. -/
def pop (s : stack_t) : Except halt_t (Int × stack_t) :=
  match s.contents with
  | [] => .error .abort
  | popped :: below => .ok (popped, { s with contents := below })

/-- The C function `push`: `assert(stack->size < stack->length)`, then add `b` on
top. -/
def push (s : stack_t) (b : Int) : Except halt_t stack_t :=
  if s.contents.length < s.length then .ok { s with contents := b :: s.contents }
  else .error .abort

/-! ## Heap -/

/-- Modelled from the spec: `heap.c` is not among the sources. The heap is an arena
of owned arrays; the handle of an array is its position in allocation order. -/
abbrev heap_t := List (List Int)

/-- Modelled from the spec: `heap_add` (body not among the sources) stores the array
and returns a fresh handle; handles are assigned in increasing allocation order
and never reused. -/
def heap_add (heap : heap_t) (ptr : List Int) : Int × heap_t :=
  ((heap.length : Int), heap ++ [ptr])

/-- Modelled from the spec: `heap_get` (body not among the sources) returns the array
owned by a handle; a handle that no allocation returned is a fatal memory-access
error. -/
def heap_get (heap : heap_t) (ref : Int) : Except halt_t (List Int) :=
  if 0 ≤ ref then
    match heap[ref.toNat]? with
    | some ptr => .ok ptr
    | none => .error .mem_access
  else .error .mem_access

/-- The read `h[k]` of an `int32_t` through the pointer `h` to a block of
`h.length` ints. Outside the block the C read is unchecked and yields what the
memory there holds, which the embedding does not describe (`undefined`). -/
def array_read (h : List Int) (k : Int) : Except halt_t Int :=
  if 0 ≤ k then
    match h[k.toNat]? with
    | some x => .ok x
    | none => .error .undefined
  else .error .undefined

/-- The write `h[k] = value` through the pointer `h = heap_get(heap, ref)`: the
block owned by the heap under `ref` is updated in place. Outside the block the C
write is unchecked and lands in memory that the embedding does not describe
(`undefined`). -/
def array_write (heap : heap_t) (ref : Int) (h : List Int) (k : Int) (value : Int) :
    Except halt_t heap_t :=
  if 0 ≤ k ∧ k.toNat < h.length then .ok (heap.set ref.toNat (h.set k.toNat value))
  else .error .undefined

/-- The call `calloc(n, sizeof(int32_t))` followed by a write to element 0, as in
`newarray`: a block of `n` zeroed ints when `n` is positive; otherwise (`n` zero
or negative, the latter being a huge `size_t`) there is no element 0 to write. -/
def calloc_counted (n : Int) (count : Int) : Except halt_t (List Int) :=
  if 0 < n then .ok ((List.replicate n.toNat (0 : Int)).set 0 count)
  else .error .undefined

/-! ## Frames -/

/-- The variables of one activation of `execute` (`pc`, the operand stack `s`,
`locals`), with the heap shared by all activations and the lines printed so
far. -/
structure state_t where
  pc : Nat
  s : stack_t
  locals : List Int
  heap : heap_t
  out : List Int
  deriving DecidableEq

/-- What one iteration of the `while (!returned)` loop leaves: the loop goes on
(`next`), or the method returns `result` (`done`). -/
inductive loop_t where
  | next (st : state_t)
  | done (result : optional_value_t) (st : state_t)
  deriving DecidableEq

/-- The read `code.code[i]` with a `u4` index. Past the end of the code the C read is
unchecked and yields what the memory there holds, which the embedding does not
describe (`undefined`). -/
def code_at (code : code_t) (i : Nat) : Except halt_t Nat :=
  match code.code[i % 4294967296]? with
  | some b => .ok b
  | none => .error .undefined

/-- The read `locals[i]`. -/
def local_read (locals : List Int) (i : Nat) : Except halt_t Int :=
  match locals[i]? with
  | some x => .ok x
  | none => .error .undefined

/-- The write `locals[i] = x`. -/
def local_write (locals : List Int) (i : Nat) (x : Int) : Except halt_t (List Int) :=
  if i < locals.length then .ok (locals.set i x) else .error .undefined

/-- The `int16_t jump = (b1 << 8) | b2` of the branch instructions. -/
def jump_of (b1 b2 : Nat) : Int := to_int16 (((b1 <<< 8) ||| b2 : Nat) : Int)

/-- The update `pc += jump` of a `u4` by an `int16_t`. -/
def pc_add (pc : Nat) (jump : Int) : Nat := to_u4 ((pc : Int) + jump)

/-- The body shared by the taken branches: read the two offset bytes and jump
relative to the address of the branch instruction. -/
def branch (code : code_t) (st : state_t) (s : stack_t) : Except halt_t loop_t := do
  let b1 ← code_at code (st.pc + 1)
  let b2 ← code_at code (st.pc + 2)
  let jump := jump_of b1 b2
  pure (.next { st with pc := pc_add st.pc jump, s := s })

/-- The `int32_t` quotient `a / b`: the division traps on a zero divisor and on the
one quotient that is not representable. -/
def int32_div (a b : Int) : Except halt_t Int :=
  if b = 0 then .error .sigfpe
  else if a = -2147483648 ∧ b = -1 then .error .sigfpe
  else .ok (Int.tdiv a b)

/-- The `int32_t` remainder `a % b`, computed by the same division. -/
def int32_rem (a b : Int) : Except halt_t Int :=
  if b = 0 then .error .sigfpe
  else if a = -2147483648 ∧ b = -1 then .error .sigfpe
  else .ok (Int.tmod a b)

/-- The loop `for (int i = 0; i < num_params; i++) loc[num_params - i - 1] = pop(s)`
of `invokestatic`, with `k` iterations left to run from index `i`. -/
def pop_params (num_params : Nat) :
    Nat → Nat → stack_t → List Int → Except halt_t (stack_t × List Int)
  | 0, _, s, loc => .ok (s, loc)
  | k + 1, i, s, loc => do
    let (b, s1) ← pop s
    let loc1 ← local_write loc (num_params - i - 1) b
    pop_params num_params k (i + 1) s1 loc1

/-- The type of the recursive call `execute(meth, loc, class, heap)`: from the
callee, its locals, the heap and the output so far to the returned value, the
heap and the output afterwards. -/
abbrev callee_t :=
  method_t → List Int → heap_t → List Int → Except halt_t (optional_value_t × heap_t × List Int)

/-- The increment `pc += k` of the `u4` program counter. -/
def pc_inc (pc k : Nat) : Nat := (pc + k) % 4294967296

/-- The shift count of `a << b`, `a >> b`: the C operators are defined for counts in
`0..31` only. -/
def shift_count (b : Int) : Except halt_t Nat :=
  if 0 ≤ b ∧ b < 32 then .ok b.toNat else .error .undefined

/-- The read `((CONSTANT_Integer_info *) class->constant_pool[k].info)->bytes`. -/
def cp_integer (cls : class_file_t) (k : Int) : Except halt_t Int :=
  if 0 ≤ k then
    match cls.constant_pool[k.toNat]? with
    | some (.integer bytes) => .ok bytes
    | _ => .error .undefined
  else .error .undefined

/-- The call `find_method_from_index(index, class)`; the result is dereferenced at
once, so an index that names no method leaves no defined behaviour. -/
def lookup_method (cls : class_file_t) (index : Int) : Except halt_t method_t :=
  match cls.find_method_from_index index with
  | some meth => .ok meth
  | none => .error .undefined

/-- The end of `invokestatic`, once the callee has returned `new_result` and left the
heap and the output as given: `if (new_result.has_value) push(s, new_result.value)`
and `pc += 3`. -/
def invoke_return (st : state_t) (s : stack_t)
    (returned : optional_value_t × heap_t × List Int) : Except halt_t loop_t := do
  let (new_result, heap, out) := returned
  let s ← if new_result.has_value then push s new_result.value else pure s
  pure (.next { st with s := s, heap := heap, out := out, pc := pc_inc st.pc 3 })

/-! ## The interpreter loop -/

/-- One iteration of the `while (!returned)` loop of `execute`, branch by branch in
the order of the source. `call` is the recursive call of `execute` made by
`invokestatic`. A byte that no branch handles leaves every variable as it is and
the loop goes on. -/
def step (cls : class_file_t) (call : callee_t) (method : method_t) (st : state_t) :
    Except halt_t loop_t := do
  let code := method.code
  let pc := st.pc
  let s := st.s
  let locals := st.locals
  let instructions ← code_at code pc
  if instructions = i_bipush then
    let b ← code_at code (pc + 1)
    let s ← push s (to_int8 b)
    pure (.next { st with s := s, pc := pc_inc pc 2 })
  else if instructions = i_iadd then
    let (i1, s) ← pop s
    let (i2, s) ← pop s
    let s ← push s (to_int32 (i1 + i2))
    pure (.next { st with s := s, pc := pc_inc pc 1 })
  else if instructions = i_return then
    pure (.done { has_value := false, value := 0 } st)
  else if instructions = i_getstatic then
    pure (.next { st with pc := pc_inc pc 3 })
  else if instructions = i_invokevirtual then
    let (x, s) ← pop s
    pure (.next { st with s := s, out := st.out ++ [x], pc := pc_inc pc 3 })
  else if i_iconst_m1 ≤ instructions ∧ instructions ≤ i_iconst_5 then
    let s ← push s ((instructions : Int) - (i_iconst_0 : Int))
    pure (.next { st with s := s, pc := pc_inc pc 1 })
  else if instructions = i_sipush then
    let b1 ← code_at code (pc + 1)
    let b2 ← code_at code (pc + 2)
    let b := to_int16 (Int.lor (to_int16 ((b1 <<< 8 : Nat) : Int)) (b2 : Int))
    let s ← push s b
    pure (.next { st with s := s, pc := pc_inc pc 3 })
  else if instructions = i_iadd then
    let (b, s) ← pop s
    let (a, s) ← pop s
    let s ← push s (to_int32 (a + b))
    pure (.next { st with s := s, pc := pc_inc pc 1 })
  else if instructions = i_isub then
    let (b, s) ← pop s
    let (a, s) ← pop s
    let s ← push s (to_int32 (a - b))
    pure (.next { st with s := s, pc := pc_inc pc 1 })
  else if instructions = i_imul then
    let (b, s) ← pop s
    let (a, s) ← pop s
    let s ← push s (to_int32 (a * b))
    pure (.next { st with s := s, pc := pc_inc pc 1 })
  else if instructions = i_idiv then
    let (b, s) ← pop s
    let (a, s) ← pop s
    let q ← int32_div a b
    let s ← push s q
    pure (.next { st with s := s, pc := pc_inc pc 1 })
  else if instructions = i_irem then
    let (b, s) ← pop s
    let (a, s) ← pop s
    let r ← int32_rem a b
    let s ← push s r
    pure (.next { st with s := s, pc := pc_inc pc 1 })
  else if instructions = i_ineg then
    let (a, s) ← pop s
    let s ← push s (to_int32 (-1 * a))
    pure (.next { st with s := s, pc := pc_inc pc 1 })
  else if instructions = i_ishl then
    let (b, s) ← pop s
    let (a, s) ← pop s
    let n ← shift_count b
    let s ← push s (to_int32 (a * 2 ^ n))
    pure (.next { st with s := s, pc := pc_inc pc 1 })
  else if instructions = i_ishr then
    let (b, s) ← pop s
    let (a, s) ← pop s
    let n ← shift_count b
    let s ← push s (a / 2 ^ n)
    pure (.next { st with s := s, pc := pc_inc pc 1 })
  else if instructions = i_iushr then
    let (b, s) ← pop s
    let (a, s) ← pop s
    let n ← shift_count b
    let s ← push s (to_int32 ((to_u4 a / 2 ^ n : Nat) : Int))
    pure (.next { st with s := s, pc := pc_inc pc 1 })
  else if instructions = i_iand then
    let (b, s) ← pop s
    let (a, s) ← pop s
    let s ← push s (Int.land a b)
    pure (.next { st with s := s, pc := pc_inc pc 1 })
  else if instructions = i_ior then
    let (b, s) ← pop s
    let (a, s) ← pop s
    let s ← push s (Int.lor a b)
    pure (.next { st with s := s, pc := pc_inc pc 1 })
  else if instructions = i_ixor then
    let (b, s) ← pop s
    let (a, s) ← pop s
    let s ← push s (Int.xor a b)
    pure (.next { st with s := s, pc := pc_inc pc 1 })
  else if instructions = i_iload then
    let i ← code_at code (pc + 1)
    let b ← local_read locals i
    let s ← push s b
    pure (.next { st with s := s, pc := pc_inc pc 2 })
  else if instructions = i_istore then
    let i ← code_at code (pc + 1)
    let (x, s) ← pop s
    let locals ← local_write locals i x
    pure (.next { st with s := s, locals := locals, pc := pc_inc pc 2 })
  else if instructions = i_iinc then
    let i ← code_at code (pc + 1)
    let b ← code_at code (pc + 2)
    let x ← local_read locals i
    let locals ← local_write locals i (to_int32 (x + to_int8 b))
    pure (.next { st with locals := locals, pc := pc_inc pc 3 })
  else if i_iload_0 ≤ instructions ∧ instructions ≤ i_iload_3 then
    let b ← local_read locals (instructions - i_iload_0)
    let s ← push s b
    pure (.next { st with s := s, pc := pc_inc pc 1 })
  else if i_istore_0 ≤ instructions ∧ instructions ≤ i_istore_3 then
    let (x, s) ← pop s
    let locals ← local_write locals (instructions - i_istore_0) x
    pure (.next { st with s := s, locals := locals, pc := pc_inc pc 1 })
  else if instructions = i_ldc then
    let b ← code_at code (pc + 1)
    let bytes ← cp_integer cls ((b : Int) - 1)
    let s ← push s bytes
    pure (.next { st with s := s, pc := pc_inc pc 2 })
  else if i_ifeq ≤ instructions ∧ instructions ≤ i_ifle then
    let (a, s) ← pop s
    if instructions = i_ifeq ∧ a = 0 then branch code st s
    else if instructions = i_ifne ∧ a ≠ 0 then branch code st s
    else if instructions = i_iflt ∧ a < 0 then branch code st s
    else if instructions = i_ifge ∧ a ≥ 0 then branch code st s
    else if instructions = i_ifgt ∧ a > 0 then branch code st s
    else if instructions = i_ifle ∧ a ≤ 0 then branch code st s
    else pure (.next { st with s := s, pc := pc_inc pc 3 })
  else if i_if_icmpeq ≤ instructions ∧ instructions ≤ i_if_icmple then
    let (b, s) ← pop s
    let (a, s) ← pop s
    if instructions = i_if_icmpeq ∧ a = b then branch code st s
    else if instructions = i_if_icmpne ∧ a ≠ b then branch code st s
    else if instructions = i_if_icmplt ∧ a < b then branch code st s
    else if instructions = i_if_icmpgt ∧ a > b then branch code st s
    else if instructions = i_if_icmpge ∧ a ≥ b then branch code st s
    else if instructions = i_if_icmple ∧ a ≤ b then branch code st s
    else pure (.next { st with s := s, pc := pc_inc pc 3 })
  else if instructions = i_goto then
    branch code st s
  else if instructions = i_ireturn then
    let (x, s) ← pop s
    pure (.done { has_value := true, value := x } { st with s := s })
  else if instructions = i_invokestatic then
    let b1 ← code_at code (pc + 1)
    let b2 ← code_at code (pc + 2)
    let index := jump_of b1 b2
    let meth ← lookup_method cls index
    let num_params := get_number_of_parameters meth
    let loc := List.replicate meth.code.max_locals (0 : Int)
    let (s, loc) ← pop_params num_params num_params 0 s loc
    let returned ← call meth loc st.heap st.out
    invoke_return st s returned
  else if instructions = i_nop then
    pure (.next { st with pc := pc_inc pc 1 })
  else if instructions = i_dup then
    let (a, s) ← pop s
    let s ← push s a
    let s ← push s a
    pure (.next { st with s := s, pc := pc_inc pc 1 })
  else if instructions = i_newarray then
    let (count, s) ← pop s
    let new ← calloc_counted (to_int32 (count + 1)) count
    let (ref, heap) := heap_add st.heap new
    let s ← push s ref
    pure (.next { st with s := s, heap := heap, pc := pc_inc pc 2 })
  else if instructions = i_arraylength then
    let (ref, s) ← pop s
    let h ← heap_get st.heap ref
    let x ← array_read h 0
    let s ← push s x
    pure (.next { st with s := s, pc := pc_inc pc 1 })
  else if instructions = i_areturn then
    let (x, s) ← pop s
    pure (.done { has_value := true, value := x } { st with s := s })
  else if instructions = i_iastore then
    let (value, s) ← pop s
    let (index, s) ← pop s
    let (ref, s) ← pop s
    let h ← heap_get st.heap ref
    let heap ← array_write st.heap ref h (to_int32 (index + 1)) value
    pure (.next { st with s := s, heap := heap, pc := pc_inc pc 1 })
  else if instructions = i_iaload then
    let (index, s) ← pop s
    let (ref, s) ← pop s
    let h ← heap_get st.heap ref
    let x ← array_read h (to_int32 (index + 1))
    let s ← push s x
    pure (.next { st with s := s, pc := pc_inc pc 1 })
  else if instructions = i_aload then
    let i ← code_at code (pc + 1)
    let b ← local_read locals i
    let s ← push s b
    pure (.next { st with s := s, pc := pc_inc pc 2 })
  else if instructions = i_astore then
    let i ← code_at code (pc + 1)
    let (x, s) ← pop s
    let locals ← local_write locals i x
    pure (.next { st with s := s, locals := locals, pc := pc_inc pc 2 })
  else if i_aload_0 ≤ instructions ∧ instructions ≤ i_aload_3 then
    let b ← local_read locals (instructions - i_aload_0)
    let s ← push s b
    pure (.next { st with s := s, pc := pc_inc pc 1 })
  else if i_astore_0 ≤ instructions ∧ instructions ≤ i_astore_3 then
    let (ref, s) ← pop s
    let locals ← local_write locals (instructions - i_astore_0) ref
    pure (.next { st with s := s, locals := locals, pc := pc_inc pc 1 })
  else
    pure (.next st)

/-- The state in which `execute` enters its loop: `pc = 0` and an empty operand
stack of capacity `max_stack`. -/
def state_t.entry (method : method_t) (locals : List Int) (heap : heap_t) (out : List Int) :
    state_t :=
  { pc := 0, s := { length := method.code.max_stack, contents := [] },
    locals := locals, heap := heap, out := out }

/-- The loop of `execute` from the state `st`, for at most `fuel` iterations in this
activation and at most `fuel` nested calls. -/
def run (cls : class_file_t) : Nat → method_t → state_t →
    Except halt_t (optional_value_t × state_t)
  | 0, _, _ => .error .no_fuel
  | fuel + 1, method, st =>
    match step cls
        (fun meth loc heap out =>
          match run cls fuel meth (state_t.entry meth loc heap out) with
          | .ok (r, st1) => .ok (r, st1.heap, st1.out)
          | .error e => .error e)
        method st with
    | .error e => .error e
    | .ok (.next st1) => run cls fuel method st1
    | .ok (.done result st1) => .ok (result, st1)

/-- The C function `execute`: run `method` on `locals` until it returns; the result
is the returned value with the heap and the output at that point. -/
def execute (cls : class_file_t) (fuel : Nat) (method : method_t) (locals : List Int)
    (heap : heap_t) (out : List Int) : Except halt_t (optional_value_t × heap_t × List Int) :=
  match run cls fuel method (state_t.entry method locals heap out) with
  | .ok (r, st1) => .ok (r, st1.heap, st1.out)
  | .error e => .error e

/-! ## Example programs -/

/-- A class with an empty constant pool and no methods to call. -/
def empty_class : class_file_t :=
  { constant_pool := [], find_method_from_index := fun _ => none }

/-- A callee that is never reached, for single steps that call nothing. -/
def no_call : callee_t := fun _ _ _ _ => .error .no_fuel

/-- The method `bipush 5; bipush 3; iadd; ireturn`. -/
def add_5_3 : method_t :=
  { code := { code := [i_bipush, 5, i_bipush, 3, i_iadd, i_ireturn], max_stack := 2,
              max_locals := 0 },
    number_of_parameters := 0 }

/-- A method made of the single byte `op`, with room for two operands. -/
def single_op (op : Nat) : method_t :=
  { code := { code := [op], max_stack := 2, max_locals := 0 }, number_of_parameters := 0 }

/-- The state at address 0 whose operand stack (capacity 2) holds `contents`, top
first; no locals, empty heap, nothing printed. -/
def operands (contents : List Int) : state_t :=
  { pc := 0, s := { length := 2, contents := contents }, locals := [], heap := [], out := [] }

/-- The static method `sub(a, b) = a - b`: `iload_0; iload_1; isub; ireturn`. -/
def sub_method : method_t :=
  { code := { code := [i_iload_0, i_iload_0 + 1, i_isub, i_ireturn], max_stack := 2,
              max_locals := 2 },
    number_of_parameters := 2 }

/-- A class in which the constant-pool index 2 names the method `sub`. -/
def sub_class : class_file_t :=
  { constant_pool := [],
    find_method_from_index := fun index => if index = 2 then some sub_method else none }

/-- The caller `bipush 10; bipush 4; invokestatic #2; ireturn`. -/
def call_sub : method_t :=
  { code := { code := [i_bipush, 10, i_bipush, 4, i_invokestatic, 0, 2, i_ireturn],
              max_stack := 2, max_locals := 0 },
    number_of_parameters := 0 }

/-- The caller of `sub` at its `invokestatic` (address 4), 10 pushed first and 4 on
top. -/
def at_invoke_sub : state_t :=
  { pc := 4, s := { length := 2, contents := [4, 10] }, locals := [], heap := [], out := [] }

/-- The method `newarray int` (one operand byte, the element type). -/
def newarray_int : method_t :=
  { code := { code := [i_newarray, 10], max_stack := 2, max_locals := 0 },
    number_of_parameters := 0 }

/-- The method `iconst_3; newarray int; astore_0; aload_0; iconst_1; bipush 42; iastore;
aload_0; iconst_1; iaload; ireturn`. -/
def store_then_load : method_t :=
  { code := { code := [i_iconst_0 + 3, i_newarray, 10, i_astore_0, i_aload_0, i_iconst_0 + 1,
                       i_bipush, 42, i_iastore, i_aload_0, i_iconst_0 + 1, i_iaload,
                       i_ireturn],
              max_stack := 3, max_locals := 1 },
    number_of_parameters := 0 }

/-- The method `iconst_3; newarray int; astore_0; aload_0; iconst_1; bipush 42; iastore;
aload_0; arraylength; ireturn`. -/
def store_then_length : method_t :=
  { code := { code := [i_iconst_0 + 3, i_newarray, 10, i_astore_0, i_aload_0, i_iconst_0 + 1,
                       i_bipush, 42, i_iastore, i_aload_0, i_arraylength, i_ireturn],
              max_stack := 3, max_locals := 1 },
    number_of_parameters := 0 }

/-- A state at an `iastore`: the heap holds one array of length 3 under handle 0, and
the stack holds the handle 0, the index 1 and, on top, the value 42. -/
def at_iastore : state_t :=
  { pc := 0, s := { length := 3, contents := [42, 1, 0] }, locals := [],
    heap := [[3, 0, 0, 0]], out := [] }

/-- The static method `seven()`: `bipush 7; ireturn`, no parameter. -/
def seven : method_t :=
  { code := { code := [i_bipush, 7, i_ireturn], max_stack := 1, max_locals := 0 },
    number_of_parameters := 0 }

/-- A class in which the constant-pool index 2 names the method `seven`. -/
def seven_class : class_file_t :=
  { constant_pool := [],
    find_method_from_index := fun index => if index = 2 then some seven else none }

/-- The caller `invokestatic #2; ireturn`, with an operand stack of capacity 1. -/
def call_seven : method_t :=
  { code := { code := [i_invokestatic, 0, 2, i_ireturn], max_stack := 1, max_locals := 0 },
    number_of_parameters := 0 }

/-- The caller of `seven` at its `invokestatic`, its stack of capacity 1 holding one
entry. -/
def full_caller : state_t :=
  { pc := 0, s := { length := 1, contents := [1] }, locals := [], heap := [], out := [] }

/-- A state at an `iastore` or `iaload` at address 0: the heap holds one array of
length 3 under handle 0, and the stack (capacity 3) holds `contents`, top first. -/
def on_array (contents : List Int) : state_t :=
  { pc := 0, s := { length := 3, contents := contents }, locals := [],
    heap := [[3, 0, 0, 0]], out := [] }

/-- The method `iconst_1; areturn`. -/
def areturn_one : method_t :=
  { code := { code := [i_iconst_0 + 1, i_areturn], max_stack := 1, max_locals := 0 },
    number_of_parameters := 0 }

/-- The state of `areturn_one` at its `areturn` (address 1), the value 1 on the stack. -/
def at_areturn : state_t :=
  { pc := 1, s := { length := 1, contents := [1] }, locals := [], heap := [], out := [] }

/-- The method `bipush 4; ifle L; bipush 1; ireturn; L: bipush 0; ireturn`: the `ifle` is
at address 2 and `L` is address 8, so its offset is 6. -/
def ifle_demo : method_t :=
  { code := { code := [i_bipush, 4, i_ifle, 0, 6, i_bipush, 1, i_ireturn, i_bipush, 0,
                       i_ireturn],
              max_stack := 1, max_locals := 0 },
    number_of_parameters := 0 }

/-- The method `iinc 0 c`, with one local slot. -/
def iinc_0 (c : Nat) : method_t :=
  { code := { code := [i_iinc, 0, c], max_stack := 0, max_locals := 1 },
    number_of_parameters := 0 }

/-- The state at address 0 with the single local slot `x` and an empty operand stack of
capacity 0. -/
def one_local (x : Int) : state_t :=
  { pc := 0, s := { length := 0, contents := [] }, locals := [x], heap := [], out := [] }

/-- The state of `add_5_3` after its two `bipush`: at the `iadd` (address 4), 5 below 3
on the stack. -/
def add_5_3_at_iadd : state_t :=
  { pc := 4, s := { length := 2, contents := [3, 5] }, locals := [], heap := [], out := [] }

/-- The static method `fact`: `iload_0; iconst_1; if_icmpgt +5; iconst_1; ireturn; iload_0;
iload_0; iconst_1; isub; invokestatic #2; imul; ireturn`, one parameter. -/
def fact_method (max_stack max_locals : Nat) : method_t :=
  { code := { code := [i_iload_0, i_iconst_0 + 1, i_if_icmpgt, 0, 5, i_iconst_0 + 1, i_ireturn,
                       i_iload_0, i_iload_0, i_iconst_0 + 1, i_isub, i_invokestatic, 0, 2,
                       i_imul, i_ireturn],
              max_stack := max_stack, max_locals := max_locals },
    number_of_parameters := 1 }

/-- A class in which the constant-pool index 2 names the method `fact`. -/
def fact_class (max_stack max_locals : Nat) : class_file_t :=
  { constant_pool := [],
    find_method_from_index := fun index =>
      if index = 2 then some (fact_method max_stack max_locals) else none }

/-- The static method `store_42(h)`: `aload_0; iconst_0; bipush 42; iastore; bipush 9;
istore_0; iinc 0 5; bipush 3; return`. It stores 42 at index 0 of the array `h`,
overwrites and increments its own local 0, leaves an entry on its own operand
stack and returns no value. -/
def store_42 : method_t :=
  { code := { code := [i_aload_0, i_iconst_0, i_bipush, 42, i_iastore, i_bipush, 9,
                       i_istore_0, i_iinc, 0, 5, i_bipush, 3, i_return],
              max_stack := 3, max_locals := 1 },
    number_of_parameters := 1 }

/-- A class in which the constant-pool index 2 names the method `store_42`. -/
def store_class : class_file_t :=
  { constant_pool := [],
    find_method_from_index := fun index => if index = 2 then some store_42 else none }

/-- The caller `iconst_2; newarray int; astore_1; bipush 7; istore_0; bipush 5; aload_1;
invokestatic #2; aload_1; iconst_0; iaload; iload_0; iadd; iadd; ireturn`: it keeps 7 in
local 0 and 5 on the stack across the call of `store_42` on its array, then adds
them to the element 0 of the array. -/
def call_store : method_t :=
  { code := { code := [i_iconst_0 + 2, i_newarray, 10, i_astore_0 + 1, i_bipush, 7, i_istore_0,
                       i_bipush, 5, i_aload_0 + 1, i_invokestatic, 0, 2, i_aload_0 + 1,
                       i_iconst_0, i_iaload, i_iload_0, i_iadd, i_iadd, i_ireturn],
              max_stack := 3, max_locals := 2 },
    number_of_parameters := 0 }

/-- The caller of `store_42` at its `invokestatic` (address 10): 7 in local 0, the
handle 0 in local 1 and on top of the stack, 5 below it, and the array
`[2, 0, 0]` in the heap. -/
def at_call_store : state_t :=
  { pc := 10, s := { length := 3, contents := [0, 5] }, locals := [7, 0],
    heap := [[2, 0, 0]], out := [] }

/-- A method made of the 2-byte instruction `op b`, with room for two operands. -/
def op_with_byte (op b : Nat) : method_t :=
  { code := { code := [op, b], max_stack := 2, max_locals := 0 }, number_of_parameters := 0 }

/-- A class whose constant pool holds the integer constant 100000 as its entry 1. -/
def pool_class : class_file_t :=
  { constant_pool := [.integer 100000], find_method_from_index := fun _ => none }

/-- A method made of two `ineg` in a row. -/
def ineg_twice : method_t :=
  { code := { code := [i_ineg, i_ineg], max_stack := 2, max_locals := 0 },
    number_of_parameters := 0 }

/-- The state at address 0 with the local slots `locals` and the operand stack
`contents` (top first) of capacity 2; empty heap, nothing printed. -/
def with_locals (locals contents : List Int) : state_t :=
  { pc := 0, s := { length := 2, contents := contents }, locals := locals, heap := [],
    out := [] }

/-- A method that prints 7, then 2: `getstatic; bipush 7; invokevirtual; getstatic;
iconst_2; invokevirtual; return`. -/
def print_7_2 : method_t :=
  { code := { code := [i_getstatic, 0, 2, i_bipush, 7, i_invokevirtual, 0, 3, i_getstatic, 0, 2,
                       i_iconst_0 + 2, i_invokevirtual, 0, 3, i_return],
              max_stack := 1, max_locals := 0 },
    number_of_parameters := 0 }

/-- The static method `make()`: `iconst_3; newarray int; areturn`, which returns the
handle of a new array of length 3. -/
def make_array : method_t :=
  { code := { code := [i_iconst_0 + 3, i_newarray, 10, i_areturn], max_stack := 1,
              max_locals := 0 },
    number_of_parameters := 0 }

/-- A class in which the constant-pool index 1 names the method `make`. -/
def array_class : class_file_t :=
  { constant_pool := [],
    find_method_from_index := fun index => if index = 1 then some make_array else none }

/-- The caller `invokestatic make; arraylength; ireturn`. -/
def use_array : method_t :=
  { code := { code := [i_invokestatic, 0, 1, i_arraylength, i_ireturn], max_stack := 1,
              max_locals := 0 },
    number_of_parameters := 0 }

/-- The caller `bipush 5; invokestatic make; areturn` with room for one operand: its
stack is full when it calls `make`. -/
def push_then_make : method_t :=
  { code := { code := [i_bipush, 5, i_invokestatic, 0, 1, i_areturn], max_stack := 1,
              max_locals := 0 },
    number_of_parameters := 0 }

/-- The state of `make` at its `areturn` (address 3): the handle 0 of the new array on
the stack. -/
def at_make_areturn : state_t :=
  { pc := 3, s := { length := 1, contents := [0] }, locals := [], heap := [[3, 0, 0, 0]],
    out := [] }

/-- The method `istore 1; iload 1`. -/
def istore_iload_1 : method_t :=
  { code := { code := [i_istore, 1, i_iload, 1], max_stack := 2, max_locals := 2 },
    number_of_parameters := 0 }

/-! ## Vocabulary of the statements -/

/-- The second operand `b` is on top, the first operand `a` below it: a binary
instruction whose result is `r` replaces both by `r` and moves to the next byte. -/
def binary_result (st : state_t) (rest : List Int) (r : Int) : Except halt_t loop_t :=
  .ok (.next { st with s := { st.s with contents := r :: rest }, pc := st.pc + 1 })

/-- The state after a branch instruction at `st.pc` that is taken with offset `D`: the
operands are gone, `rest` is left, and the program counter is `st.pc + D`. -/
def branch_taken (st : state_t) (rest : List Int) (D : Int) : Except halt_t loop_t :=
  .ok (.next { st with s := { st.s with contents := rest }, pc := ((st.pc : Int) + D).toNat })

/-- The state after a branch instruction at `st.pc` that is not taken: the operands
are gone, `rest` is left, and the program counter is past the 3-byte instruction. -/
def branch_not_taken (st : state_t) (rest : List Int) : Except halt_t loop_t :=
  .ok (.next { st with s := { st.s with contents := rest }, pc := st.pc + 3 })

/-- A method made of one 3-byte instruction `op b1 b2`, with room for two operands. -/
def branch_op (op b1 b2 : Nat) : method_t :=
  { code := { code := [op, b1, b2], max_stack := 2, max_locals := 0 },
    number_of_parameters := 0 }

/-- The opcode bytes for which the loop of `execute` has a branch, in the order of the
source. -/
def handled (op : Nat) : Prop :=
  op = i_bipush ∨ op = i_iadd ∨ op = i_return ∨ op = i_getstatic ∨ op = i_invokevirtual ∨
    (i_iconst_m1 ≤ op ∧ op ≤ i_iconst_5) ∨ op = i_sipush ∨ op = i_isub ∨ op = i_imul ∨
    op = i_idiv ∨ op = i_irem ∨ op = i_ineg ∨ op = i_ishl ∨ op = i_ishr ∨ op = i_iushr ∨
    op = i_iand ∨ op = i_ior ∨ op = i_ixor ∨ op = i_iload ∨ op = i_istore ∨ op = i_iinc ∨
    (i_iload_0 ≤ op ∧ op ≤ i_iload_3) ∨ (i_istore_0 ≤ op ∧ op ≤ i_istore_3) ∨ op = i_ldc ∨
    (i_ifeq ≤ op ∧ op ≤ i_ifle) ∨ (i_if_icmpeq ≤ op ∧ op ≤ i_if_icmple) ∨ op = i_goto ∨
    op = i_ireturn ∨ op = i_invokestatic ∨ op = i_nop ∨ op = i_dup ∨ op = i_newarray ∨
    op = i_arraylength ∨ op = i_areturn ∨ op = i_iastore ∨ op = i_iaload ∨ op = i_aload ∨
    op = i_astore ∨ (i_aload_0 ≤ op ∧ op ≤ i_aload_3) ∨ (i_astore_0 ≤ op ∧ op ≤ i_astore_3)

instance handled_decidable (op : Nat) : Decidable (handled op) := by
  unfold handled
  infer_instance

/-- What every iteration of the loop keeps of the frame: the capacity of the operand
stack, the bound of its size by the capacity, and the number of local slots. -/
def frame_kept (st st1 : state_t) : Prop :=
  st1.s.length = st.s.length
    ∧ (st.s.contents.length ≤ st.s.length → st1.s.contents.length ≤ st1.s.length)
    ∧ st1.locals.length = st.locals.length

/-- What an iteration that fetched the byte `op` and did not stop leaves: the frame is
kept, and the method returns only on `return`, `ireturn` or `areturn`. -/
def step_effect (st : state_t) (op : Nat) : loop_t → Prop
  | .next st1 => frame_kept st st1
  | .done _ st1 => frame_kept st st1 ∧ (op = i_return ∨ op = i_ireturn ∨ op = i_areturn)

/-- `loop_reaches cls m fuel st fuel1 st1`: the loop of `execute` on the method `m`,
entered in the state `st` with `fuel` iterations allowed, is in the state `st1`
with `fuel1` iterations left after some iterations, none of which returned or
stopped. Nested calls made on the way are `execute` with the fuel left. -/
inductive loop_reaches (cls : class_file_t) (m : method_t) :
    Nat → state_t → Nat → state_t → Prop where
  | here (fuel : Nat) (st : state_t) : loop_reaches cls m fuel st fuel st
  | iterate (fuel : Nat) (st st1 : state_t) (fuel2 : Nat) (st2 : state_t) :
      step cls (execute cls fuel) m st = .ok (.next st1) →
      loop_reaches cls m fuel st1 fuel2 st2 →
      loop_reaches cls m (fuel + 1) st fuel2 st2

/-- The state an iteration leaves, whether the loop goes on or the method returns. -/
def loop_t.state : loop_t → state_t
  | .next st => st
  | .done _ st => st

/-- What a `k`-byte instruction that pushes `x` leaves: with room on the operand stack,
`x` on top of the entries that were there and the program counter `k` further; on a
stack that holds `max_stack` entries already, the failed assertion of `push`. -/
def pushed (st : state_t) (x : Int) (k : Nat) : Except halt_t loop_t :=
  if st.s.contents.length < st.s.length then
    .ok (.next { st with s := { st.s with contents := x :: st.s.contents }, pc := st.pc + k })
  else .error .abort

/-- The callee of the `invokestatic` at `st.pc` and the locals it is entered with: the
part of the instruction that precedes the recursive call of `execute`. -/
def invoked (cls : class_file_t) (m : method_t) (st : state_t) :
    Except halt_t (method_t × List Int) := do
  let b1 ← code_at m.code (st.pc + 1)
  let b2 ← code_at m.code (st.pc + 2)
  let meth ← lookup_method cls (jump_of b1 b2)
  let num_params := get_number_of_parameters meth
  let loc := List.replicate meth.code.max_locals (0 : Int)
  let (_, loc) ← pop_params num_params num_params 0 st.s loc
  pure (meth, loc)

/-- The values that are on top of the operand stack at each `invokevirtual` executed by
the loop of `execute` on the method `m` from the state `st`, in the order of
execution, those executed by the nested calls of `invokestatic` included. -/
def tops_at_invokevirtual (cls : class_file_t) : Nat → method_t → state_t → List Int
  | 0, _, _ => []
  | fuel + 1, m, st =>
    let here : List Int :=
      match code_at m.code st.pc with
      | .error _ => []
      | .ok op =>
        if op = i_invokevirtual then st.s.contents.take 1
        else if op = i_invokestatic then
          match invoked cls m st with
          | .ok (meth, loc) =>
            tops_at_invokevirtual cls fuel meth (state_t.entry meth loc st.heap st.out)
          | .error _ => []
        else []
    match step cls (execute cls fuel) m st with
    | .ok (.next st1) => here ++ tops_at_invokevirtual cls fuel m st1
    | _ => here

/-- What an iteration that fetched the byte `op` and did not stop does to the output:
`invokevirtual` appends the top of the stack, `invokestatic` leaves the output of
the call it made, every other instruction leaves the output as it is. -/
def out_effect (cls : class_file_t) (call : callee_t) (m : method_t) (st : state_t)
    (op : Nat) (res : loop_t) : Prop :=
  (op = i_invokevirtual ∧ ∃ (v : Int) (rest : List Int) (st1 : state_t),
      st.s.contents = v :: rest ∧ res = .next st1 ∧ st1.out = st.out ++ [v])
    ∨ (op = i_invokestatic ∧ ∃ (meth : method_t) (loc : List Int) (r : optional_value_t)
        (heap1 : heap_t) (st1 : state_t),
        invoked cls m st = .ok (meth, loc)
          ∧ call meth loc st.heap st.out = .ok (r, heap1, st1.out) ∧ res = .next st1)
    ∨ (op ≠ i_invokevirtual ∧ op ≠ i_invokestatic ∧ res.state.out = st.out)

/-! ## Theorems -/

/-! ### Machine integers -/

/-- The reduction to `int32_t` lands in the 32-bit range. -/
theorem to_int32_range (x : Int) : is_int32 (to_int32 x) := by
  unfold is_int32 to_int32
  omega

/-- The reduction to `int32_t` changes its argument by a multiple of 2^32. -/
theorem to_int32_congr (x : Int) : (4294967296 : Int) ∣ (to_int32 x - x) := by
  unfold to_int32
  omega

/-- A value already in the 32-bit range is left as it is. -/
theorem to_int32_of_range (x : Int) (h : is_int32 x) : to_int32 x = x := by
  unfold is_int32 at h
  unfold to_int32
  omega

/-- The truncated quotient of a 32-bit value is a 32-bit value, except for
`-2^31 / -1`. -/
theorem tdiv_is_int32 (a b : Int) (ha : is_int32 a) (hb : b ≠ 0)
    (hne : ¬ (a = -2147483648 ∧ b = -1)) : is_int32 (Int.tdiv a b) := by
  unfold is_int32 at *
  have habs : (Int.tdiv a b).natAbs = a.natAbs / b.natAbs := Int.natAbs_tdiv a b
  by_cases h1 : b = 1
  · subst h1
    simp
    omega
  by_cases h2 : b = -1
  · subst h2
    have : Int.tdiv a (-1) = -a := by
      rw [Int.tdiv_neg]; simp
    rw [this]
    omega
  have hb2 : 2 ≤ b.natAbs := by omega
  have hle : a.natAbs / b.natAbs ≤ a.natAbs / 2 :=
    Nat.div_le_div_left hb2 (by decide)
  omega

/-- The truncated remainder has the sign of the dividend, or is zero, and is smaller in
absolute value than the divisor. -/
theorem tmod_bounds (a b : Int) (hb : b ≠ 0) :
    (0 ≤ a → 0 ≤ Int.tmod a b) ∧ (a ≤ 0 → Int.tmod a b ≤ 0)
      ∧ (Int.tmod a b).natAbs < b.natAbs := by
  have hpos : 0 < b.natAbs := Int.natAbs_pos.mpr hb
  cases a with
  | ofNat m =>
    cases b with
    | ofNat n =>
      have hn : 0 < n := by simpa using hpos
      have := Nat.mod_lt m hn
      have := Nat.mod_le m n
      simp only [Int.tmod, Int.ofNat_eq_coe, Int.natAbs_ofNat]
      refine ⟨fun _ => by omega, fun h => by omega, by omega⟩
    | negSucc n =>
      have := Nat.mod_lt m (Nat.succ_pos n)
      have := Nat.mod_le m (Nat.succ n)
      simp only [Int.tmod, Int.ofNat_eq_coe, Int.natAbs_ofNat, Int.natAbs_negSucc]
      refine ⟨fun _ => by omega, fun h => by omega, by omega⟩
  | negSucc m =>
    cases b with
    | ofNat n =>
      have hn : 0 < n := by simpa using hpos
      have := Nat.mod_lt (Nat.succ m) hn
      simp only [Int.tmod, Int.ofNat_eq_coe, Int.natAbs_ofNat, Int.natAbs_neg, Int.negSucc_eq]
      refine ⟨fun h => by omega, fun _ => by omega, by omega⟩
    | negSucc n =>
      have := Nat.mod_lt (Nat.succ m) (Nat.succ_pos n)
      simp only [Int.tmod, Int.ofNat_eq_coe, Int.natAbs_ofNat, Int.natAbs_neg, Int.negSucc_eq,
        Int.natAbs_negSucc]
      refine ⟨fun h => by omega, fun _ => by omega, by omega⟩

/-! ### Reading the bytecode -/

/-- A byte present at index `i` of a `u4`-sized code array is what `code.code[i]`
reads. -/
theorem code_at_eq (c : code_t) (i b : Nat) (hlen : c.code.length < 4294967296)
    (h : c.code[i]? = some b) : code_at c i = .ok b := by
  have hi : i < c.code.length := by
    by_contra hn
    rw [List.getElem?_eq_none (Nat.le_of_not_lt hn)] at h
    exact Option.noConfusion h
  have hm : i % 4294967296 = i := Nat.mod_eq_of_lt (by omega)
  simp [code_at, hm, h]

/-- The increment `pc += k` does not wrap when the last byte of the `k`-byte
instruction at `pc` lies in the code array. -/
theorem pc_inc_eq (c : code_t) (i b k : Nat) (hlen : c.code.length < 4294967296)
    (h : c.code[i + (k - 1)]? = some b) (hk : 0 < k) : pc_inc i k = i + k := by
  have hi : i + (k - 1) < c.code.length := by
    by_contra hn
    rw [List.getElem?_eq_none (Nat.le_of_not_lt hn)] at h
    exact Option.noConfusion h
  unfold pc_inc
  exact Nat.mod_eq_of_lt (by omega)

/-- One more iteration of the loop: `run` performs a step, whose nested calls are
`execute` with the remaining fuel. -/
theorem run_succ (cls : class_file_t) (fuel : Nat) (m : method_t) (st : state_t) :
    run cls (fuel + 1) m st =
      match step cls (execute cls fuel) m st with
      | .error e => .error e
      | .ok (.next st1) => run cls fuel m st1
      | .ok (.done result st1) => .ok (result, st1) := rfl

/-! ### Arithmetic (C1 to C3) -/

/-- C1: with `a` below `b` on the operand stack, `iadd`, `isub` and `imul` replace the
two operands by `a + b`, `a - b`, `a * b` reduced to 32-bit two's complement (the
`int32_t` congruent to the exact result modulo 2^32) and advance the program
counter by 1; the method `bipush 5; bipush 3; iadd; ireturn` returns the present
value 8. -/
theorem iadd_isub_imul_wraparound (cls : class_file_t) (call : callee_t) (m : method_t)
    (st : state_t) (a b : Int) (rest : List Int)
    (hlen : m.code.code.length < 4294967296)
    (hs : st.s.contents = b :: a :: rest) (hcap : st.s.contents.length ≤ st.s.length) :
    (m.code.code[st.pc]? = some i_iadd →
        step cls call m st = binary_result st rest (to_int32 (a + b)))
    ∧ (m.code.code[st.pc]? = some i_isub →
        step cls call m st = binary_result st rest (to_int32 (a - b)))
    ∧ (m.code.code[st.pc]? = some i_imul →
        step cls call m st = binary_result st rest (to_int32 (a * b)))
    ∧ (∀ x : Int, is_int32 (to_int32 x) ∧ (4294967296 : Int) ∣ (to_int32 x - x))
    ∧ (∀ fuel : Nat, execute cls (fuel + 4) add_5_3 [] [] []
        = .ok ({ has_value := true, value := 8 }, [], [])) := by
  have hc : rest.length < st.s.length := by
    rw [hs] at hcap
    simp at hcap
    omega
  refine ⟨?_, ?_, ?_, fun x => ⟨to_int32_range x, to_int32_congr x⟩, fun fuel => rfl⟩
  · intro hop
    have h1 := code_at_eq m.code st.pc _ hlen hop
    have h2 := pc_inc_eq m.code st.pc _ 1 hlen hop (by decide)
    simp [step, binary_result, h1, h2, pop, push, hs, hc, bind, Except.bind, pure,
      Except.pure, add_comm]
  · intro hop
    have h1 := code_at_eq m.code st.pc _ hlen hop
    have h2 := pc_inc_eq m.code st.pc _ 1 hlen hop (by decide)
    simp [step, binary_result, h1, h2, pop, push, hs, hc, bind, Except.bind, pure,
      Except.pure]
  · intro hop
    have h1 := code_at_eq m.code st.pc _ hlen hop
    have h2 := pc_inc_eq m.code st.pc _ 1 hlen hop (by decide)
    simp [step, binary_result, h1, h2, pop, push, hs, hc, bind, Except.bind, pure,
      Except.pure]

/-- Witness of C1: `iadd` on the operands 2147483647 and 1 (the sum wraps around). -/
theorem iadd_isub_imul_wraparound_witness :
    step empty_class no_call (single_op i_iadd) (operands [1, 2147483647])
      = binary_result (operands [1, 2147483647]) [] (-2147483648) :=
  (iadd_isub_imul_wraparound empty_class no_call (single_op i_iadd)
    (operands [1, 2147483647]) 2147483647 1 [] (by decide) rfl (by decide)).1 rfl

/-- C2 (amended): for every 32-bit `a` and every nonzero `b`, other than the pair
`a = -2^31`, `b = -1`, with `a` below `b` on the operand stack, `idiv` replaces the
operands by the quotient `q` of `a` by `b` truncated toward zero and `irem` by
`r = a - b * q`; `q` is a 32-bit value, `r` has the sign of `a` or is zero and
`|r| < |b|` (which determines `q` as the truncated quotient); both advance the
program counter by 1. -/
theorem idiv_irem_truncate (cls : class_file_t) (call : callee_t) (m : method_t)
    (st : state_t) (a b : Int) (rest : List Int)
    (hlen : m.code.code.length < 4294967296)
    (hs : st.s.contents = b :: a :: rest) (hcap : st.s.contents.length ≤ st.s.length)
    (ha : is_int32 a) (hb : b ≠ 0) (hne : ¬ (a = -2147483648 ∧ b = -1)) :
    (m.code.code[st.pc]? = some i_idiv →
        step cls call m st = binary_result st rest (Int.tdiv a b))
    ∧ (m.code.code[st.pc]? = some i_irem →
        step cls call m st = binary_result st rest (a - b * Int.tdiv a b))
    ∧ is_int32 (Int.tdiv a b)
    ∧ (0 ≤ a → 0 ≤ a - b * Int.tdiv a b)
    ∧ (a ≤ 0 → a - b * Int.tdiv a b ≤ 0)
    ∧ (a - b * Int.tdiv a b).natAbs < b.natAbs := by
  have hc : rest.length < st.s.length := by
    rw [hs] at hcap
    simp at hcap
    omega
  have hr := tmod_bounds a b hb
  rw [Int.tmod_def] at hr
  refine ⟨?_, ?_, tdiv_is_int32 a b ha hb hne, hr.1, hr.2.1, hr.2.2⟩
  · intro hop
    have h1 := code_at_eq m.code st.pc _ hlen hop
    have h2 := pc_inc_eq m.code st.pc _ 1 hlen hop (by decide)
    simp [step, binary_result, h1, h2, pop, push, hs, hc, bind, Except.bind, pure,
      Except.pure, int32_div, hb, hne]
  · intro hop
    have h1 := code_at_eq m.code st.pc _ hlen hop
    have h2 := pc_inc_eq m.code st.pc _ 1 hlen hop (by decide)
    simp [step, binary_result, h1, h2, pop, push, hs, hc, bind, Except.bind, pure,
      Except.pure, int32_rem, hb, hne, Int.tmod_def]

/-- Witness of C2 (amended): `irem` on -7 and 2 leaves -1. -/
theorem idiv_irem_truncate_witness :
    step empty_class no_call (single_op i_irem) (operands [2, -7])
      = binary_result (operands [2, -7]) [] (-7 - 2 * Int.tdiv (-7) 2) :=
  (idiv_irem_truncate empty_class no_call (single_op i_irem) (operands [2, -7]) (-7) 2 []
    (by decide) rfl (by decide) (by decide) (by decide) (by decide)).2.1 rfl

/-- Counterexample to C2 as stated: at `a = -2^31`, `b = -1` the quotient truncated
toward zero is 2^31, which is no 32-bit value, and `idiv` pushes nothing: the
division traps. -/
theorem idiv_min_by_minus_one :
    step empty_class no_call (single_op i_idiv) (operands [-1, -2147483648])
        = .error .sigfpe
      ∧ Int.tdiv (-2147483648) (-1) = 2147483648
      ∧ ¬ is_int32 (Int.tdiv (-2147483648) (-1)) :=
  ⟨rfl, by decide, by decide⟩

/-- C3: with a zero divisor on top of the operand stack, `idiv` and `irem` end the run
in a fatal error (the division trap): the step yields no successor state, so
nothing is pushed and the next instruction is not reached, and the run of the
method returns no value whatever the number of iterations allowed. -/
theorem idiv_irem_by_zero_fatal (cls : class_file_t) (call : callee_t) (m : method_t)
    (st : state_t) (a : Int) (rest : List Int)
    (hlen : m.code.code.length < 4294967296)
    (hop : m.code.code[st.pc]? = some i_idiv ∨ m.code.code[st.pc]? = some i_irem)
    (hs : st.s.contents = 0 :: a :: rest) :
    step cls call m st = .error .sigfpe
      ∧ (∀ fuel : Nat, run cls (fuel + 1) m st = .error .sigfpe)
      ∧ (∀ (fuel : Nat) (r : optional_value_t × state_t), run cls fuel m st ≠ .ok r) := by
  have hstep : ∀ c : callee_t, step cls c m st = .error .sigfpe := by
    intro c
    rcases hop with hop | hop
    · have h1 := code_at_eq m.code st.pc _ hlen hop
      simp [step, h1, pop, hs, bind, Except.bind, int32_div]
    · have h1 := code_at_eq m.code st.pc _ hlen hop
      simp [step, h1, pop, hs, bind, Except.bind, int32_rem]
  have hrun : ∀ fuel : Nat, run cls (fuel + 1) m st = .error .sigfpe := by
    intro fuel
    rw [run_succ, hstep]
  refine ⟨hstep call, hrun, ?_⟩
  intro fuel r
  cases fuel with
  | zero => simp [run]
  | succ n => rw [hrun n]; exact fun h => Except.noConfusion h

/-- Witness of C3: `idiv` of 7 by 0. -/
theorem idiv_irem_by_zero_fatal_witness :
    step empty_class no_call (single_op i_idiv) (operands [0, 7]) = .error .sigfpe :=
  (idiv_irem_by_zero_fatal empty_class no_call (single_op i_idiv) (operands [0, 7]) 7 []
    (by decide) (Or.inl rfl) rfl).1

/-! ### Branches (C4 to C6) -/

/-- The C expression `(int16_t) ((b1 << 8) | b2)` on two bytes is the signed 16-bit
big-endian value they encode. -/
theorem jump_of_eq (b1 b2 : Nat) (hb1 : b1 < 256) (hb2 : b2 < 256) :
    jump_of b1 b2 = if b1 * 256 + b2 < 32768 then ((b1 * 256 + b2 : Nat) : Int)
      else ((b1 * 256 + b2 : Nat) : Int) - 65536 := by
  have hor : (b1 <<< 8) ||| b2 = b1 * 256 + b2 := by
    have h := Nat.mul_add_lt_is_or (show b2 < 2 ^ 8 by simpa using hb2) b1
    rw [Nat.shiftLeft_eq, ← Nat.mul_comm (2 ^ 8) b1, ← h]
  unfold jump_of to_int16
  rw [hor]
  split <;> omega

/-- A taken branch whose target `pc + D` is a `u4` sets the program counter to it. -/
theorem branch_eq (c : code_t) (st : state_t) (s : stack_t) (b1 b2 : Nat) (D : Int)
    (hlen : c.code.length < 4294967296)
    (h1 : c.code[st.pc + 1]? = some b1) (h2 : c.code[st.pc + 2]? = some b2)
    (hb1 : b1 < 256) (hb2 : b2 < 256)
    (hD : D = if b1 * 256 + b2 < 32768 then ((b1 * 256 + b2 : Nat) : Int)
      else ((b1 * 256 + b2 : Nat) : Int) - 65536)
    (h0 : 0 ≤ (st.pc : Int) + D) (hmax : (st.pc : Int) + D < 4294967296) :
    branch c st s = .ok (.next { st with pc := ((st.pc : Int) + D).toNat, s := s }) := by
  have e1 := code_at_eq c _ _ hlen h1
  have e2 := code_at_eq c _ _ hlen h2
  have hj : jump_of b1 b2 = D := by rw [hD]; exact jump_of_eq b1 b2 hb1 hb2
  have hp : pc_add st.pc D = ((st.pc : Int) + D).toNat := by
    unfold pc_add to_u4
    rw [Int.emod_eq_of_lt h0 hmax]
  simp [branch, e1, e2, hj, hp, bind, Except.bind, pure, Except.pure]

/-- C4: a `goto` at address P whose operand bytes `b1`, `b2` encode the signed 16-bit
big-endian offset D moves the program counter to exactly P + D (relative to the
address of the `goto` itself), for positive and negative D, whenever P + D is an
address (0 ≤ P + D, within the 32-bit range of the program counter); the operand
stack, the locals, the heap and the output are unchanged. -/
theorem goto_relative_to_own_address (cls : class_file_t) (call : callee_t) (m : method_t)
    (st : state_t) (b1 b2 : Nat) (D : Int)
    (hlen : m.code.code.length < 4294967296)
    (hop : m.code.code[st.pc]? = some i_goto)
    (h1 : m.code.code[st.pc + 1]? = some b1) (h2 : m.code.code[st.pc + 2]? = some b2)
    (hb1 : b1 < 256) (hb2 : b2 < 256)
    (hD : D = if b1 * 256 + b2 < 32768 then ((b1 * 256 + b2 : Nat) : Int)
      else ((b1 * 256 + b2 : Nat) : Int) - 65536)
    (h0 : 0 ≤ (st.pc : Int) + D) (hmax : (st.pc : Int) + D < 4294967296) :
    ∃ pc1 : Nat, (pc1 : Int) = (st.pc : Int) + D
      ∧ step cls call m st = .ok (.next { st with pc := pc1 }) := by
  refine ⟨((st.pc : Int) + D).toNat, Int.toNat_of_nonneg h0, ?_⟩
  have e0 := code_at_eq m.code st.pc _ hlen hop
  have hb := branch_eq m.code st st.s b1 b2 D hlen h1 h2 hb1 hb2 hD h0 hmax
  simp [step, e0, hb, bind, Except.bind]

/-- Witness of C4: a `goto` at address 5 with offset bytes `0xff 0xfd` (D = -3) moves
to address 2. -/
theorem goto_relative_to_own_address_witness :
    ∃ pc1 : Nat, (pc1 : Int) = ((5 : Nat) : Int) + (-3)
      ∧ step empty_class no_call
          { code := { code := [0, 0, 0, 0, 0, i_goto, 255, 253], max_stack := 0,
                      max_locals := 0 },
            number_of_parameters := 0 }
          { pc := 5, s := { length := 0, contents := [] }, locals := [], heap := [], out := [] }
        = .ok (.next { pc := pc1, s := { length := 0, contents := [] }, locals := [],
                       heap := [], out := [] }) :=
  goto_relative_to_own_address empty_class no_call _
    { pc := 5, s := { length := 0, contents := [] }, locals := [], heap := [], out := [] }
    255 253 (-3) (by decide) rfl rfl rfl (by decide) (by decide) (by decide) (by decide)
    (by decide)

/-- C5 (amended): each of `ifeq`, `ifne`, `iflt`, `ifge`, `ifgt`, `ifle` at address P with
signed 16-bit offset D pops exactly the top value `a`; if `a` stands in the named
relation to 0 (`==`, `!=`, `<`, `>=`, `>`, `<=`) and P + D is an address
(0 ≤ P + D, within the 32-bit range of the program counter) the next program
counter is P + D, and if `a` does not stand in that relation it is P + 3. -/
theorem if_cond_branch (cls : class_file_t) (call : callee_t) (m : method_t)
    (st : state_t) (op b1 b2 : Nat) (D a : Int) (rest : List Int) (taken : Prop)
    (hlen : m.code.code.length < 4294967296)
    (hop : m.code.code[st.pc]? = some op)
    (h1 : m.code.code[st.pc + 1]? = some b1) (h2 : m.code.code[st.pc + 2]? = some b2)
    (hb1 : b1 < 256) (hb2 : b2 < 256)
    (hD : D = if b1 * 256 + b2 < 32768 then ((b1 * 256 + b2 : Nat) : Int)
      else ((b1 * 256 + b2 : Nat) : Int) - 65536)
    (hs : st.s.contents = a :: rest)
    (hrel : (op = i_ifeq ∧ (taken ↔ a = 0)) ∨ (op = i_ifne ∧ (taken ↔ a ≠ 0))
      ∨ (op = i_iflt ∧ (taken ↔ a < 0)) ∨ (op = i_ifge ∧ (taken ↔ a ≥ 0))
      ∨ (op = i_ifgt ∧ (taken ↔ a > 0)) ∨ (op = i_ifle ∧ (taken ↔ a ≤ 0))) :
    (taken → 0 ≤ (st.pc : Int) + D → (st.pc : Int) + D < 4294967296 →
        step cls call m st = branch_taken st rest D)
    ∧ (¬ taken → step cls call m st = branch_not_taken st rest)
    ∧ (D ≠ 3 → ∀ st1 : state_t, step cls call m st = .ok (.next st1) →
        (st1.pc : Int) = (st.pc : Int) + D → taken) := by
  have e0 := code_at_eq m.code st.pc _ hlen hop
  have e3 := pc_inc_eq m.code st.pc _ 3 hlen h2 (by decide)
  have hnot : ¬ taken → step cls call m st = branch_not_taken st rest := by
    intro ht
    rcases hrel with ⟨rfl, hr⟩ | ⟨rfl, hr⟩ | ⟨rfl, hr⟩ | ⟨rfl, hr⟩ | ⟨rfl, hr⟩ | ⟨rfl, hr⟩ <;>
      have ha := fun h => ht (hr.mpr h) <;>
      simp [step, branch_not_taken, e0, e3, pop, hs, bind, Except.bind, pure, Except.pure, ha] <;>
      intro h <;> exfalso <;> apply ha <;> omega
  refine ⟨?_, hnot, ?_⟩
  · intro ht h0 hmax
    have hb := branch_eq m.code st { st.s with contents := rest } b1 b2 D hlen h1 h2 hb1 hb2
      hD h0 hmax
    rcases hrel with ⟨rfl, hr⟩ | ⟨rfl, hr⟩ | ⟨rfl, hr⟩ | ⟨rfl, hr⟩ | ⟨rfl, hr⟩ | ⟨rfl, hr⟩ <;>
      have ha := hr.mp ht <;>
      simp [step, branch_taken, e0, hb, pop, hs, bind, Except.bind, ha]
  · intro hD3 st1 hst hpc
    by_contra ht
    rw [hnot ht] at hst
    simp only [branch_not_taken, Except.ok.injEq, loop_t.next.injEq] at hst
    rw [← hst] at hpc
    simp at hpc
    omega

/-- Witness of C5 (amended): `ifle` with 4 on top is not taken and moves to `pc + 3`. -/
theorem if_cond_branch_witness :
    step empty_class no_call (branch_op i_ifle 0 5) (operands [4])
      = branch_not_taken (operands [4]) [] :=
  (if_cond_branch empty_class no_call (branch_op i_ifle 0 5) (operands [4]) i_ifle 0 5 5 4 []
    ((4 : Int) ≤ 0) (by decide) rfl rfl rfl (by decide) (by decide) (by decide) rfl
    (Or.inr (Or.inr (Or.inr (Or.inr (Or.inr ⟨rfl, Iff.rfl⟩)))))).2.1 (by decide)

/-- Counterexample to C5 as stated. An `ifeq` at address 0 with offset D = 3 and
`a = 1` on top leaves the program counter at 3 = P + D although `a == 0` does not
hold, so "P + D if and only if the relation holds" fails. An `ifeq` at address 0
with offset D = -1 and `a = 0` on top is taken and leaves the program counter at
2^32 - 1, which is not P + D = -1. -/
theorem ifeq_offset_three_and_negative_target :
    (step empty_class no_call (branch_op i_ifeq 0 3) (operands [1])
        = .ok (.next { operands [] with pc := 0 + 3 }) ∧ (1 : Int) ≠ 0)
      ∧ step empty_class no_call (branch_op i_ifeq 255 255) (operands [0])
        = .ok (.next { operands [] with pc := 4294967295 }) :=
  ⟨⟨rfl, by decide⟩, rfl⟩

/-- C6 (amended): each of `if_icmpeq`, `if_icmpne`, `if_icmplt`, `if_icmpge`, `if_icmpgt`,
`if_icmple` at address P with signed 16-bit offset D, on a stack holding `a` below
`b` (`b` on top), pops both values; if `a REL b` holds for the named relation with
`a` as the left operand and P + D is an address (0 ≤ P + D, within the 32-bit
range of the program counter) the next program counter is P + D, and if
`a REL b` does not hold it is P + 3. -/
theorem if_icmp_branch (cls : class_file_t) (call : callee_t) (m : method_t)
    (st : state_t) (op b1 b2 : Nat) (D a b : Int) (rest : List Int) (taken : Prop)
    (hlen : m.code.code.length < 4294967296)
    (hop : m.code.code[st.pc]? = some op)
    (h1 : m.code.code[st.pc + 1]? = some b1) (h2 : m.code.code[st.pc + 2]? = some b2)
    (hb1 : b1 < 256) (hb2 : b2 < 256)
    (hD : D = if b1 * 256 + b2 < 32768 then ((b1 * 256 + b2 : Nat) : Int)
      else ((b1 * 256 + b2 : Nat) : Int) - 65536)
    (hs : st.s.contents = b :: a :: rest)
    (hrel : (op = i_if_icmpeq ∧ (taken ↔ a = b)) ∨ (op = i_if_icmpne ∧ (taken ↔ a ≠ b))
      ∨ (op = i_if_icmplt ∧ (taken ↔ a < b)) ∨ (op = i_if_icmpge ∧ (taken ↔ a ≥ b))
      ∨ (op = i_if_icmpgt ∧ (taken ↔ a > b)) ∨ (op = i_if_icmple ∧ (taken ↔ a ≤ b))) :
    (taken → 0 ≤ (st.pc : Int) + D → (st.pc : Int) + D < 4294967296 →
        step cls call m st = branch_taken st rest D)
    ∧ (¬ taken → step cls call m st = branch_not_taken st rest)
    ∧ (D ≠ 3 → ∀ st1 : state_t, step cls call m st = .ok (.next st1) →
        (st1.pc : Int) = (st.pc : Int) + D → taken) := by
  have e0 := code_at_eq m.code st.pc _ hlen hop
  have e3 := pc_inc_eq m.code st.pc _ 3 hlen h2 (by decide)
  have hnot : ¬ taken → step cls call m st = branch_not_taken st rest := by
    intro ht
    rcases hrel with ⟨rfl, hr⟩ | ⟨rfl, hr⟩ | ⟨rfl, hr⟩ | ⟨rfl, hr⟩ | ⟨rfl, hr⟩ | ⟨rfl, hr⟩ <;>
      have ha := fun h => ht (hr.mpr h) <;>
      simp [step, branch_not_taken, e0, e3, pop, hs, bind, Except.bind, pure, Except.pure, ha] <;>
      intro h <;> exfalso <;> apply ha <;> omega
  refine ⟨?_, hnot, ?_⟩
  · intro ht h0 hmax
    have hb := branch_eq m.code st { st.s with contents := rest } b1 b2 D hlen h1 h2 hb1 hb2
      hD h0 hmax
    rcases hrel with ⟨rfl, hr⟩ | ⟨rfl, hr⟩ | ⟨rfl, hr⟩ | ⟨rfl, hr⟩ | ⟨rfl, hr⟩ | ⟨rfl, hr⟩ <;>
      have ha := hr.mp ht <;>
      simp [step, branch_taken, e0, hb, pop, hs, bind, Except.bind, ha]
  · intro hD3 st1 hst hpc
    by_contra ht
    rw [hnot ht] at hst
    simp only [branch_not_taken, Except.ok.injEq, loop_t.next.injEq] at hst
    rw [← hst] at hpc
    simp at hpc
    omega

/-- Witness of C6 (amended): `if_icmplt` on `a = 1`, `b = 2` is taken, to address 0 + 5. -/
theorem if_icmp_branch_witness :
    step empty_class no_call (branch_op i_if_icmplt 0 5) (operands [2, 1])
      = branch_taken (operands [2, 1]) [] 5 :=
  (if_icmp_branch empty_class no_call (branch_op i_if_icmplt 0 5) (operands [2, 1])
    i_if_icmplt 0 5 5 1 2 [] ((1 : Int) < 2) (by decide) rfl rfl rfl (by decide) (by decide)
    (by decide) rfl (Or.inr (Or.inr (Or.inl ⟨rfl, Iff.rfl⟩)))).1 (by decide) (by decide)
    (by decide)

/-- Counterexample to C6 as stated. An `if_icmpeq` at address 0 with offset D = 3 on
`a = 1`, `b = 2` leaves the program counter at 3 = P + D although `a == b` does not
hold, so "P + D if and only if the relation holds" fails. An `if_icmpeq` at
address 0 with offset D = -1 on `a = b = 7` is taken and leaves the program
counter at 2^32 - 1, which is not P + D = -1. -/
theorem if_icmpeq_offset_three_and_negative_target :
    (step empty_class no_call (branch_op i_if_icmpeq 0 3) (operands [2, 1])
        = .ok (.next { operands [] with pc := 0 + 3 }) ∧ (1 : Int) ≠ 2)
      ∧ step empty_class no_call (branch_op i_if_icmpeq 255 255) (operands [7, 7])
        = .ok (.next { operands [] with pc := 4294967295 }) :=
  ⟨⟨rfl, by decide⟩, rfl⟩

/-! ### Invocation (C7, C8) -/

/-- Writing slot `k` and dropping the `k` slots before it. -/
theorem drop_set_self (y : Int) : ∀ (loc : List Int) (k : Nat), k < loc.length →
    (loc.set k y).drop k = y :: loc.drop (k + 1)
  | [], k, h => by simp at h
  | x :: loc, 0, _ => by simp
  | x :: loc, k + 1, h => by
    have hk : k < loc.length := by simpa using h
    simpa using drop_set_self y loc k hk

/-- The parameter loop with `ys` on top of the stack (last parameter first) fills the
first slots of `loc` with `ys` reversed and leaves the other slots as they were. -/
theorem pop_params_eq (n : Nat) : ∀ (ys : List Int) (i : Nat) (s : stack_t) (rest loc : List Int),
    s.contents = ys ++ rest → i + ys.length = n → ys.length ≤ loc.length →
    pop_params n ys.length i s loc
      = .ok ({ s with contents := rest }, ys.reverse ++ loc.drop ys.length)
  | [], i, s, rest, loc, hs, _, _ => by
    cases s
    simp at hs
    simp [pop_params, hs]
  | y :: ys, i, s, rest, loc, hs, hi, hl => by
    have hk : ys.length < loc.length := by simpa using hl
    have hidx : n - i - 1 = ys.length := by simp at hi; omega
    have ih := pop_params_eq n ys (i + 1) { s with contents := ys ++ rest } rest
      (loc.set ys.length y) rfl (by simp at hi; omega) (by simp; omega)
    simp only [List.length_cons, pop_params, pop, hs, List.cons_append, bind, Except.bind,
      local_write, hidx, hk, if_true]
    rw [ih, drop_set_self y loc ys.length hk]
    simp

/-- The step of `invokestatic`: the callee is called on the popped parameters followed
by zeros, then the return sequence runs on the rest of the caller stack. -/
theorem step_invokestatic (cls : class_file_t) (call : callee_t) (m : method_t)
    (st : state_t) (b1 b2 : Nat) (meth : method_t) (xs rest : List Int)
    (hlen : m.code.code.length < 4294967296)
    (hop : m.code.code[st.pc]? = some i_invokestatic)
    (h1 : m.code.code[st.pc + 1]? = some b1) (h2 : m.code.code[st.pc + 2]? = some b2)
    (hfind : cls.find_method_from_index (jump_of b1 b2) = some meth)
    (hn : get_number_of_parameters meth = xs.length)
    (hmax : xs.length ≤ meth.code.max_locals)
    (hs : st.s.contents = xs.reverse ++ rest) :
    step cls call m st
      = (call meth (xs ++ List.replicate (meth.code.max_locals - xs.length) 0) st.heap st.out).bind
          (invoke_return st { st.s with contents := rest }) := by
  have e0 := code_at_eq m.code st.pc _ hlen hop
  have e1 := code_at_eq m.code _ _ hlen h1
  have e2 := code_at_eq m.code _ _ hlen h2
  have hp := pop_params_eq xs.length xs.reverse 0 st.s rest
    (List.replicate meth.code.max_locals 0) hs (by simp) (by simpa using hmax)
  simp only [List.length_reverse, List.reverse_reverse, List.drop_replicate] at hp
  simp [step, e0, e1, e2, lookup_method, hfind, hn, hp, bind, Except.bind]

/-- C7: for a callee with `n` parameters, `n ≤ max_locals`, and a caller stack whose top
`n` entries are `x_0, ..., x_{n-1}` in push order (`x_{n-1}` on top), `invokestatic`
starts the callee on locals `loc` with `loc[j] = x_j` for `j < n` and `loc[j] = 0`
for `n ≤ j < max_locals`: whatever the callee does, the step is the call of the
callee on `loc` followed by the return sequence, and in a run the call is
`execute` on `loc`. With `sub(a, b) = a - b`, the caller
`bipush 10; bipush 4; invokestatic sub; ireturn` returns 6. -/
theorem invokestatic_parameter_order (cls : class_file_t) (m : method_t)
    (st : state_t) (b1 b2 : Nat) (meth : method_t) (xs rest : List Int)
    (hlen : m.code.code.length < 4294967296)
    (hop : m.code.code[st.pc]? = some i_invokestatic)
    (h1 : m.code.code[st.pc + 1]? = some b1) (h2 : m.code.code[st.pc + 2]? = some b2)
    (hfind : cls.find_method_from_index (jump_of b1 b2) = some meth)
    (hn : get_number_of_parameters meth = xs.length)
    (hmax : xs.length ≤ meth.code.max_locals)
    (hs : st.s.contents = xs.reverse ++ rest) :
    ∃ loc : List Int, loc.length = meth.code.max_locals
      ∧ (∀ j : Nat, j < xs.length → loc[j]? = xs[j]?)
      ∧ (∀ j : Nat, xs.length ≤ j → j < meth.code.max_locals → loc[j]? = some 0)
      ∧ (∀ call : callee_t, step cls call m st
          = (call meth loc st.heap st.out).bind
              (invoke_return st { st.s with contents := rest }))
      ∧ (∀ fuel : Nat, run cls (fuel + 1) m st
          = match (execute cls fuel meth loc st.heap st.out).bind
              (invoke_return st { st.s with contents := rest }) with
            | .error e => .error e
            | .ok (.next st1) => run cls fuel m st1
            | .ok (.done result st1) => .ok (result, st1))
      ∧ (∀ fuel : Nat, execute sub_class (fuel + 7) call_sub [] [] []
          = .ok ({ has_value := true, value := 6 }, [], [])) := by
  have hstep := fun call : callee_t =>
    step_invokestatic cls call m st b1 b2 meth xs rest hlen hop h1 h2 hfind hn hmax hs
  refine ⟨xs ++ List.replicate (meth.code.max_locals - xs.length) 0, ?_, ?_, ?_, hstep, ?_,
    fun fuel => rfl⟩
  · simp
    omega
  · intro j hj
    exact List.getElem?_append_left hj
  · intro j hj hjm
    rw [List.getElem?_append_right hj, List.getElem?_replicate]
    simp
    omega
  · intro fuel
    rw [run_succ, hstep]

/-- Witness of C7: the caller of `sub` at its `invokestatic`, with 10 below 4 on the
stack. -/
theorem invokestatic_parameter_order_witness :
    ∃ loc : List Int, loc.length = 2
      ∧ (∀ j : Nat, j < 2 → loc[j]? = [(10 : Int), 4][j]?)
      ∧ (∀ j : Nat, 2 ≤ j → j < 2 → loc[j]? = some 0)
      ∧ (∀ call : callee_t, step sub_class call call_sub at_invoke_sub
          = (call sub_method loc [] []).bind
              (invoke_return at_invoke_sub { at_invoke_sub.s with contents := [] })) :=
  match invokestatic_parameter_order sub_class call_sub at_invoke_sub 0 2 sub_method [10, 4] []
      (by decide) rfl rfl rfl rfl rfl (by decide) rfl with
  | ⟨loc, hl, hx, hz, hc, _⟩ => ⟨loc, hl, hx, hz, hc⟩

/-- C8 (amended): an `invokestatic` at address P whose callee has `n` parameters and
returns, when the caller's stack has room for a returned value (the callee is void,
or fewer than `max_stack` entries remain once the `n` arguments are removed),
leaves the caller's operand stack as it was with its top `n` entries removed and,
exactly when the callee returned a present value `v`, with `v` pushed on top; the
caller's program counter is then P + 3, and the heap and the output are those the
callee left. When the callee returns a value and there is no room, the `assert` of
`push` aborts the run. -/
theorem invokestatic_return (cls : class_file_t) (call : callee_t) (m : method_t)
    (st : state_t) (b1 b2 : Nat) (meth : method_t) (xs rest : List Int)
    (r : optional_value_t) (heap1 : heap_t) (out1 : List Int)
    (hlen : m.code.code.length < 4294967296)
    (hop : m.code.code[st.pc]? = some i_invokestatic)
    (h1 : m.code.code[st.pc + 1]? = some b1) (h2 : m.code.code[st.pc + 2]? = some b2)
    (hfind : cls.find_method_from_index (jump_of b1 b2) = some meth)
    (hn : get_number_of_parameters meth = xs.length)
    (hmax : xs.length ≤ meth.code.max_locals)
    (hs : st.s.contents = xs.reverse ++ rest)
    (hcall : call meth (xs ++ List.replicate (meth.code.max_locals - xs.length) 0)
        st.heap st.out = .ok (r, heap1, out1)) :
    ((r.has_value = true → rest.length < st.s.length) →
        step cls call m st
          = .ok (.next { st with
              s := { st.s with contents := if r.has_value then r.value :: rest else rest },
              heap := heap1, out := out1, pc := st.pc + 3 }))
      ∧ (r.has_value = true → ¬ rest.length < st.s.length →
          step cls call m st = .error .abort)
      ∧ (∀ fuel : Nat,
          execute cls fuel meth (xs ++ List.replicate (meth.code.max_locals - xs.length) 0)
            st.heap st.out = .ok (r, heap1, out1) →
          (r.has_value = true → rest.length < st.s.length) →
          run cls (fuel + 1) m st
            = run cls fuel m { st with
                s := { st.s with contents := if r.has_value then r.value :: rest else rest },
                heap := heap1, out := out1, pc := st.pc + 3 }) := by
  have e3 := pc_inc_eq m.code st.pc _ 3 hlen h2 (by decide)
  have key : ∀ c : callee_t,
      c meth (xs ++ List.replicate (meth.code.max_locals - xs.length) 0) st.heap st.out
        = .ok (r, heap1, out1) →
      (r.has_value = true → rest.length < st.s.length) →
      step cls c m st
        = .ok (.next { st with
            s := { st.s with contents := if r.has_value then r.value :: rest else rest },
            heap := heap1, out := out1, pc := st.pc + 3 }) := by
    intro c hc hcap
    rw [step_invokestatic cls c m st b1 b2 meth xs rest hlen hop h1 h2 hfind hn hmax hs, hc]
    cases hv : r.has_value with
    | false => simp [Except.bind, invoke_return, hv, e3, bind, pure, Except.pure]
    | true =>
      have hlt := hcap hv
      simp [Except.bind, invoke_return, hv, e3, bind, pure, Except.pure, push, hlt]
  refine ⟨key call hcall, ?_, ?_⟩
  · intro hv hfull
    rw [step_invokestatic cls call m st b1 b2 meth xs rest hlen hop h1 h2 hfind hn hmax hs,
      hcall]
    simp [Except.bind, invoke_return, hv, bind, push, hfull]
  · intro fuel hex hcap
    rw [run_succ, key (execute cls fuel) hex hcap]

/-- Witness of C8 (amended): the caller of `sub`, whose callee returns the present
value 6. -/
theorem invokestatic_return_witness :
    step sub_class (execute sub_class 4) call_sub at_invoke_sub
      = .ok (.next { at_invoke_sub with
          s := { at_invoke_sub.s with contents := [6] }, heap := [], out := [], pc := 4 + 3 }) :=
  (invokestatic_return sub_class (execute sub_class 4) call_sub at_invoke_sub 0 2 sub_method
    [10, 4] [] { has_value := true, value := 6 } [] []
    (by decide) rfl rfl rfl rfl rfl (by decide) rfl rfl).1 (fun _ => by decide)

/-- Counterexample to C8 as stated: the caller's stack of capacity 1 holds one entry,
the callee `seven` takes no parameter and returns the present value 7 (it
terminates), and the `invokestatic` pushes nothing and does not reach P + 3: the
`assert` of `push` aborts the run. -/
theorem invokestatic_on_full_stack :
    execute seven_class 2 seven [] [] [] = .ok ({ has_value := true, value := 7 }, [], [])
      ∧ step seven_class (execute seven_class 2) call_seven full_caller = .error .abort
      ∧ (∀ fuel : Nat, run seven_class (fuel + 3) call_seven full_caller = .error .abort) :=
  ⟨rfl, rfl, fun _ => rfl⟩

/-! ### Arrays (C9, C10) -/

/-- The handles `heap_get` accepts are the positions of the arena. -/
theorem heap_get_ok (heap : heap_t) (ref : Int) (blk : List Int) :
    heap_get heap ref = .ok blk ↔ 0 ≤ ref ∧ heap[ref.toNat]? = some blk := by
  unfold heap_get
  by_cases h0 : 0 ≤ ref
  · cases hg : heap[ref.toNat]? with
    | none => simp [h0]
    | some p => simp [h0]
  · simp [h0]

/-- The read `h[k]` of a slot that exists. -/
theorem array_read_ok (blk : List Int) (k : Int) (x : Int) (h0 : 0 ≤ k)
    (h : blk[k.toNat]? = some x) : array_read blk k = .ok x := by
  simp [array_read, h0, h]

/-- The step of `arraylength` on a handle whose block starts with `x`. -/
theorem step_arraylength (cls : class_file_t) (call : callee_t) (m : method_t)
    (st : state_t) (ref x : Int) (rest blk : List Int)
    (hlen : m.code.code.length < 4294967296)
    (hop : m.code.code[st.pc]? = some i_arraylength)
    (hs : st.s.contents = ref :: rest) (hcap : st.s.contents.length ≤ st.s.length)
    (hget : heap_get st.heap ref = .ok blk) (hx : blk[0]? = some x) :
    step cls call m st
      = .ok (.next { st with s := { st.s with contents := x :: rest }, pc := st.pc + 1 }) := by
  have e0 := code_at_eq m.code st.pc _ hlen hop
  have e1 := pc_inc_eq m.code st.pc _ 1 hlen hop (by decide)
  have hc : rest.length < st.s.length := by
    rw [hs] at hcap
    simp at hcap
    omega
  have hr : array_read blk 0 = .ok x := array_read_ok blk 0 x (by decide) (by simpa using hx)
  simp [step, e0, e1, pop, push, hs, hc, hget, hr, bind, Except.bind, pure, Except.pure]

/-- The step of `iaload` on a handle and an index whose slot `index + 1` holds `x`. -/
theorem step_iaload (cls : class_file_t) (call : callee_t) (m : method_t)
    (st : state_t) (ref index x : Int) (rest blk : List Int)
    (hlen : m.code.code.length < 4294967296)
    (hop : m.code.code[st.pc]? = some i_iaload)
    (hs : st.s.contents = index :: ref :: rest) (hcap : st.s.contents.length ≤ st.s.length)
    (hget : heap_get st.heap ref = .ok blk)
    (hi0 : 0 ≤ index) (himax : index < 2147483647)
    (hx : blk[index.toNat + 1]? = some x) :
    step cls call m st
      = .ok (.next { st with s := { st.s with contents := x :: rest }, pc := st.pc + 1 }) := by
  have e0 := code_at_eq m.code st.pc _ hlen hop
  have e1 := pc_inc_eq m.code st.pc _ 1 hlen hop (by decide)
  have hc : rest.length < st.s.length := by
    rw [hs] at hcap
    simp at hcap
    omega
  have hk : to_int32 (index + 1) = index + 1 := to_int32_of_range _ (by unfold is_int32; omega)
  have hn : (index + 1).toNat = index.toNat + 1 := by omega
  have hr : array_read blk (index + 1) = .ok x :=
    array_read_ok blk (index + 1) x (by omega) (by rw [hn]; exact hx)
  simp [step, e0, e1, pop, push, hs, hc, hget, hk, hr, bind, Except.bind, pure, Except.pure]

/-- The step of `iastore` on a handle and an index whose slot `index + 1` exists. -/
theorem step_iastore (cls : class_file_t) (call : callee_t) (m : method_t)
    (st : state_t) (ref index value : Int) (rest blk : List Int)
    (hlen : m.code.code.length < 4294967296)
    (hop : m.code.code[st.pc]? = some i_iastore)
    (hs : st.s.contents = value :: index :: ref :: rest)
    (hget : heap_get st.heap ref = .ok blk)
    (hi0 : 0 ≤ index) (himax : index < 2147483647)
    (hin : index.toNat + 1 < blk.length) :
    step cls call m st
      = .ok (.next { st with s := { st.s with contents := rest },
                             heap := st.heap.set ref.toNat (blk.set (index.toNat + 1) value),
                             pc := st.pc + 1 }) := by
  have e0 := code_at_eq m.code st.pc _ hlen hop
  have e1 := pc_inc_eq m.code st.pc _ 1 hlen hop (by decide)
  have hk : to_int32 (index + 1) = index + 1 := to_int32_of_range _ (by unfold is_int32; omega)
  have hn : (index + 1).toNat = index.toNat + 1 := by omega
  have hw : array_write st.heap ref blk (index + 1) value
      = .ok (st.heap.set ref.toNat (blk.set (index.toNat + 1) value)) := by
    have h0 : 0 ≤ index + 1 := by omega
    simp [array_write, h0, hn, hin]
  simp [step, e0, e1, pop, hs, hget, hk, hw, bind, Except.bind, pure, Except.pure]

/-- The step of `newarray` on a count `0 ≤ count < 2^31 - 1`: the new block holds the
count and `count` zeros, and its handle is the number of arrays allocated before. -/
theorem step_newarray (cls : class_file_t) (call : callee_t) (m : method_t)
    (st : state_t) (atype : Nat) (count : Int) (rest : List Int)
    (hlen : m.code.code.length < 4294967296)
    (hop : m.code.code[st.pc]? = some i_newarray)
    (h1 : m.code.code[st.pc + 1]? = some atype)
    (hs : st.s.contents = count :: rest) (hcap : st.s.contents.length ≤ st.s.length)
    (hN0 : 0 ≤ count) (hN : count < 2147483647) :
    step cls call m st
      = .ok (.next { st with
          s := { st.s with contents := (st.heap.length : Int) :: rest },
          heap := st.heap ++ [count :: List.replicate count.toNat 0],
          pc := st.pc + 2 }) := by
  have e0 := code_at_eq m.code st.pc _ hlen hop
  have e2 := pc_inc_eq m.code st.pc _ 2 hlen h1 (by decide)
  have hc : rest.length < st.s.length := by
    rw [hs] at hcap
    simp at hcap
    omega
  have hk : to_int32 (count + 1) = count + 1 := to_int32_of_range _ (by unfold is_int32; omega)
  have hn : (count + 1).toNat = count.toNat + 1 := by omega
  have hcal : calloc_counted (count + 1) count = .ok (count :: List.replicate count.toNat 0) := by
    have h0 : 0 < count + 1 := by omega
    simp [calloc_counted, h0, hn, List.replicate_succ]
  simp [step, e0, e2, pop, push, hs, hc, hk, hcal, heap_add, bind, Except.bind, pure,
    Except.pure]

/-- C9 (amended): for every count `N` with `0 ≤ N < 2^31 - 1` on top of the stack,
`newarray` replaces it with a handle `h` of a newly added heap array (`h` named no
array before, and every array already in the heap is kept under its handle) and
advances the program counter by 2; in every state whose heap is the one
`newarray` left, `arraylength` on `h` pushes `N` and `iaload` on `(h, i)` pushes 0
for every index `0 ≤ i < N`. -/
theorem newarray_length_and_zeros (cls : class_file_t) (call : callee_t) (m : method_t)
    (st : state_t) (atype : Nat) (N : Int) (rest : List Int)
    (hlen : m.code.code.length < 4294967296)
    (hop : m.code.code[st.pc]? = some i_newarray)
    (h1 : m.code.code[st.pc + 1]? = some atype)
    (hs : st.s.contents = N :: rest) (hcap : st.s.contents.length ≤ st.s.length)
    (hN0 : 0 ≤ N) (hN : N < 2147483647) :
    ∃ (h : Int) (heap1 : heap_t),
      step cls call m st
          = .ok (.next { st with s := { st.s with contents := h :: rest }, heap := heap1,
                                 pc := st.pc + 2 })
        ∧ heap_get st.heap h = .error .mem_access
        ∧ (∀ (k : Int) (blk : List Int), heap_get st.heap k = .ok blk →
            heap_get heap1 k = .ok blk)
        ∧ (∀ (cls2 : class_file_t) (call2 : callee_t) (m2 : method_t) (st2 : state_t)
            (rest2 : List Int),
            m2.code.code.length < 4294967296 → m2.code.code[st2.pc]? = some i_arraylength →
            st2.heap = heap1 → st2.s.contents = h :: rest2 →
            st2.s.contents.length ≤ st2.s.length →
            step cls2 call2 m2 st2
              = .ok (.next { st2 with s := { st2.s with contents := N :: rest2 },
                                      pc := st2.pc + 1 }))
        ∧ (∀ (cls2 : class_file_t) (call2 : callee_t) (m2 : method_t) (st2 : state_t)
            (rest2 : List Int) (i : Int),
            m2.code.code.length < 4294967296 → m2.code.code[st2.pc]? = some i_iaload →
            st2.heap = heap1 → st2.s.contents = i :: h :: rest2 →
            st2.s.contents.length ≤ st2.s.length → 0 ≤ i → i < N →
            step cls2 call2 m2 st2
              = .ok (.next { st2 with s := { st2.s with contents := 0 :: rest2 },
                                      pc := st2.pc + 1 })) := by
  have hnew : heap_get (st.heap ++ [N :: List.replicate N.toNat 0]) (st.heap.length : Int)
      = .ok (N :: List.replicate N.toNat 0) := by
    rw [heap_get_ok]
    exact ⟨by omega, by simp⟩
  refine ⟨(st.heap.length : Int), st.heap ++ [N :: List.replicate N.toNat 0],
    step_newarray cls call m st atype N rest hlen hop h1 hs hcap hN0 hN, ?_, ?_, ?_, ?_⟩
  · simp [heap_get]
  · intro k blk hk
    rw [heap_get_ok] at hk ⊢
    refine ⟨hk.1, ?_⟩
    have hlt : k.toNat < st.heap.length := by
      by_contra hn
      rw [List.getElem?_eq_none (Nat.le_of_not_lt hn)] at hk
      exact Option.noConfusion hk.2
    rw [List.getElem?_append_left hlt]
    exact hk.2
  · intro cls2 call2 m2 st2 rest2 hlen2 hop2 hheap hs2 hcap2
    exact step_arraylength cls2 call2 m2 st2 _ N rest2 _ hlen2 hop2 hs2 hcap2
      (by rw [hheap]; exact hnew) (by simp)
  · intro cls2 call2 m2 st2 rest2 i hlen2 hop2 hheap hs2 hcap2 hi0 hiN
    refine step_iaload cls2 call2 m2 st2 _ i 0 rest2 _ hlen2 hop2 hs2 hcap2
      (by rw [hheap]; exact hnew) hi0 (by omega) ?_
    have hlt : i.toNat < N.toNat := by omega
    simp [hlt]

/-- Witness of C9 (amended): `newarray` with count 3 on an empty heap. -/
theorem newarray_length_and_zeros_witness :
    ∃ (h : Int) (heap1 : heap_t),
      step empty_class no_call newarray_int (operands [3])
          = .ok (.next { operands [3] with
              s := { (operands [3]).s with contents := h :: [] }, heap := heap1, pc := 0 + 2 })
        ∧ heap_get (operands [3]).heap h = .error .mem_access :=
  match newarray_length_and_zeros empty_class no_call newarray_int (operands [3]) 10 3 []
      (by decide) rfl rfl rfl (by decide) (by decide) (by decide) with
  | ⟨h, heap1, hstep, hfresh, _⟩ => ⟨h, heap1, hstep, hfresh⟩

/-- Counterexample to C9 as stated: with the count `N = 2^31 - 1` on top of the stack,
`count + 1` is not a positive `int32_t`, `calloc` yields no block whose element 0
could hold the length, and `newarray` pushes no handle. -/
theorem newarray_int_max :
    step empty_class no_call newarray_int (operands [2147483647]) = .error .undefined
      ∧ to_int32 (2147483647 + 1) = -2147483648 :=
  ⟨rfl, by decide⟩

/-- C10: for a handle `h` of an allocated array of length `N`, an index `0 ≤ i < N` and
a value `v`, `iastore` on the stack `(h, i, v)` pops the three operands and leaves
a heap in which `iaload` on `(h, i)` pushes `v`, and `iaload` on every other valid
index `j` of `h` and on every valid index of every other handle pushes the value
it pushed before the store. The program `newarray` with count 3,
`iastore h,1,42` then returns 42 for `iaload h,1` and 3 for `arraylength h`. -/
theorem iastore_iaload_round_trip (cls : class_file_t) (call : callee_t) (m : method_t)
    (st : state_t) (h i v : Int) (rest blk : List Int) (N : Nat)
    (hlen : m.code.code.length < 4294967296)
    (hop : m.code.code[st.pc]? = some i_iastore)
    (hs : st.s.contents = v :: i :: h :: rest)
    (hget : heap_get st.heap h = .ok blk) (hblk : blk.length = N + 1)
    (hN : N < 2147483647) (hi0 : 0 ≤ i) (hiN : i < N) :
    ∃ heap1 : heap_t,
      step cls call m st
          = .ok (.next { st with s := { st.s with contents := rest }, heap := heap1,
                                 pc := st.pc + 1 })
        ∧ (∀ (cls2 : class_file_t) (call2 : callee_t) (m2 : method_t) (st2 : state_t)
            (rest2 : List Int),
            m2.code.code.length < 4294967296 → m2.code.code[st2.pc]? = some i_iaload →
            st2.heap = heap1 → st2.s.contents = i :: h :: rest2 →
            st2.s.contents.length ≤ st2.s.length →
            step cls2 call2 m2 st2
              = .ok (.next { st2 with s := { st2.s with contents := v :: rest2 },
                                      pc := st2.pc + 1 }))
        ∧ (∀ (cls2 : class_file_t) (call2 : callee_t) (m2 : method_t) (st2 : state_t)
            (rest2 : List Int) (h2 j : Int) (blk2 : List Int),
            m2.code.code.length < 4294967296 → m2.code.code[st2.pc]? = some i_iaload →
            st2.s.contents = j :: h2 :: rest2 → st2.s.contents.length ≤ st2.s.length →
            heap_get st.heap h2 = .ok blk2 → 0 ≤ j → j + 1 < blk2.length →
            blk2.length ≤ 2147483647 → (h2 ≠ h ∨ j ≠ i) →
            ∃ x : Int,
              step cls2 call2 m2 { st2 with heap := st.heap }
                  = .ok (.next { st2 with heap := st.heap,
                                          s := { st2.s with contents := x :: rest2 },
                                          pc := st2.pc + 1 })
                ∧ step cls2 call2 m2 { st2 with heap := heap1 }
                  = .ok (.next { st2 with heap := heap1,
                                          s := { st2.s with contents := x :: rest2 },
                                          pc := st2.pc + 1 }))
        ∧ (∀ fuel : Nat, execute empty_class (fuel + 11) store_then_load [0] [] []
            = .ok ({ has_value := true, value := 42 }, [[3, 0, 42, 0]], []))
        ∧ (∀ fuel : Nat, execute empty_class (fuel + 10) store_then_length [0] [] []
            = .ok ({ has_value := true, value := 3 }, [[3, 0, 42, 0]], [])) := by
  have hg := (heap_get_ok st.heap h blk).mp hget
  have hh : h.toNat < st.heap.length := by
    by_contra hn
    rw [List.getElem?_eq_none (Nat.le_of_not_lt hn)] at hg
    exact Option.noConfusion hg.2
  have hin : i.toNat + 1 < blk.length := by omega
  have hget1 : heap_get (st.heap.set h.toNat (blk.set (i.toNat + 1) v)) h
      = .ok (blk.set (i.toNat + 1) v) := by
    rw [heap_get_ok]
    exact ⟨hg.1, List.getElem?_set_self hh⟩
  refine ⟨st.heap.set h.toNat (blk.set (i.toNat + 1) v),
    step_iastore cls call m st h i v rest blk hlen hop hs hget hi0 (by omega) hin, ?_, ?_,
    fun fuel => rfl, fun fuel => rfl⟩
  · intro cls2 call2 m2 st2 rest2 hlen2 hop2 hheap hs2 hcap2
    exact step_iaload cls2 call2 m2 st2 h i v rest2 _ hlen2 hop2 hs2 hcap2
      (by rw [hheap]; exact hget1) hi0 (by omega) (List.getElem?_set_self hin)
  · intro cls2 call2 m2 st2 rest2 h2 j blk2 hlen2 hop2 hs2 hcap2 hget2 hj0 hjN hmax2 hne
    have hg2 := (heap_get_ok st.heap h2 blk2).mp hget2
    have hjn : j.toNat + 1 < blk2.length := by omega
    obtain ⟨x, hx⟩ : ∃ x, blk2[j.toNat + 1]? = some x :=
      ⟨blk2[j.toNat + 1], List.getElem?_eq_getElem hjn⟩
    refine ⟨x, ?_, ?_⟩
    · exact step_iaload cls2 call2 m2 { st2 with heap := st.heap } h2 j x rest2 blk2 hlen2 hop2
        hs2 hcap2 hget2 hj0 (by omega) hx
    · by_cases hhe : h2 = h
      · subst hhe
        have hji : j ≠ i := by
          rcases hne with hne | hne
          · exact absurd rfl hne
          · exact hne
        have hb : blk2 = blk := by
          have := hg.2
          rw [hg2.2] at this
          exact Option.some.inj this
        subst hb
        have hidx : i.toNat + 1 ≠ j.toNat + 1 := by omega
        exact step_iaload cls2 call2 m2 { st2 with heap := _ } h2 j x rest2 _ hlen2 hop2
          hs2 hcap2 hget1 hj0 (by omega) (by rw [List.getElem?_set_ne hidx]; exact hx)
      · have hidx : h.toNat ≠ h2.toNat := by
          have := hg.1
          have := hg2.1
          omega
        have hget3 : heap_get (st.heap.set h.toNat (blk.set (i.toNat + 1) v)) h2 = .ok blk2 := by
          rw [heap_get_ok]
          exact ⟨hg2.1, by rw [List.getElem?_set_ne hidx]; exact hg2.2⟩
        exact step_iaload cls2 call2 m2 { st2 with heap := _ } h2 j x rest2 blk2 hlen2 hop2
          hs2 hcap2 hget3 hj0 (by omega) hx

/-- Witness of C10: `iastore` of 42 at index 1 of the array `[3, 0, 0, 0]` under handle
0. -/
theorem iastore_iaload_round_trip_witness :
    ∃ heap1 : heap_t,
      step empty_class no_call (single_op i_iastore) at_iastore
        = .ok (.next { at_iastore with s := { at_iastore.s with contents := [] },
                                       heap := heap1, pc := 0 + 1 }) :=
  match iastore_iaload_round_trip empty_class no_call (single_op i_iastore) at_iastore
      0 1 42 [] [3, 0, 0, 0] 3 (by decide) rfl rfl rfl rfl (by decide) (by decide)
      (by decide) with
  | ⟨heap1, hstep, _⟩ => ⟨heap1, hstep⟩

/-! ### Errors and returns (C11 to C14) -/

/-- C12: a byte that is not among the handled opcodes is no fatal decoding error in
`execute`: the dispatch chain has no final `else`, the iteration leaves the
program counter, the stack, the locals, the heap and the output as they are, and
the loop goes on for ever on the same byte; no result and no error ever comes
out. -/
theorem unhandled_opcode_loops (cls : class_file_t) (call : callee_t) (m : method_t)
    (st : state_t) (op : Nat)
    (hlen : m.code.code.length < 4294967296)
    (hop : m.code.code[st.pc]? = some op) (hun : ¬ handled op) :
    step cls call m st = .ok (.next st)
      ∧ ∀ fuel : Nat, run cls fuel m st = .error .no_fuel := by
  have e0 := code_at_eq m.code st.pc _ hlen hop
  have hstep : ∀ c : callee_t, step cls c m st = .ok (.next st) := by
    intro c
    simp only [handled, not_or] at hun
    obtain ⟨h0, h1, h2, h3, h4, h5, h6, h7, h8, h9, h10, h11, h12, h13, h14, h15, h16, h17, h18, h19, h20, h21, h22, h23, h24, h25, h26, h27, h28, h29, h30, h31, h32, h33, h34, h35, h36, h37, h38, h39⟩ := hun
    unfold step
    dsimp only
    rw [e0]
    show (if op = i_bipush then _ else _) = _
    rw [if_neg h0]
    rw [if_neg h1]
    rw [if_neg h2]
    rw [if_neg h3]
    rw [if_neg h4]
    rw [if_neg h5]
    rw [if_neg h6]
    rw [if_neg h1]
    rw [if_neg h7]
    rw [if_neg h8]
    rw [if_neg h9]
    rw [if_neg h10]
    rw [if_neg h11]
    rw [if_neg h12]
    rw [if_neg h13]
    rw [if_neg h14]
    rw [if_neg h15]
    rw [if_neg h16]
    rw [if_neg h17]
    rw [if_neg h18]
    rw [if_neg h19]
    rw [if_neg h20]
    rw [if_neg h21]
    rw [if_neg h22]
    rw [if_neg h23]
    rw [if_neg h24]
    rw [if_neg h25]
    rw [if_neg h26]
    rw [if_neg h27]
    rw [if_neg h28]
    rw [if_neg h29]
    rw [if_neg h30]
    rw [if_neg h31]
    rw [if_neg h32]
    rw [if_neg h33]
    rw [if_neg h34]
    rw [if_neg h35]
    rw [if_neg h36]
    rw [if_neg h37]
    rw [if_neg h38]
    rw [if_neg h39]
    rfl
  refine ⟨hstep call, ?_⟩
  intro fuel
  induction fuel with
  | zero => rfl
  | succ n ih => rw [run_succ, hstep]; exact ih

/-- Witness of C12: the byte `0x01` (`aconst_null`), met with an empty operand stack. -/
theorem unhandled_opcode_loops_witness :
    step empty_class no_call (single_op 1) (operands []) = .ok (.next (operands []))
      ∧ ∀ fuel : Nat, run empty_class fuel (single_op 1) (operands []) = .error .no_fuel :=
  unhandled_opcode_loops empty_class no_call (single_op 1) (operands []) 1 (by decide) rfl
    (by decide)

/-- Inversion of sequencing: a sequence succeeds when both parts do. -/
theorem bind_eq_ok {α β : Type} (x : Except halt_t α) (f : α → Except halt_t β) (b : β) :
    (x >>= f) = .ok b ↔ ∃ a, x = .ok a ∧ f a = .ok b := by
  cases x with
  | error e => simp [bind, Except.bind]
  | ok a => simp [bind, Except.bind]

/-- A successful `pop` removed the top entry and kept the capacity. -/
theorem pop_eq_ok (s s1 : stack_t) (a : Int) :
    pop s = .ok (a, s1) ↔ s.contents = a :: s1.contents ∧ s1.length = s.length := by
  obtain ⟨l, c⟩ := s
  obtain ⟨l1, c1⟩ := s1
  cases c with
  | nil => simp [pop]
  | cons x xs =>
    simp [pop]
    constructor
    · rintro ⟨rfl, rfl, rfl⟩; simp
    · rintro ⟨⟨rfl, rfl⟩, rfl⟩; simp

/-- A successful `push` found room, added the entry on top and kept the capacity. -/
theorem push_eq_ok (s s1 : stack_t) (b : Int) :
    push s b = .ok s1 ↔ s.contents.length < s.length ∧ s1.contents = b :: s.contents
      ∧ s1.length = s.length := by
  obtain ⟨l, c⟩ := s
  obtain ⟨l1, c1⟩ := s1
  unfold push
  by_cases h : c.length < l
  · simp [h]
    constructor
    · rintro ⟨rfl, rfl⟩; simp
    · rintro ⟨rfl, rfl⟩; simp
  · simp [h]

/-- A successful write to a local slot keeps the number of slots. -/
theorem local_write_length (locals locals1 : List Int) (i : Nat) (x : Int)
    (h : local_write locals i x = .ok locals1) : locals1.length = locals.length := by
  unfold local_write at h
  split at h
  · simp only [Except.ok.injEq] at h
    rw [← h]
    simp
  · exact Except.noConfusion h

/-- A taken branch only moves the program counter and installs the popped stack. -/
theorem branch_ok (code : code_t) (st : state_t) (s : stack_t) (res : loop_t)
    (h : branch code st s = .ok res) : ∃ pc1 : Nat, res = .next { st with pc := pc1, s := s } := by
  simp only [branch, bind_eq_ok, pure, Except.pure, Except.ok.injEq] at h
  obtain ⟨b1, -, b2, -, h⟩ := h
  exact ⟨_, h.symm⟩

/-- The parameter loop only pops: the capacity is kept and the size does not grow. -/
theorem pop_params_ok (n : Nat) : ∀ (k i : Nat) (s s1 : stack_t) (loc loc1 : List Int),
    pop_params n k i s loc = .ok (s1, loc1) →
    s1.length = s.length ∧ s1.contents.length ≤ s.contents.length
  | 0, i, s, s1, loc, loc1, h => by
    simp only [pop_params, Except.ok.injEq, Prod.mk.injEq] at h
    rw [← h.1]
    exact ⟨rfl, Nat.le_refl _⟩
  | k + 1, i, s, s1, loc, loc1, h => by
    simp only [pop_params, bind_eq_ok, Prod.exists, pop_eq_ok] at h
    obtain ⟨b, s2, ⟨hc, hl⟩, loc2, -, h⟩ := h
    have ih := pop_params_ok n k (i + 1) s2 s1 loc2 loc1 h
    rw [hc]
    simp only [List.length_cons]
    exact ⟨by rw [ih.1, hl], by omega⟩

/-- The return sequence of `invokestatic` goes on with the loop, keeps the caller's
locals, and pushes at most the returned value, within the capacity. -/
theorem invoke_return_ok (st : state_t) (s : stack_t)
    (ret : optional_value_t × heap_t × List Int) (res : loop_t)
    (h : invoke_return st s ret = .ok res) :
    ∃ st1 : state_t, res = .next st1 ∧ st1.locals = st.locals ∧ st1.s.length = s.length
      ∧ (s.contents.length ≤ s.length → st1.s.contents.length ≤ st1.s.length) := by
  obtain ⟨r, heap, out⟩ := ret
  unfold invoke_return at h
  cases hv : r.has_value with
  | false =>
    simp only [hv, bind_eq_ok, pure, Except.pure, Except.ok.injEq, Bool.false_eq_true,
      if_false] at h
    obtain ⟨s2, hs2, h⟩ := h
    subst hs2
    exact ⟨_, h.symm, rfl, rfl, fun hle => hle⟩
  | true =>
    simp only [hv, bind_eq_ok, pure, Except.pure, Except.ok.injEq, if_true, push_eq_ok] at h
    obtain ⟨s2, ⟨hlt, hc, hl⟩, h⟩ := h
    refine ⟨_, h.symm, rfl, hl, fun _ => ?_⟩
    show s2.contents.length ≤ s2.length
    rw [hc, hl]
    simp only [List.length_cons]
    omega

/-- A successful write to a local slot wrote an existing slot. -/
theorem local_write_eq_ok (locals locals1 : List Int) (i : Nat) (x : Int) :
    local_write locals i x = .ok locals1 ↔ i < locals.length ∧ locals1 = locals.set i x := by
  unfold local_write
  by_cases h : i < locals.length
  · simp [h, eq_comm]
  · simp [h]

/-- One test of a chain of conditional branches: either the branch is taken, or the
rest of the chain decides. -/
theorem ite_branch_ok (c : Prop) [Decidable c] (code : code_t) (st : state_t) (s : stack_t)
    (rest : Except halt_t loop_t) (res : loop_t)
    (h : (if c then branch code st s else rest) = .ok res)
    (hrest : rest = .ok res → ∃ pc1 : Nat, res = .next { st with pc := pc1, s := s }) :
    ∃ pc1 : Nat, res = .next { st with pc := pc1, s := s } := by
  by_cases hc : c
  · rw [if_pos hc] at h
    exact branch_ok code st s res h
  · rw [if_neg hc] at h
    exact hrest h

set_option maxHeartbeats 4000000 in
/-- Every iteration of the loop that does not stop fetched a byte and has the effect
`step_effect` on the frame. -/
theorem step_effect_ok (cls : class_file_t) (call : callee_t) (m : method_t)
    (st : state_t) (res : loop_t) (h : step cls call m st = .ok res) :
    ∃ op : Nat, code_at m.code st.pc = .ok op ∧ step_effect st op res := by
  unfold step at h
  dsimp only at h
  rw [bind_eq_ok] at h
  obtain ⟨op, hop, h⟩ := h
  refine ⟨op, hop, ?_⟩
  by_cases c0 : op = i_bipush
  · rw [if_pos c0] at h
    simp only [bind_eq_ok, pure, Except.pure, Prod.exists, pop_eq_ok, push_eq_ok,
      local_write_eq_ok, Except.ok.injEq, heap_add] at h
    try casesm* ∃ _, _, _ ∧ _
    subst_vars
    simp_all [step_effect, frame_kept]
    omega
  rw [if_neg c0] at h
  by_cases c1 : op = i_iadd
  · rw [if_pos c1] at h
    simp only [bind_eq_ok, pure, Except.pure, Prod.exists, pop_eq_ok, push_eq_ok,
      local_write_eq_ok, Except.ok.injEq, heap_add] at h
    try casesm* ∃ _, _, _ ∧ _
    subst_vars
    simp_all [step_effect, frame_kept]
    omega
  rw [if_neg c1] at h
  by_cases c2 : op = i_return
  · rw [if_pos c2] at h
    simp only [bind_eq_ok, pure, Except.pure, Prod.exists, pop_eq_ok, push_eq_ok,
      local_write_eq_ok, Except.ok.injEq, heap_add] at h
    try casesm* ∃ _, _, _ ∧ _
    subst_vars
    simp_all [step_effect, frame_kept]
  rw [if_neg c2] at h
  by_cases c3 : op = i_getstatic
  · rw [if_pos c3] at h
    simp only [bind_eq_ok, pure, Except.pure, Prod.exists, pop_eq_ok, push_eq_ok,
      local_write_eq_ok, Except.ok.injEq, heap_add] at h
    try casesm* ∃ _, _, _ ∧ _
    subst_vars
    simp_all [step_effect, frame_kept]
  rw [if_neg c3] at h
  by_cases c4 : op = i_invokevirtual
  · rw [if_pos c4] at h
    simp only [bind_eq_ok, pure, Except.pure, Prod.exists, pop_eq_ok, push_eq_ok,
      local_write_eq_ok, Except.ok.injEq, heap_add] at h
    try casesm* ∃ _, _, _ ∧ _
    subst_vars
    simp_all [step_effect, frame_kept]
    omega
  rw [if_neg c4] at h
  by_cases c5 : i_iconst_m1 ≤ op ∧ op ≤ i_iconst_5
  · rw [if_pos c5] at h
    simp only [bind_eq_ok, pure, Except.pure, Prod.exists, pop_eq_ok, push_eq_ok,
      local_write_eq_ok, Except.ok.injEq, heap_add] at h
    try casesm* ∃ _, _, _ ∧ _
    subst_vars
    simp_all [step_effect, frame_kept]
    omega
  rw [if_neg c5] at h
  by_cases c6 : op = i_sipush
  · rw [if_pos c6] at h
    simp only [bind_eq_ok, pure, Except.pure, Prod.exists, pop_eq_ok, push_eq_ok,
      local_write_eq_ok, Except.ok.injEq, heap_add] at h
    try casesm* ∃ _, _, _ ∧ _
    subst_vars
    simp_all [step_effect, frame_kept]
    omega
  rw [if_neg c6] at h
  by_cases c7 : op = i_iadd
  · rw [if_pos c7] at h
    simp only [bind_eq_ok, pure, Except.pure, Prod.exists, pop_eq_ok, push_eq_ok,
      local_write_eq_ok, Except.ok.injEq, heap_add] at h
    try casesm* ∃ _, _, _ ∧ _
    subst_vars
    simp_all [step_effect, frame_kept]
  rw [if_neg c7] at h
  by_cases c8 : op = i_isub
  · rw [if_pos c8] at h
    simp only [bind_eq_ok, pure, Except.pure, Prod.exists, pop_eq_ok, push_eq_ok,
      local_write_eq_ok, Except.ok.injEq, heap_add] at h
    try casesm* ∃ _, _, _ ∧ _
    subst_vars
    simp_all [step_effect, frame_kept]
    omega
  rw [if_neg c8] at h
  by_cases c9 : op = i_imul
  · rw [if_pos c9] at h
    simp only [bind_eq_ok, pure, Except.pure, Prod.exists, pop_eq_ok, push_eq_ok,
      local_write_eq_ok, Except.ok.injEq, heap_add] at h
    try casesm* ∃ _, _, _ ∧ _
    subst_vars
    simp_all [step_effect, frame_kept]
    omega
  rw [if_neg c9] at h
  by_cases c10 : op = i_idiv
  · rw [if_pos c10] at h
    simp only [bind_eq_ok, pure, Except.pure, Prod.exists, pop_eq_ok, push_eq_ok,
      local_write_eq_ok, Except.ok.injEq, heap_add] at h
    try casesm* ∃ _, _, _ ∧ _
    subst_vars
    simp_all [step_effect, frame_kept]
    omega
  rw [if_neg c10] at h
  by_cases c11 : op = i_irem
  · rw [if_pos c11] at h
    simp only [bind_eq_ok, pure, Except.pure, Prod.exists, pop_eq_ok, push_eq_ok,
      local_write_eq_ok, Except.ok.injEq, heap_add] at h
    try casesm* ∃ _, _, _ ∧ _
    subst_vars
    simp_all [step_effect, frame_kept]
    omega
  rw [if_neg c11] at h
  by_cases c12 : op = i_ineg
  · rw [if_pos c12] at h
    simp only [bind_eq_ok, pure, Except.pure, Prod.exists, pop_eq_ok, push_eq_ok,
      local_write_eq_ok, Except.ok.injEq, heap_add] at h
    try casesm* ∃ _, _, _ ∧ _
    subst_vars
    simp_all [step_effect, frame_kept]
  rw [if_neg c12] at h
  by_cases c13 : op = i_ishl
  · rw [if_pos c13] at h
    simp only [bind_eq_ok, pure, Except.pure, Prod.exists, pop_eq_ok, push_eq_ok,
      local_write_eq_ok, Except.ok.injEq, heap_add] at h
    try casesm* ∃ _, _, _ ∧ _
    subst_vars
    simp_all [step_effect, frame_kept]
    omega
  rw [if_neg c13] at h
  by_cases c14 : op = i_ishr
  · rw [if_pos c14] at h
    simp only [bind_eq_ok, pure, Except.pure, Prod.exists, pop_eq_ok, push_eq_ok,
      local_write_eq_ok, Except.ok.injEq, heap_add] at h
    try casesm* ∃ _, _, _ ∧ _
    subst_vars
    simp_all [step_effect, frame_kept]
    omega
  rw [if_neg c14] at h
  by_cases c15 : op = i_iushr
  · rw [if_pos c15] at h
    simp only [bind_eq_ok, pure, Except.pure, Prod.exists, pop_eq_ok, push_eq_ok,
      local_write_eq_ok, Except.ok.injEq, heap_add] at h
    try casesm* ∃ _, _, _ ∧ _
    subst_vars
    simp_all [step_effect, frame_kept]
    omega
  rw [if_neg c15] at h
  by_cases c16 : op = i_iand
  · rw [if_pos c16] at h
    simp only [bind_eq_ok, pure, Except.pure, Prod.exists, pop_eq_ok, push_eq_ok,
      local_write_eq_ok, Except.ok.injEq, heap_add] at h
    try casesm* ∃ _, _, _ ∧ _
    subst_vars
    simp_all [step_effect, frame_kept]
    omega
  rw [if_neg c16] at h
  by_cases c17 : op = i_ior
  · rw [if_pos c17] at h
    simp only [bind_eq_ok, pure, Except.pure, Prod.exists, pop_eq_ok, push_eq_ok,
      local_write_eq_ok, Except.ok.injEq, heap_add] at h
    try casesm* ∃ _, _, _ ∧ _
    subst_vars
    simp_all [step_effect, frame_kept]
    omega
  rw [if_neg c17] at h
  by_cases c18 : op = i_ixor
  · rw [if_pos c18] at h
    simp only [bind_eq_ok, pure, Except.pure, Prod.exists, pop_eq_ok, push_eq_ok,
      local_write_eq_ok, Except.ok.injEq, heap_add] at h
    try casesm* ∃ _, _, _ ∧ _
    subst_vars
    simp_all [step_effect, frame_kept]
    omega
  rw [if_neg c18] at h
  by_cases c19 : op = i_iload
  · rw [if_pos c19] at h
    simp only [bind_eq_ok, pure, Except.pure, Prod.exists, pop_eq_ok, push_eq_ok,
      local_write_eq_ok, Except.ok.injEq, heap_add] at h
    try casesm* ∃ _, _, _ ∧ _
    subst_vars
    simp_all [step_effect, frame_kept]
    omega
  rw [if_neg c19] at h
  by_cases c20 : op = i_istore
  · rw [if_pos c20] at h
    simp only [bind_eq_ok, pure, Except.pure, Prod.exists, pop_eq_ok, push_eq_ok,
      local_write_eq_ok, Except.ok.injEq, heap_add] at h
    try casesm* ∃ _, _, _ ∧ _
    subst_vars
    simp_all [step_effect, frame_kept]
    omega
  rw [if_neg c20] at h
  by_cases c21 : op = i_iinc
  · rw [if_pos c21] at h
    simp only [bind_eq_ok, pure, Except.pure, Prod.exists, pop_eq_ok, push_eq_ok,
      local_write_eq_ok, Except.ok.injEq, heap_add] at h
    try casesm* ∃ _, _, _ ∧ _
    subst_vars
    simp_all [step_effect, frame_kept]
  rw [if_neg c21] at h
  by_cases c22 : i_iload_0 ≤ op ∧ op ≤ i_iload_3
  · rw [if_pos c22] at h
    simp only [bind_eq_ok, pure, Except.pure, Prod.exists, pop_eq_ok, push_eq_ok,
      local_write_eq_ok, Except.ok.injEq, heap_add] at h
    try casesm* ∃ _, _, _ ∧ _
    subst_vars
    simp_all [step_effect, frame_kept]
    omega
  rw [if_neg c22] at h
  by_cases c23 : i_istore_0 ≤ op ∧ op ≤ i_istore_3
  · rw [if_pos c23] at h
    simp only [bind_eq_ok, pure, Except.pure, Prod.exists, pop_eq_ok, push_eq_ok,
      local_write_eq_ok, Except.ok.injEq, heap_add] at h
    try casesm* ∃ _, _, _ ∧ _
    subst_vars
    simp_all [step_effect, frame_kept]
    omega
  rw [if_neg c23] at h
  by_cases c24 : op = i_ldc
  · rw [if_pos c24] at h
    simp only [bind_eq_ok, pure, Except.pure, Prod.exists, pop_eq_ok, push_eq_ok,
      local_write_eq_ok, Except.ok.injEq, heap_add] at h
    try casesm* ∃ _, _, _ ∧ _
    subst_vars
    simp_all [step_effect, frame_kept]
    omega
  rw [if_neg c24] at h
  by_cases c25 : i_ifeq ≤ op ∧ op ≤ i_ifle
  · rw [if_pos c25] at h
    simp only [bind_eq_ok, pure, Except.pure, Prod.exists, pop_eq_ok, push_eq_ok,
      local_write_eq_ok, Except.ok.injEq, heap_add] at h
    obtain ⟨a, s1, ⟨hpop, hl⟩, h⟩ := h
    have hb : ∃ pc1 : Nat, res = .next { st with pc := pc1, s := s1 } := by
      iterate 6 refine ite_branch_ok _ _ _ _ _ _ h (fun h => ?_)
      exact ⟨_, (Except.ok.inj h).symm⟩
    obtain ⟨pc1, rfl⟩ := hb
    show frame_kept st _
    refine ⟨hl, fun hle => ?_, rfl⟩
    show s1.contents.length ≤ s1.length
    rw [hpop] at hle
    simp only [List.length_cons] at hle
    omega
  rw [if_neg c25] at h
  by_cases c26 : i_if_icmpeq ≤ op ∧ op ≤ i_if_icmple
  · rw [if_pos c26] at h
    simp only [bind_eq_ok, pure, Except.pure, Prod.exists, pop_eq_ok, push_eq_ok,
      local_write_eq_ok, Except.ok.injEq, heap_add] at h
    obtain ⟨b, s1, ⟨hpop, hl⟩, a, s2, ⟨hpop2, hl2⟩, h⟩ := h
    have hb : ∃ pc1 : Nat, res = .next { st with pc := pc1, s := s2 } := by
      iterate 6 refine ite_branch_ok _ _ _ _ _ _ h (fun h => ?_)
      exact ⟨_, (Except.ok.inj h).symm⟩
    obtain ⟨pc1, rfl⟩ := hb
    show frame_kept st _
    refine ⟨by show s2.length = st.s.length; rw [hl2, hl], fun hle => ?_, rfl⟩
    show s2.contents.length ≤ s2.length
    rw [hpop, hpop2] at hle
    simp only [List.length_cons] at hle
    omega
  rw [if_neg c26] at h
  by_cases c27 : op = i_goto
  · rw [if_pos c27] at h
    obtain ⟨pc1, rfl⟩ := branch_ok _ _ _ _ h
    simp [step_effect, frame_kept]
  rw [if_neg c27] at h
  by_cases c28 : op = i_ireturn
  · rw [if_pos c28] at h
    simp only [bind_eq_ok, pure, Except.pure, Prod.exists, pop_eq_ok, push_eq_ok,
      local_write_eq_ok, Except.ok.injEq, heap_add] at h
    try casesm* ∃ _, _, _ ∧ _
    subst_vars
    simp_all [step_effect, frame_kept]
    omega
  rw [if_neg c28] at h
  by_cases c29 : op = i_invokestatic
  · rw [if_pos c29] at h
    simp only [bind_eq_ok] at h
    obtain ⟨b1, -, b2, -, meth, -, ⟨s1, loc1⟩, hp, ret, -, h⟩ := h
    obtain ⟨st1, rfl, hl, hs, hc⟩ := invoke_return_ok _ _ _ _ h
    have hq := pop_params_ok _ _ _ _ _ _ _ hp
    show frame_kept st st1
    exact ⟨by rw [hs, hq.1], fun hle => hc (by rw [hq.1]; exact Nat.le_trans hq.2 hle), by rw [hl]⟩
  rw [if_neg c29] at h
  by_cases c30 : op = i_nop
  · rw [if_pos c30] at h
    simp only [bind_eq_ok, pure, Except.pure, Prod.exists, pop_eq_ok, push_eq_ok,
      local_write_eq_ok, Except.ok.injEq, heap_add] at h
    try casesm* ∃ _, _, _ ∧ _
    subst_vars
    simp_all [step_effect, frame_kept]
  rw [if_neg c30] at h
  by_cases c31 : op = i_dup
  · rw [if_pos c31] at h
    simp only [bind_eq_ok, pure, Except.pure, Prod.exists, pop_eq_ok, push_eq_ok,
      local_write_eq_ok, Except.ok.injEq, heap_add] at h
    try casesm* ∃ _, _, _ ∧ _
    subst_vars
    simp_all [step_effect, frame_kept]
    omega
  rw [if_neg c31] at h
  by_cases c32 : op = i_newarray
  · rw [if_pos c32] at h
    simp only [bind_eq_ok, pure, Except.pure, Prod.exists, pop_eq_ok, push_eq_ok,
      local_write_eq_ok, Except.ok.injEq, heap_add] at h
    try casesm* ∃ _, _, _ ∧ _
    subst_vars
    simp_all [step_effect, frame_kept]
  rw [if_neg c32] at h
  by_cases c33 : op = i_arraylength
  · rw [if_pos c33] at h
    simp only [bind_eq_ok, pure, Except.pure, Prod.exists, pop_eq_ok, push_eq_ok,
      local_write_eq_ok, Except.ok.injEq, heap_add] at h
    try casesm* ∃ _, _, _ ∧ _
    subst_vars
    simp_all [step_effect, frame_kept]
  rw [if_neg c33] at h
  by_cases c34 : op = i_areturn
  · rw [if_pos c34] at h
    simp only [bind_eq_ok, pure, Except.pure, Prod.exists, pop_eq_ok, push_eq_ok,
      local_write_eq_ok, Except.ok.injEq, heap_add] at h
    try casesm* ∃ _, _, _ ∧ _
    subst_vars
    simp_all [step_effect, frame_kept]
    omega
  rw [if_neg c34] at h
  by_cases c35 : op = i_iastore
  · rw [if_pos c35] at h
    simp only [bind_eq_ok, pure, Except.pure, Prod.exists, pop_eq_ok, push_eq_ok,
      local_write_eq_ok, Except.ok.injEq, heap_add] at h
    try casesm* ∃ _, _, _ ∧ _
    subst_vars
    simp_all [step_effect, frame_kept]
    omega
  rw [if_neg c35] at h
  by_cases c36 : op = i_iaload
  · rw [if_pos c36] at h
    simp only [bind_eq_ok, pure, Except.pure, Prod.exists, pop_eq_ok, push_eq_ok,
      local_write_eq_ok, Except.ok.injEq, heap_add] at h
    try casesm* ∃ _, _, _ ∧ _
    subst_vars
    simp_all [step_effect, frame_kept]
    omega
  rw [if_neg c36] at h
  by_cases c37 : op = i_aload
  · rw [if_pos c37] at h
    simp only [bind_eq_ok, pure, Except.pure, Prod.exists, pop_eq_ok, push_eq_ok,
      local_write_eq_ok, Except.ok.injEq, heap_add] at h
    try casesm* ∃ _, _, _ ∧ _
    subst_vars
    simp_all [step_effect, frame_kept]
    omega
  rw [if_neg c37] at h
  by_cases c38 : op = i_astore
  · rw [if_pos c38] at h
    simp only [bind_eq_ok, pure, Except.pure, Prod.exists, pop_eq_ok, push_eq_ok,
      local_write_eq_ok, Except.ok.injEq, heap_add] at h
    try casesm* ∃ _, _, _ ∧ _
    subst_vars
    simp_all [step_effect, frame_kept]
    omega
  rw [if_neg c38] at h
  by_cases c39 : i_aload_0 ≤ op ∧ op ≤ i_aload_3
  · rw [if_pos c39] at h
    simp only [bind_eq_ok, pure, Except.pure, Prod.exists, pop_eq_ok, push_eq_ok,
      local_write_eq_ok, Except.ok.injEq, heap_add] at h
    try casesm* ∃ _, _, _ ∧ _
    subst_vars
    simp_all [step_effect, frame_kept]
    omega
  rw [if_neg c39] at h
  by_cases c40 : i_astore_0 ≤ op ∧ op ≤ i_astore_3
  · rw [if_pos c40] at h
    simp only [bind_eq_ok, pure, Except.pure, Prod.exists, pop_eq_ok, push_eq_ok,
      local_write_eq_ok, Except.ok.injEq, heap_add] at h
    try casesm* ∃ _, _, _ ∧ _
    subst_vars
    simp_all [step_effect, frame_kept]
    omega
  rw [if_neg c40] at h
  simp only [pure, Except.pure, Except.ok.injEq] at h
  subst h
  simp [step_effect, frame_kept]

/-- C13: when the instruction at the program counter is `return`, the loop of `execute`
ends at once with the result tagged "no value"; when it is `ireturn` with `v` on
top of the operand stack, it ends at once with the result tagged present and
carrying exactly `v`. In both cases this iteration is the last one: the result
comes out of `run` with fuel for a single iteration, and the heap and the output
are those of the state in which the instruction was met. -/
theorem return_ireturn_end_method (cls : class_file_t) (call : callee_t) (m : method_t)
    (st : state_t) (hlen : m.code.code.length < 4294967296) :
    (m.code.code[st.pc]? = some i_return →
        step cls call m st = .ok (.done { has_value := false, value := 0 } st)
        ∧ ∀ fuel : Nat, run cls (fuel + 1) m st
            = .ok ({ has_value := false, value := 0 }, st))
    ∧ (∀ (v : Int) (rest : List Int), m.code.code[st.pc]? = some i_ireturn →
        st.s.contents = v :: rest →
        step cls call m st
            = .ok (.done { has_value := true, value := v }
                { st with s := { st.s with contents := rest } })
        ∧ ∀ fuel : Nat, run cls (fuel + 1) m st
            = .ok ({ has_value := true, value := v },
                { st with s := { st.s with contents := rest } })) := by
  constructor
  · intro hop
    have e0 := code_at_eq m.code st.pc _ hlen hop
    have hstep : ∀ c : callee_t,
        step cls c m st = .ok (.done { has_value := false, value := 0 } st) := by
      intro c
      simp [step, e0, bind, Except.bind, pure, Except.pure]
    exact ⟨hstep call, fun fuel => by rw [run_succ, hstep]⟩
  · intro v rest hop hs
    have e0 := code_at_eq m.code st.pc _ hlen hop
    have hstep : ∀ c : callee_t, step cls c m st
        = .ok (.done { has_value := true, value := v }
            { st with s := { st.s with contents := rest } }) := by
      intro c
      simp [step, e0, pop, hs, bind, Except.bind, pure, Except.pure]
    exact ⟨hstep call, fun fuel => by rw [run_succ, hstep]⟩

/-- Witness of C13: `ireturn` with 8 on top of the stack. -/
theorem return_ireturn_end_method_witness :
    run empty_class 1 (single_op i_ireturn) (operands [8])
      = .ok ({ has_value := true, value := 8 }, operands []) :=
  ((return_ireturn_end_method empty_class no_call (single_op i_ireturn) (operands [8])
    (by decide)).2 8 [] rfl rfl).2 0

/-- A run that returns went through iterations that did not return, up to one
whose byte is `return`, `ireturn` or `areturn` and which returned the result. -/
theorem run_ends_by_return (cls : class_file_t) (m : method_t) :
    ∀ (fuel : Nat) (st : state_t) (r : optional_value_t) (st1 : state_t),
      run cls fuel m st = .ok (r, st1) →
      ∃ (fuel1 : Nat) (stl : state_t) (op : Nat),
        loop_reaches cls m fuel st (fuel1 + 1) stl
          ∧ code_at m.code stl.pc = .ok op
          ∧ (op = i_return ∨ op = i_ireturn ∨ op = i_areturn)
          ∧ step cls (execute cls fuel1) m stl = .ok (.done r st1)
  | 0, st, r, st1, h => by simp [run] at h
  | fuel + 1, st, r, st1, h => by
    rw [run_succ] at h
    cases hs : step cls (execute cls fuel) m st with
    | error e => rw [hs] at h; exact Except.noConfusion h
    | ok res =>
      rw [hs] at h
      cases res with
      | next st2 =>
        obtain ⟨fuel1, stl, op, hr, hop, hret, hl⟩ := run_ends_by_return cls m fuel st2 r st1 h
        exact ⟨fuel1, stl, op, loop_reaches.iterate fuel st st2 _ stl hs hr, hop, hret, hl⟩
      | done r2 st2 =>
        simp only [Except.ok.injEq, Prod.mk.injEq] at h
        obtain ⟨rfl, rfl⟩ := h
        obtain ⟨op, hop, heff⟩ := step_effect_ok cls _ m st _ hs
        exact ⟨fuel, st, op, loop_reaches.here _ st, hop, heff.2, hs⟩

/-- C14 (amended): if `execute` completes (returns a result), the last instruction it
executed in that frame is `return`, `ireturn` or `areturn`: the loop went from
the entry state through iterations that did not return to a state whose byte is
one of these three, and that iteration returned the result; no other opcode
ends a frame. -/
theorem frame_ends_by_return (cls : class_file_t) (fuel : Nat) (m : method_t)
    (locals : List Int) (heap : heap_t) (out : List Int)
    (r : optional_value_t) (heap1 : heap_t) (out1 : List Int)
    (h : execute cls fuel m locals heap out = .ok (r, heap1, out1)) :
    (∃ (fuel1 : Nat) (stl st1 : state_t) (op : Nat),
        loop_reaches cls m fuel (state_t.entry m locals heap out) (fuel1 + 1) stl
          ∧ code_at m.code stl.pc = .ok op
          ∧ (op = i_return ∨ op = i_ireturn ∨ op = i_areturn)
          ∧ step cls (execute cls fuel1) m stl = .ok (.done r st1)
          ∧ st1.heap = heap1 ∧ st1.out = out1)
      ∧ (∀ (call : callee_t) (st : state_t) (r2 : optional_value_t) (st2 : state_t),
          step cls call m st = .ok (.done r2 st2) →
          ∃ op : Nat, code_at m.code st.pc = .ok op
            ∧ (op = i_return ∨ op = i_ireturn ∨ op = i_areturn)) := by
  constructor
  · unfold execute at h
    cases hr : run cls fuel m (state_t.entry m locals heap out) with
    | error e => rw [hr] at h; exact Except.noConfusion h
    | ok p =>
      obtain ⟨r2, st1⟩ := p
      rw [hr] at h
      simp only [Except.ok.injEq, Prod.mk.injEq] at h
      obtain ⟨rfl, hh, ho⟩ := h
      obtain ⟨fuel1, stl, op, hreach, hop, hret, hl⟩ := run_ends_by_return cls m fuel _ _ _ hr
      exact ⟨fuel1, stl, st1, op, hreach, hop, hret, hl, hh, ho⟩
  · intro call st r2 st2 hs
    obtain ⟨op, hop, heff⟩ := step_effect_ok cls call m st _ hs
    exact ⟨op, hop, heff.2⟩

/-- Witness of C14 (amended): the method `bipush 5; bipush 3; iadd; ireturn`, which
returns 8. -/
theorem frame_ends_by_return_witness :
    ∃ (fuel1 : Nat) (stl st1 : state_t) (op : Nat),
      loop_reaches empty_class add_5_3 4 (state_t.entry add_5_3 [] [] []) (fuel1 + 1) stl
        ∧ code_at add_5_3.code stl.pc = .ok op
        ∧ (op = i_return ∨ op = i_ireturn ∨ op = i_areturn)
        ∧ step empty_class (execute empty_class fuel1) add_5_3 stl
            = .ok (.done { has_value := true, value := 8 } st1)
        ∧ st1.heap = [] ∧ st1.out = [] :=
  (frame_ends_by_return empty_class 4 add_5_3 [] [] [] { has_value := true, value := 8 } [] []
    rfl).1

/-- Counterexample to C14 as stated: the method `iconst_1; areturn` completes with the
present value 1, and the last instruction it executed (the iteration that
returned the result, reached from the entry state) is `areturn`, which is
neither `return` nor `ireturn`. -/
theorem areturn_ends_frame :
    execute empty_class 2 areturn_one [] [] [] = .ok ({ has_value := true, value := 1 }, [], [])
      ∧ loop_reaches empty_class areturn_one 2 (state_t.entry areturn_one [] [] []) 1 at_areturn
      ∧ step empty_class (execute empty_class 0) areturn_one at_areturn
          = .ok (.done { has_value := true, value := 1 }
              { at_areturn with s := { at_areturn.s with contents := [] } })
      ∧ code_at areturn_one.code at_areturn.pc = .ok i_areturn
      ∧ i_areturn ≠ i_return ∧ i_areturn ≠ i_ireturn :=
  ⟨rfl, loop_reaches.iterate 1 _ _ 1 _ rfl (loop_reaches.here 1 _), rfl, rfl, by decide,
    by decide⟩

/-! ### Operand stack, a scenario and iinc (C15 to C17, C20) -/

/-- C15: on an operand stack within its capacity (`max_stack`, the `length` that
`execute` gives the stack on entry), `push(value)` fails, with the abort of its
`assert` and without producing a stack, if and only if the stack already holds
`max_stack` entries, and otherwise succeeds adding `value` on top; `pop()` fails
(abort) if and only if the stack is empty, and otherwise returns the top entry and
removes exactly it. -/
theorem push_pop_contract (s : stack_t) (value : Int) (hinv : s.contents.length ≤ s.length) :
    (push s value = .error .abort ↔ s.contents.length = s.length)
      ∧ (s.contents.length ≠ s.length →
          push s value = .ok { s with contents := value :: s.contents })
      ∧ (pop s = .error .abort ↔ s.contents = [])
      ∧ (∀ (top : Int) (below : List Int), s.contents = top :: below →
          pop s = .ok (top, { s with contents := below }))
      ∧ (∀ (m : method_t) (locals : List Int) (heap : heap_t) (out : List Int),
          (state_t.entry m locals heap out).s.length = m.code.max_stack
            ∧ (state_t.entry m locals heap out).s.contents = []) := by
  refine ⟨?_, ?_, ?_, ?_, fun _ _ _ _ => ⟨rfl, rfl⟩⟩
  · unfold push
    by_cases h : s.contents.length < s.length
    · simp [h]
      omega
    · simp [h]
      omega
  · intro hne
    have h : s.contents.length < s.length := by omega
    simp [push, h]
  · unfold pop
    cases hc : s.contents with
    | nil => simp
    | cons x xs => simp
  · intro top below hc
    simp [pop, hc]

/-- Witness of C15: a full stack of capacity 2. -/
theorem push_pop_contract_witness :
    push { length := 2, contents := [3, 5] } 7 = .error .abort
      ∧ pop { length := 2, contents := [3, 5] } = .ok (3, { length := 2, contents := [5] }) :=
  ⟨(push_pop_contract { length := 2, contents := [3, 5] } 7 (by decide)).1.mpr rfl,
    (push_pop_contract { length := 2, contents := [3, 5] } 7 (by decide)).2.2.2.1 3 [5] rfl⟩

/-- The iterations of a frame keep the capacity of the operand stack and the bound of
its size. -/
theorem loop_reaches_kept (cls : class_file_t) (m : method_t) (fuel : Nat) (st : state_t)
    (fuel1 : Nat) (st1 : state_t) (h : loop_reaches cls m fuel st fuel1 st1) :
    st1.s.length = st.s.length
      ∧ (st.s.contents.length ≤ st.s.length → st1.s.contents.length ≤ st1.s.length) := by
  induction h with
  | here fuel st => exact ⟨rfl, fun h => h⟩
  | iterate fuel st st2 fuel2 st3 hs _ ih =>
    obtain ⟨op, -, heff⟩ := step_effect_ok cls _ m st _ hs
    have hk : frame_kept st st2 := heff
    exact ⟨by rw [ih.1, hk.1], fun hle => ih.2 (hk.2.1 hle)⟩

/-- C16: in every state that the loop of `execute` reaches from its entry state (empty
operand stack of capacity `max_stack`), whatever the method, the capacity is
still `max_stack` and the operand-stack size is at most `max_stack`; and from
any state with that property, no instruction (none of the branches of the loop,
with any callee behind `invokestatic`) produces a non-failed state that violates
it. -/
theorem operand_stack_within_max_stack (cls : class_file_t) (m : method_t)
    (locals : List Int) (heap : heap_t) (out : List Int) (fuel fuel1 : Nat) (st1 : state_t)
    (hreach : loop_reaches cls m fuel (state_t.entry m locals heap out) fuel1 st1) :
    st1.s.length = m.code.max_stack
      ∧ st1.s.contents.length ≤ m.code.max_stack
      ∧ (∀ (call : callee_t) (st : state_t) (res : loop_t),
          st.s.length = m.code.max_stack → st.s.contents.length ≤ m.code.max_stack →
          step cls call m st = .ok res →
          res.state.s.length = m.code.max_stack
            ∧ res.state.s.contents.length ≤ m.code.max_stack) := by
  have hk := loop_reaches_kept cls m fuel _ fuel1 st1 hreach
  have h1 : st1.s.length = m.code.max_stack := hk.1
  refine ⟨h1, ?_, ?_⟩
  · rw [← h1]
    exact hk.2 (Nat.zero_le _)
  · intro call st res hl hc hs
    obtain ⟨op, -, heff⟩ := step_effect_ok cls call m st _ hs
    have hkept : frame_kept st res.state := by
      cases res with
      | next st2 => exact heff
      | done r st2 => exact heff.1
    refine ⟨by rw [hkept.1, hl], ?_⟩
    have := hkept.2.1 (by rw [hl]; exact hc)
    rw [hkept.1, hl] at this
    exact this

/-- Witness of C16: `bipush 5; bipush 3; iadd; ireturn` after its two `bipush`. -/
theorem operand_stack_within_max_stack_witness :
    add_5_3_at_iadd.s.length = add_5_3.code.max_stack
      ∧ add_5_3_at_iadd.s.contents.length ≤ add_5_3.code.max_stack :=
  match operand_stack_within_max_stack empty_class add_5_3 [] [] [] 4 2 add_5_3_at_iadd
      (loop_reaches.iterate 3 _ _ 2 _ rfl
        (loop_reaches.iterate 2 _ _ 2 _ rfl (loop_reaches.here 2 _))) with
  | ⟨h1, h2, _⟩ => ⟨h1, h2⟩

set_option maxRecDepth 8192 in
/-- C17 (amended): the method `bipush 4; ifle L; bipush 1; ireturn; L: bipush 0; ireturn`
returns the present value 1: 4 is not `≤ 0`, the `ifle` is not taken, and the run
goes on with `bipush 1; ireturn`. -/
theorem ifle_demo_returns_one (cls : class_file_t) (fuel : Nat) (locals : List Int)
    (heap : heap_t) (out : List Int) :
    execute cls (fuel + 4) ifle_demo locals heap out
      = .ok ({ has_value := true, value := 1 }, heap, out) := rfl

set_option maxRecDepth 8192 in
/-- Counterexample to C17 as stated: the method returns the present value 1, and with
no amount of fuel does it return the present value 0. -/
theorem ifle_demo_not_zero :
    execute empty_class 4 ifle_demo [] [] [] = .ok ({ has_value := true, value := 1 }, [], [])
      ∧ ∀ fuel : Nat, execute empty_class fuel ifle_demo [] [] []
          ≠ .ok ({ has_value := true, value := 0 }, [], []) := by
  refine ⟨rfl, ?_⟩
  intro fuel h
  match fuel, h with
  | 0, h => exact Except.noConfusion h
  | 1, h => exact Except.noConfusion h
  | 2, h => exact Except.noConfusion h
  | 3, h => exact Except.noConfusion h
  | n + 4, h =>
    have h1 : execute empty_class (n + 4) ifle_demo [] [] []
        = .ok ({ has_value := true, value := 1 }, [], []) := rfl
    rw [h1] at h
    simp at h

/-- The cast `(int8_t) c` of a byte. -/
theorem to_int8_byte (c : Nat) (hc : c < 256) :
    to_int8 (c : Int) = if c < 128 then (c : Int) else (c : Int) - 256 := by
  unfold to_int8
  split <;> omega

/-- C20: for a local index `i` of an existing slot, an operand byte `c` and the current
value `x` of `locals[i]`, `iinc i c` sets `locals[i]` to `x + sext8(c)` reduced to
32-bit two's complement, where `sext8(c)` is `c` read as a signed 8-bit value
(`c` if `c < 128`, else `c - 256`, so `c = 0xFF` decrements by 1); it leaves the
operand stack, every other local, the heap and the output unchanged and advances
the program counter by 3. -/
theorem iinc_adds_signed_byte (cls : class_file_t) (call : callee_t) (m : method_t)
    (st : state_t) (i c : Nat) (x : Int)
    (hlen : m.code.code.length < 4294967296)
    (hop : m.code.code[st.pc]? = some i_iinc)
    (h1 : m.code.code[st.pc + 1]? = some i) (h2 : m.code.code[st.pc + 2]? = some c)
    (hc : c < 256) (hx : st.locals[i]? = some x) :
    step cls call m st
        = .ok (.next { st with
            locals := st.locals.set i
              (to_int32 (x + (if c < 128 then (c : Int) else (c : Int) - 256))),
            pc := st.pc + 3 })
      ∧ (st.locals.set i
            (to_int32 (x + (if c < 128 then (c : Int) else (c : Int) - 256))))[i]?
          = some (to_int32 (x + (if c < 128 then (c : Int) else (c : Int) - 256)))
      ∧ (∀ j : Nat, j ≠ i →
          (st.locals.set i
            (to_int32 (x + (if c < 128 then (c : Int) else (c : Int) - 256))))[j]?
          = st.locals[j]?)
      ∧ (c = 255 → to_int32 (x + (if c < 128 then (c : Int) else (c : Int) - 256))
          = to_int32 (x - 1)) := by
  have e0 := code_at_eq m.code st.pc _ hlen hop
  have e1 := code_at_eq m.code _ _ hlen h1
  have e2 := code_at_eq m.code _ _ hlen h2
  have e3 := pc_inc_eq m.code st.pc _ 3 hlen h2 (by decide)
  have hi : i < st.locals.length := by
    by_contra hn
    rw [List.getElem?_eq_none (Nat.le_of_not_lt hn)] at hx
    exact Option.noConfusion hx
  refine ⟨?_, List.getElem?_set_self hi, fun j hj => List.getElem?_set_ne (Ne.symm hj), ?_⟩
  · simp [step, e0, e1, e2, e3, local_read, local_write, hx, hi, to_int8_byte c hc, bind,
      Except.bind, pure, Except.pure]
  · intro h255
    subst h255
    simp
    rfl

/-- Witness of C20: `iinc 0 0xFF` on the local value 5 leaves 4. -/
theorem iinc_adds_signed_byte_witness :
    step empty_class no_call (iinc_0 255) (one_local 5)
      = .ok (.next { one_local 5 with locals := [4], pc := 0 + 3 }) :=
  (iinc_adds_signed_byte empty_class no_call (iinc_0 255) (one_local 5) 0 255 5 (by decide)
    rfl rfl rfl (by decide) rfl).1

/-! ### Recursion (C18) -/

/-- Reducing a factor before a product is reduced changes nothing. -/
theorem to_int32_mul_right (a b : Int) : to_int32 (a * to_int32 b) = to_int32 (a * b) := by
  obtain ⟨t, ht⟩ := to_int32_congr b
  have hb : to_int32 b = b + 4294967296 * t := by omega
  rw [hb]
  unfold to_int32
  have e : a * (b + 4294967296 * t) + 2147483648 = a * b + 2147483648 + (a * t) * 4294967296 := by
    ring
  rw [e, Int.add_mul_emod_self]

/-- The run of `fact` on an argument `n ≤ 1`: five iterations, result 1. -/
theorem fact_base (ms ml : Nat) (hms : 3 ≤ ms) (n : Nat) (hn : n ≤ 1)
    (tail : List Int) (heap : heap_t) (out : List Int) (k : Nat) :
    execute (fact_class ms ml) (k + 5) (fact_method ms ml) ((n : Int) :: tail) heap out
      = .ok ({ has_value := true, value := 1 }, heap, out) := by
  have h0 : 0 < ms := by omega
  have h1 : 1 < ms := by omega
  have hle : ¬ ((n : Int) > 1) := by omega
  simp [execute, run, step, state_t.entry, fact_method, code_at, pop, push, local_read, h0, h1,
    hle, pc_inc, bind, Except.bind, pure, Except.pure]

/-- The run of `fact` up to its `if_icmpgt`: two iterations push `N` and 1. -/
theorem fact_start (ms ml : Nat) (hms : 3 ≤ ms) (N : Int)
    (tail : List Int) (heap : heap_t) (out : List Int) (fuel : Nat) :
    run (fact_class ms ml) (fuel + 2) (fact_method ms ml)
        (state_t.entry (fact_method ms ml) (N :: tail) heap out)
      = run (fact_class ms ml) fuel (fact_method ms ml)
          ⟨2, ⟨ms, [1, N]⟩, N :: tail, heap, out⟩ := by
  have h0 : 0 < ms := by omega
  have h1 : 1 < ms := by omega
  simp [run, step, state_t.entry, fact_method, code_at, pop, push, local_read, h0, h1,
    pc_inc, bind, Except.bind, pure, Except.pure]

/-- The `if_icmpgt` of `fact` on an argument `N > 1` is taken, to address 7. -/
theorem fact_compare (ms ml : Nat) (N : Int) (hN : 1 < N)
    (tail : List Int) (heap : heap_t) (out : List Int) (fuel : Nat) :
    run (fact_class ms ml) (fuel + 1) (fact_method ms ml)
        ⟨2, ⟨ms, [1, N]⟩, N :: tail, heap, out⟩
      = run (fact_class ms ml) fuel (fact_method ms ml)
          ⟨7, ⟨ms, []⟩, N :: tail, heap, out⟩ := by
  have hgt : N > 1 := hN
  have e0 : code_at (fact_method ms ml).code 2 = .ok i_if_icmpgt := rfl
  have hb := branch_eq (fact_method ms ml).code ⟨2, ⟨ms, [1, N]⟩, N :: tail, heap, out⟩
    ⟨ms, []⟩ 0 5 5 (by simp [fact_method]) rfl rfl (by decide) (by decide) (by decide)
    (by show (0 : Int) ≤ ((2 : Nat) : Int) + 5; decide)
    (by show ((2 : Nat) : Int) + 5 < 4294967296; decide)
  have h7 : (((2 : Nat) : Int) + 5).toNat = 7 := rfl
  rw [h7] at hb
  have hstep : step (fact_class ms ml) (execute (fact_class ms ml) fuel) (fact_method ms ml)
      ⟨2, ⟨ms, [1, N]⟩, N :: tail, heap, out⟩
      = .ok (.next ⟨7, ⟨ms, []⟩, N :: tail, heap, out⟩) := by
    simp [step, e0, hb, pop, hgt, bind, Except.bind]
  rw [run_succ, hstep]

/-- The run of `fact` from address 7 to its `invokestatic`: four iterations leave `N`
and, on top, `N - 1` on the stack. -/
theorem fact_prefix (ms ml : Nat) (hms : 3 ≤ ms) (N : Int)
    (tail : List Int) (heap : heap_t) (out : List Int) (fuel : Nat) :
    run (fact_class ms ml) (fuel + 4) (fact_method ms ml)
        ⟨7, ⟨ms, []⟩, N :: tail, heap, out⟩
      = run (fact_class ms ml) fuel (fact_method ms ml)
          ⟨11, ⟨ms, [to_int32 (N - 1), N]⟩, N :: tail, heap, out⟩ := by
  have h0 : 0 < ms := by omega
  have h1 : 1 < ms := by omega
  have h2 : 2 < ms := by omega
  simp [run, step, fact_method, code_at, pop, push, local_read, h0, h1, h2,
    pc_inc, bind, Except.bind, pure, Except.pure]

/-- The run of `fact` after its `invokestatic`: two iterations multiply and return. -/
theorem fact_suffix (ms ml : Nat) (hms : 3 ≤ ms) (N v : Int)
    (tail : List Int) (heap : heap_t) (out : List Int) (fuel : Nat) :
    run (fact_class ms ml) (fuel + 2) (fact_method ms ml)
        ⟨14, ⟨ms, [v, N]⟩, N :: tail, heap, out⟩
      = .ok ({ has_value := true, value := to_int32 (N * v) },
          ⟨15, ⟨ms, []⟩, N :: tail, heap, out⟩) := by
  have h0 : 0 < ms := by omega
  simp [run, step, fact_method, code_at, pop, push, h0, pc_inc, bind, Except.bind, pure,
    Except.pure]

/-- The run of `fact` on `n`, with `8 n + 5` iterations or more, returns `n!` reduced to
32 bits and leaves the heap and the output as they were. -/
theorem fact_runs (ms ml : Nat) (hms : 3 ≤ ms) (hml : 1 ≤ ml) :
    ∀ (n : Nat), n < 2147483648 → ∀ (tail : List Int) (heap : heap_t) (out : List Int)
      (k : Nat),
      execute (fact_class ms ml) (8 * n + 5 + k) (fact_method ms ml) ((n : Int) :: tail)
          heap out
        = .ok ({ has_value := true, value := to_int32 (Nat.factorial n) }, heap, out)
  | 0, _, tail, heap, out, k => by
    have h := fact_base ms ml hms 0 (by decide) tail heap out k
    have hf : 8 * 0 + 5 + k = k + 5 := by omega
    rw [hf, h]
    rfl
  | 1, _, tail, heap, out, k => by
    have h := fact_base ms ml hms 1 (by decide) tail heap out (k + 8)
    have hf : 8 * 1 + 5 + k = k + 8 + 5 := by omega
    rw [hf, h]
    rfl
  | n + 2, hn, tail, heap, out, k => by
    have ih := fact_runs ms ml hms hml (n + 1) (by omega)
      (List.replicate (ml - 1) 0) heap out k
    have hf : 8 * (n + 2) + 5 + k = (8 * (n + 1) + 5 + k) + 1 + 4 + 1 + 2 := by omega
    have hg : 8 * (n + 1) + 5 + k = (8 * n + 11 + k) + 2 := by omega
    have hsub : to_int32 (((n + 2 : Nat) : Int) - 1) = ((n + 1 : Nat) : Int) := by
      rw [to_int32_of_range]
      · push_cast
        ring
      · unfold is_int32
        omega
    have hstep := step_invokestatic (fact_class ms ml)
      (execute (fact_class ms ml) (8 * (n + 1) + 5 + k)) (fact_method ms ml)
      ⟨11, ⟨ms, [((n + 1 : Nat) : Int), ((n + 2 : Nat) : Int)]⟩, ((n + 2 : Nat) : Int) :: tail,
        heap, out⟩
      0 2 (fact_method ms ml) [((n + 1 : Nat) : Int)] [((n + 2 : Nat) : Int)]
      (by simp [fact_method]) rfl rfl rfl rfl rfl hml rfl
    have hloc : [((n + 1 : Nat) : Int)] ++ List.replicate ((fact_method ms ml).code.max_locals
        - [((n + 1 : Nat) : Int)].length) 0
        = ((n + 1 : Nat) : Int) :: List.replicate (ml - 1) 0 := rfl
    rw [hloc, ih] at hstep
    have h1 : 1 < ms := by omega
    have hret : step (fact_class ms ml) (execute (fact_class ms ml) (8 * (n + 1) + 5 + k))
        (fact_method ms ml)
        ⟨11, ⟨ms, [((n + 1 : Nat) : Int), ((n + 2 : Nat) : Int)]⟩,
          ((n + 2 : Nat) : Int) :: tail, heap, out⟩
        = .ok (.next ⟨14, ⟨ms, [to_int32 ((Nat.factorial (n + 1) : Nat) : Int),
            ((n + 2 : Nat) : Int)]⟩, ((n + 2 : Nat) : Int) :: tail, heap, out⟩) := by
      rw [hstep]
      simp [Except.bind, invoke_return, push, h1, pc_inc, bind, pure, Except.pure]
    unfold execute
    rw [hf, fact_start ms ml hms, fact_compare ms ml _ (by omega), fact_prefix ms ml hms, hsub,
      run_succ, hret]
    simp only []
    rw [hg, fact_suffix ms ml hms]
    have hfac : ((n + 2 : Nat) : Int) * ((Nat.factorial (n + 1) : Nat) : Int)
        = ((Nat.factorial (n + 2) : Nat) : Int) := by
      rw [Nat.factorial_succ (n + 1)]
      push_cast
      ring
    rw [to_int32_mul_right, hfac]

/-- C18: for the one-parameter static method `fact` (`max_stack ≥ 3`,
`max_locals ≥ 1`, its `invokestatic` naming `fact` itself) and every argument
`0 ≤ n < 2^31` in local 0, the recursive execution terminates, with `8 n + 5`
loop iterations allowed or more, and returns the present value `n!` reduced to
32-bit two's complement, the heap and the output being left as they were;
`fact(5)` returns 120. The depth of the native recursion is not bounded in the
model. -/
theorem fact_terminates_with_factorial (ms ml : Nat) (hms : 3 ≤ ms) (hml : 1 ≤ ml)
    (n : Nat) (hn : n < 2147483648) (tail : List Int) (heap : heap_t) (out : List Int) :
    (∀ k : Nat, execute (fact_class ms ml) (8 * n + 5 + k) (fact_method ms ml)
          ((n : Int) :: tail) heap out
        = .ok ({ has_value := true, value := to_int32 (Nat.factorial n) }, heap, out))
      ∧ is_int32 (to_int32 (Nat.factorial n))
      ∧ (4294967296 : Int) ∣ (to_int32 (Nat.factorial n) - (Nat.factorial n : Int))
      ∧ execute (fact_class ms ml) 45 (fact_method ms ml) (5 :: tail) heap out
        = .ok ({ has_value := true, value := 120 }, heap, out) :=
  ⟨fact_runs ms ml hms hml n hn tail heap out, to_int32_range _, to_int32_congr _,
    fact_runs ms ml hms hml 5 (by decide) tail heap out 0⟩

/-- Witness of C18: `fact(5)`, with the smallest frame sizes, returns 120 and
`fact(13)` returns 13! reduced to 32 bits. -/
theorem fact_terminates_with_factorial_witness :
    execute (fact_class 3 1) 45 (fact_method 3 1) [5] [] []
        = .ok ({ has_value := true, value := 120 }, [], [])
      ∧ execute (fact_class 3 1) 109 (fact_method 3 1) [13] [] []
        = .ok ({ has_value := true, value := 1932053504 }, [], []) :=
  ⟨(fact_terminates_with_factorial 3 1 (by decide) (by decide) 5 (by decide) [] [] []).2.2.2,
    (fact_terminates_with_factorial 3 1 (by decide) (by decide) 13 (by decide) [] [] []).1 0⟩

/-! ### Frames and the shared heap (C19) -/

/-- What the return sequence of `invokestatic` leaves when it goes on: the returned
value, if any, on the stack it was given, the heap and the output of the callee,
and the program counter past the instruction. -/
theorem invoke_return_next (st : state_t) (s : stack_t) (r : optional_value_t)
    (heap1 : heap_t) (out1 : List Int) (st1 : state_t)
    (h : invoke_return st s (r, heap1, out1) = .ok (.next st1)) :
    st1 = { st with
      s := { s with contents := if r.has_value then r.value :: s.contents else s.contents },
      heap := heap1, out := out1, pc := pc_inc st.pc 3 } := by
  unfold invoke_return at h
  cases hv : r.has_value with
  | false =>
    simp only [hv, bind, Except.bind, pure, Except.pure, Bool.false_eq_true, if_false,
      Except.ok.injEq, loop_t.next.injEq] at h
    rw [← h]
    simp
  | true =>
    by_cases hroom : s.contents.length < s.length
    · simp only [hv, bind, Except.bind, pure, Except.pure, if_true, push, hroom,
        Except.ok.injEq, loop_t.next.injEq] at h
      rw [← h]
      simp
    · simp only [hv, bind, Except.bind, if_true, push, hroom, if_false] at h
      exact Except.noConfusion h

/-- C19: after an `invokestatic`, whatever the callee did (any callee behaviour, so any
`istore`, `iinc`, `push` or `pop` on its own frame), the caller's local slots are
exactly what they were before the call, and so are the operand-stack entries
below the popped arguments, under the returned value if there is one; the
callee is run on fresh locals, the heap and the output only. The heap after the
call is the heap the callee left, so that an `iaload` by the caller pushes the
element the callee's heap holds. In the program `call_store`, the callee
overwrites its own local 0 and stack and stores 42 in the caller's array: the
caller still finds 7 in its local 0 and 5 on its stack, loads the 42, and
returns 42 + 7 + 5 = 54. -/
theorem invokestatic_frame_isolation (cls : class_file_t) (m : method_t)
    (st : state_t) (b1 b2 : Nat) (meth : method_t) (xs rest : List Int)
    (hlen : m.code.code.length < 4294967296)
    (hop : m.code.code[st.pc]? = some i_invokestatic)
    (h1 : m.code.code[st.pc + 1]? = some b1) (h2 : m.code.code[st.pc + 2]? = some b2)
    (hfind : cls.find_method_from_index (jump_of b1 b2) = some meth)
    (hn : get_number_of_parameters meth = xs.length)
    (hmax : xs.length ≤ meth.code.max_locals)
    (hs : st.s.contents = xs.reverse ++ rest) :
    (∀ (call : callee_t) (res : loop_t), step cls call m st = .ok res →
        ∃ (st1 : state_t) (r : optional_value_t), res = .next st1
          ∧ call meth (xs ++ List.replicate (meth.code.max_locals - xs.length) 0)
              st.heap st.out = .ok (r, st1.heap, st1.out)
          ∧ st1.locals = st.locals
          ∧ st1.s.contents = (if r.has_value then r.value :: rest else rest)
          ∧ st1.s.length = st.s.length)
      ∧ (∀ (call : callee_t) (r : optional_value_t) (heap1 : heap_t) (out1 : List Int),
          call meth (xs ++ List.replicate (meth.code.max_locals - xs.length) 0)
              st.heap st.out = .ok (r, heap1, out1) →
          (r.has_value = true → rest.length < st.s.length) →
          ∃ st1 : state_t, step cls call m st = .ok (.next st1) ∧ st1.heap = heap1)
      ∧ (∀ (call : callee_t) (st1 : state_t), step cls call m st = .ok (.next st1) →
          ∀ (cls2 : class_file_t) (call2 : callee_t) (m2 : method_t) (st2 : state_t)
            (rest2 blk : List Int) (h i x : Int),
            m2.code.code.length < 4294967296 → m2.code.code[st2.pc]? = some i_iaload →
            st2.heap = st1.heap → st2.s.contents = i :: h :: rest2 →
            st2.s.contents.length ≤ st2.s.length →
            heap_get st1.heap h = .ok blk → 0 ≤ i → i < 2147483647 →
            blk[i.toNat + 1]? = some x →
            step cls2 call2 m2 st2
              = .ok (.next { st2 with s := { st2.s with contents := x :: rest2 },
                                      pc := st2.pc + 1 }))
      ∧ (∀ fuel : Nat, execute store_class (fuel + 17) call_store [0, 0] [] []
          = .ok ({ has_value := true, value := 54 }, [[2, 42, 0]], [])) := by
  have hstep := fun call : callee_t =>
    step_invokestatic cls call m st b1 b2 meth xs rest hlen hop h1 h2 hfind hn hmax hs
  refine ⟨?_, ?_, ?_, fun fuel => rfl⟩
  · intro call res hres
    rw [hstep call] at hres
    have hb := (bind_eq_ok _ _ _).mp hres
    obtain ⟨⟨r, heap1, out1⟩, hcall, hret⟩ := hb
    obtain ⟨st1, rfl, -⟩ := invoke_return_ok _ _ _ _ hret
    have hst := invoke_return_next _ _ _ _ _ _ hret
    subst hst
    exact ⟨_, r, rfl, hcall, rfl, rfl, rfl⟩
  · intro call r heap1 out1 hcall hroom
    rw [hstep call, hcall]
    cases hv : r.has_value with
    | false =>
      exact ⟨_, by simp [Except.bind, invoke_return, hv, bind, pure, Except.pure]; rfl, rfl⟩
    | true =>
      have hlt := hroom hv
      exact ⟨_, by simp [Except.bind, invoke_return, hv, bind, pure, Except.pure, push, hlt]; rfl,
        rfl⟩
  · intro call st1 _ cls2 call2 m2 st2 rest2 blk h i x hlen2 hop2 hheap hs2 hcap2 hget hi0 hi hx
    exact step_iaload cls2 call2 m2 st2 h i x rest2 blk hlen2 hop2 hs2 hcap2
      (by rw [hheap]; exact hget) hi0 hi hx

/-- Witness of C19: the caller of `store_42` at its `invokestatic`, with the run of
`store_42` as callee. -/
theorem invokestatic_frame_isolation_witness :
    ∃ (st1 : state_t) (r : optional_value_t),
      (loop_t.next { at_call_store with
          s := { at_call_store.s with contents := [5] }, heap := [[2, 42, 0]], pc := 13 })
        = .next st1
      ∧ execute store_class 9 store_42 ([0] ++ List.replicate (1 - 1) 0) [[2, 0, 0]] []
          = .ok (r, st1.heap, st1.out)
      ∧ st1.locals = [7, 0]
      ∧ st1.s.contents = (if r.has_value then r.value :: [5] else [5])
      ∧ st1.s.length = 3 :=
  (invokestatic_frame_isolation store_class call_store at_call_store 0 2 store_42 [0] [5]
    (by decide) rfl rfl rfl rfl rfl (by decide) rfl).1 (execute store_class 9) _ rfl

/-! ### Constants, dup and ineg (C21, C22, C26, C29) -/

/-- C21 (amended): for an `ldc` whose operand byte `b ≥ 1` names an integer constant `c`
(the entry at position `b - 1` of the constant pool), the instruction pushes exactly
`c` and advances the program counter by 2, leaving locals, heap and output as they
are, when the operand stack holds fewer than `max_stack` entries; on a stack that
holds `max_stack` entries it stops on the assertion of `push`. -/
theorem ldc_pushes_pool_integer (cls : class_file_t) (call : callee_t) (m : method_t)
    (st : state_t) (b : Nat) (c : Int)
    (hlen : m.code.code.length < 4294967296)
    (hop : m.code.code[st.pc]? = some i_ldc)
    (h1 : m.code.code[st.pc + 1]? = some b) (hb : 1 ≤ b)
    (hc : cls.constant_pool[b - 1]? = some (.integer c)) :
    step cls call m st = pushed st c 2 := by
  have e0 := code_at_eq m.code st.pc _ hlen hop
  have e1 := code_at_eq m.code _ _ hlen h1
  have e2 := pc_inc_eq m.code st.pc _ 2 hlen h1 (by decide)
  have hk : (0 : Int) ≤ (b : Int) - 1 := by omega
  have ht : ((b : Int) - 1).toNat = b - 1 := by omega
  by_cases hroom : st.s.contents.length < st.s.length <;>
    simp [step, e0, e1, e2, cp_integer, hk, ht, hc, push, pushed, hroom, bind, Except.bind,
      pure, Except.pure]

/-- Witness of C21: `ldc 1` with the constant 100000 in the pool, on an empty stack. -/
theorem ldc_pushes_pool_integer_witness :
    step pool_class no_call (op_with_byte i_ldc 1) (operands [])
      = .ok (.next { operands [] with s := { length := 2, contents := [100000] }, pc := 2 }) :=
  ldc_pushes_pool_integer pool_class no_call (op_with_byte i_ldc 1) (operands []) 1 100000
    (by decide) rfl rfl (by decide) rfl

/-- Counterexample to C21 as stated: `ldc 1` names the integer constant 100000, and on
an operand stack that is full it pushes nothing: the run stops. -/
theorem ldc_on_full_stack :
    pool_class.constant_pool[1 - 1]? = some (.integer 100000)
      ∧ step pool_class no_call (op_with_byte i_ldc 1) (operands [7, 8]) = .error .abort :=
  ⟨rfl, rfl⟩

/-- C26 (amended): on an operand stack with fewer than `max_stack` entries, the opcode
`iconst_k` (the byte `3 + k`, for `k` from -1 to 5) pushes exactly `k` and advances
the program counter by 1, and `bipush c` pushes `c` read as a signed 8-bit value
(`c` if `c < 128`, else `c - 256`) and advances the program counter by 2; on a
stack that holds `max_stack` entries each of them stops on the assertion of
`push`. -/
theorem iconst_bipush_push_constant (cls : class_file_t) (call : callee_t) (m : method_t)
    (st : state_t) (hlen : m.code.code.length < 4294967296) :
    (∀ k : Int, -1 ≤ k → k ≤ 5 →
        m.code.code[st.pc]? = some ((i_iconst_0 : Int) + k).toNat →
        step cls call m st = pushed st k 1)
      ∧ (∀ c : Nat, c < 256 → m.code.code[st.pc]? = some i_bipush →
          m.code.code[st.pc + 1]? = some c →
          step cls call m st
            = pushed st (if c < 128 then (c : Int) else (c : Int) - 256) 2) := by
  constructor
  · intro k hk1 hk2 hop
    have e0 := code_at_eq m.code st.pc _ hlen hop
    have e1 := pc_inc_eq m.code st.pc _ 1 hlen hop (by decide)
    have hk : k = -1 ∨ k = 0 ∨ k = 1 ∨ k = 2 ∨ k = 3 ∨ k = 4 ∨ k = 5 := by omega
    by_cases hroom : st.s.contents.length < st.s.length <;>
      rcases hk with h | h | h | h | h | h | h <;> subst h <;>
      simp [step, e0, e1, push, pushed, hroom, bind, Except.bind, pure, Except.pure] at *
  · intro c hc hop h1
    have e0 := code_at_eq m.code st.pc _ hlen hop
    have e1 := code_at_eq m.code _ _ hlen h1
    have e2 := pc_inc_eq m.code st.pc _ 2 hlen h1 (by decide)
    by_cases hroom : st.s.contents.length < st.s.length <;>
      simp [step, e0, e1, e2, push, pushed, hroom, to_int8_byte c hc, bind, Except.bind,
        pure, Except.pure]

/-- Witness of C26: `iconst_m1` on an empty stack pushes -1. -/
theorem iconst_bipush_push_constant_witness :
    step empty_class no_call (single_op i_iconst_m1) (operands [])
      = .ok (.next { operands [] with s := { length := 2, contents := [-1] }, pc := 1 }) :=
  (iconst_bipush_push_constant empty_class no_call (single_op i_iconst_m1) (operands [])
    (by decide)).1 (-1) (by decide) (by decide) rfl

/-- Counterexample to C26 as stated: on an operand stack that is full, `iconst_2` and
`bipush 7` push nothing: the run stops. -/
theorem iconst_bipush_on_full_stack :
    step empty_class no_call (single_op (i_iconst_0 + 2)) (operands [7, 8]) = .error .abort
      ∧ step empty_class no_call (op_with_byte i_bipush 7) (operands [7, 8])
          = .error .abort :=
  ⟨rfl, rfl⟩

/-- C22: on a non-empty operand stack with top value `a` and fewer than `max_stack`
entries, `dup` leaves the same stack with one more copy of `a` on top (one entry
more, the entries below unchanged) and advances the program counter by 1; `dup` on
an empty stack, or on a stack that holds `max_stack` entries, stops on a failed
assertion. -/
theorem dup_copies_top (cls : class_file_t) (call : callee_t) (m : method_t) (st : state_t)
    (hlen : m.code.code.length < 4294967296)
    (hop : m.code.code[st.pc]? = some i_dup) :
    (∀ (a : Int) (rest : List Int), st.s.contents = a :: rest →
        st.s.contents.length < st.s.length →
        step cls call m st
            = .ok (.next { st with s := { st.s with contents := a :: st.s.contents },
                                   pc := st.pc + 1 })
          ∧ (a :: st.s.contents).length = st.s.contents.length + 1)
      ∧ (st.s.contents = [] → step cls call m st = .error .abort)
      ∧ (st.s.contents.length = st.s.length → step cls call m st = .error .abort) := by
  have e0 := code_at_eq m.code st.pc _ hlen hop
  have e1 := pc_inc_eq m.code st.pc _ 1 hlen hop (by decide)
  refine ⟨?_, ?_, ?_⟩
  · intro a rest hs hroom
    have h1 : rest.length < st.s.length := by rw [hs] at hroom; simp at hroom; omega
    have h2 : rest.length + 1 < st.s.length := by rw [hs] at hroom; simpa using hroom
    simp [step, e0, e1, pop, push, hs, h1, h2, bind, Except.bind, pure, Except.pure]
  · intro hs
    simp [step, e0, pop, hs, bind, Except.bind]
  · intro hfull
    cases hs : st.s.contents with
    | nil => simp [step, e0, pop, hs, bind, Except.bind]
    | cons a rest =>
      have h1 : rest.length < st.s.length := by rw [hs] at hfull; simp at hfull; omega
      have h2 : ¬ rest.length + 1 < st.s.length := by rw [hs] at hfull; simp at hfull; omega
      simp [step, e0, pop, push, hs, h1, h2, bind, Except.bind, pure, Except.pure]

/-- Witness of C22: `dup` on the stack holding 7 alone, of capacity 2. -/
theorem dup_copies_top_witness :
    step empty_class no_call (single_op i_dup) (operands [7])
      = .ok (.next { operands [7] with s := { length := 2, contents := [7, 7] }, pc := 1 }) :=
  ((dup_copies_top empty_class no_call (single_op i_dup) (operands [7]) (by decide) rfl).1
    7 [] rfl (by decide)).1

/-- C29: for a 32-bit `a` on top of the stack, `ineg` replaces it with `0 - a` reduced
to 32-bit two's complement and advances the program counter by 1; an `ineg` that
follows restores `a`, and `ineg` maps `-2^31` to itself. -/
theorem ineg_negates_top (cls : class_file_t) (call : callee_t) (m : method_t) (st : state_t)
    (a : Int) (rest : List Int)
    (hlen : m.code.code.length < 4294967296)
    (hop : m.code.code[st.pc]? = some i_ineg)
    (hs : st.s.contents = a :: rest) (hcap : st.s.contents.length ≤ st.s.length)
    (ha : is_int32 a) :
    step cls call m st
        = .ok (.next { st with s := { st.s with contents := to_int32 (0 - a) :: rest },
                               pc := st.pc + 1 })
      ∧ (m.code.code[st.pc + 1]? = some i_ineg →
          step cls call m { st with s := { st.s with contents := to_int32 (0 - a) :: rest },
                                    pc := st.pc + 1 }
            = .ok (.next { st with pc := st.pc + 2 }))
      ∧ (a = -2147483648 → to_int32 (0 - a) = a) := by
  have e0 := code_at_eq m.code st.pc _ hlen hop
  have e1 := pc_inc_eq m.code st.pc _ 1 hlen hop (by decide)
  have hc : rest.length < st.s.length := by rw [hs] at hcap; simp at hcap; omega
  have hneg : to_int32 (-a) = to_int32 (0 - a) := by simp
  refine ⟨?_, ?_, ?_⟩
  · simp [step, e0, e1, pop, push, hs, hc, bind, Except.bind, pure, Except.pure]
  · intro hop2
    have f0 := code_at_eq m.code (st.pc + 1) _ hlen hop2
    have f1 := pc_inc_eq m.code (st.pc + 1) _ 1 hlen hop2 (by decide)
    have hback : to_int32 (-to_int32 (-a)) = a := by
      unfold to_int32
      unfold is_int32 at ha
      omega
    simp [step, f0, f1, pop, push, hc, hback, bind, Except.bind, pure, Except.pure]
    cases st with
    | mk pc s locals heap out =>
      cases s with
      | mk length contents =>
        simp at hs
        simp [hs]
  · intro hmin
    subst hmin
    rfl

/-- Witness of C29: two `ineg` on the stack holding 5 leave -5, then 5 again. -/
theorem ineg_negates_top_witness :
    step empty_class no_call ineg_twice (operands [5])
        = .ok (.next { operands [5] with s := { length := 2, contents := [-5] }, pc := 1 })
      ∧ step empty_class no_call ineg_twice
          { operands [5] with s := { length := 2, contents := [-5] }, pc := 1 }
        = .ok (.next { operands [5] with pc := 2 }) :=
  match ineg_negates_top empty_class no_call ineg_twice (operands [5]) 5 [] (by decide) rfl
      rfl (by decide) (by decide) with
  | ⟨h1, h2, _⟩ => ⟨h1, h2 rfl⟩

/-! ### sipush (C25) -/

/-- Clearing, in the complement of `u` to 16 bits, the bits of a `b` disjoint from `u`
gives the complement of `u + b`. -/
theorem ldiff_complement (u b : Nat) (hu : u + b < 65536) (hor : u ||| b = u + b) :
    Nat.ldiff (65535 - u) b = 65535 - (u + b) := by
  apply Nat.eq_of_testBit_eq
  intro i
  have h1 : 65535 - u = 2 ^ 16 - (u + 1) := by omega
  have h2 : 65535 - (u + b) = 2 ^ 16 - (u + b + 1) := by omega
  rw [Nat.testBit_ldiff, h1, h2,
    Nat.testBit_two_pow_sub_succ (show u < 2 ^ 16 by omega),
    Nat.testBit_two_pow_sub_succ (show u + b < 2 ^ 16 by omega), ← hor, Nat.testBit_or]
  cases decide (i < 16) <;> cases u.testBit i <;> cases b.testBit i <;> rfl

/-- The C expression `(int16_t) ((int16_t) (b1 << 8) | b2)` of `sipush` on two bytes is
the signed 16-bit big-endian value they encode. -/
theorem sipush_value (b1 b2 : Nat) (hb1 : b1 < 256) (hb2 : b2 < 256) :
    to_int16 (Int.lor (to_int16 ((b1 <<< 8 : Nat) : Int)) (b2 : Int))
      = if b1 < 128 then (b1 : Int) * 256 + b2 else (b1 : Int) * 256 + b2 - 65536 := by
  have hsh : b1 <<< 8 = b1 * 256 := by rw [Nat.shiftLeft_eq]
  have hor : (b1 * 256) ||| b2 = b1 * 256 + b2 := by
    have h := Nat.mul_add_lt_is_or (show b2 < 2 ^ 8 by simpa using hb2) b1
    rw [Nat.mul_comm b1 256]
    exact h.symm
  rw [hsh]
  by_cases hlt : b1 < 128
  · have hx : to_int16 ((b1 * 256 : Nat) : Int) = ((b1 * 256 : Nat) : Int) := by
      unfold to_int16
      omega
    have hl : Int.lor ((b1 * 256 : Nat) : Int) (b2 : Int) = ((b1 * 256 ||| b2 : Nat) : Int) := rfl
    rw [hx, hl, hor, if_pos hlt]
    unfold to_int16
    omega
  · have hx : to_int16 ((b1 * 256 : Nat) : Int) = Int.negSucc (65535 - b1 * 256) := by
      unfold to_int16
      rw [Int.negSucc_eq]
      omega
    have hl : Int.lor (Int.negSucc (65535 - b1 * 256)) (b2 : Int)
        = Int.negSucc (Nat.ldiff (65535 - b1 * 256) b2) := rfl
    rw [hx, hl, ldiff_complement (b1 * 256) b2 (by omega) hor, if_neg hlt, Int.negSucc_eq]
    unfold to_int16
    omega

/-- C25 (amended): for operand bytes `b1`, `b2` in `0..255`, `sipush` pushes exactly the
signed 16-bit big-endian value they encode (`b1 * 256 + b2` if `b1 < 128`, else
`b1 * 256 + b2 - 65536`) and advances the program counter by 3, when the operand
stack holds fewer than `max_stack` entries; on a stack that holds `max_stack`
entries it stops on the assertion of `push`. The bytes `0xFF, 0xFE` encode -2 and
`0x00, 0xFF` encode 255. -/
theorem sipush_pushes_signed_16 (cls : class_file_t) (call : callee_t) (m : method_t)
    (st : state_t) (b1 b2 : Nat)
    (hlen : m.code.code.length < 4294967296)
    (hop : m.code.code[st.pc]? = some i_sipush)
    (h1 : m.code.code[st.pc + 1]? = some b1) (h2 : m.code.code[st.pc + 2]? = some b2)
    (hb1 : b1 < 256) (hb2 : b2 < 256) :
    step cls call m st
        = pushed st
            (if b1 < 128 then (b1 : Int) * 256 + b2 else (b1 : Int) * 256 + b2 - 65536) 3
      ∧ (b1 = 255 → b2 = 254 →
          (if b1 < 128 then (b1 : Int) * 256 + b2 else (b1 : Int) * 256 + b2 - 65536) = -2)
      ∧ (b1 = 0 → b2 = 255 →
          (if b1 < 128 then (b1 : Int) * 256 + b2 else (b1 : Int) * 256 + b2 - 65536)
            = 255) := by
  have e0 := code_at_eq m.code st.pc _ hlen hop
  have e1 := code_at_eq m.code _ _ hlen h1
  have e2 := code_at_eq m.code _ _ hlen h2
  have e3 := pc_inc_eq m.code st.pc _ 3 hlen h2 (by decide)
  have hv := sipush_value b1 b2 hb1 hb2
  refine ⟨?_, ?_, ?_⟩
  · by_cases hroom : st.s.contents.length < st.s.length <;>
      simp [step, e0, e1, e2, e3, hv, push, pushed, hroom, bind, Except.bind, pure,
        Except.pure]
  · intro h h'
    subst h h'
    decide
  · intro h h'
    subst h h'
    decide

/-- Witness of C25: `sipush 0xFF 0xFE` on an empty stack pushes -2. -/
theorem sipush_pushes_signed_16_witness :
    step empty_class no_call (branch_op i_sipush 255 254) (operands [])
      = .ok (.next { operands [] with s := { length := 2, contents := [-2] }, pc := 3 }) :=
  (sipush_pushes_signed_16 empty_class no_call (branch_op i_sipush 255 254) (operands [])
    255 254 (by decide) rfl rfl rfl (by decide) (by decide)).1

/-- Counterexample to C25 as stated: on an operand stack that is full, `sipush 0x00 0xFF`
pushes nothing: the run stops. -/
theorem sipush_on_full_stack :
    step empty_class no_call (branch_op i_sipush 0 255) (operands [7, 8]) = .error .abort :=
  rfl

/-! ### Shifts (C27) -/

/-- The conversion to `uint32_t` reduces modulo `2^32`. -/
theorem to_u4_cast (a : Int) : ((to_u4 a : Nat) : Int) = a % 4294967296 := by
  unfold to_u4
  exact Int.toNat_of_nonneg (Int.emod_nonneg a (by decide))

/-- C27: for a 32-bit `a` and a shift count `s` with `0 ≤ s ≤ 31`, `a` below `s` on the
stack (the value shifted is the lower entry, the count is the top entry): `ishl`
pushes `a * 2^s` reduced to 32-bit two's complement; `ishr` pushes the floor of
`a / 2^s`, a 32-bit value of the sign of `a`; `iushr` pushes the floor of `(a mod 2^32) / 2^s` reinterpreted as a
signed 32-bit value, which is non-negative whenever `s ≥ 1`. Each replaces the two
operands by the result and advances the program counter by 1. -/
theorem shifts_by_top_count (cls : class_file_t) (call : callee_t) (m : method_t)
    (st : state_t) (a s : Int) (rest : List Int)
    (hlen : m.code.code.length < 4294967296)
    (hs : st.s.contents = s :: a :: rest) (hcap : st.s.contents.length ≤ st.s.length)
    (ha : is_int32 a) (h0 : 0 ≤ s) (h31 : s ≤ 31) :
    (m.code.code[st.pc]? = some i_ishl →
        step cls call m st = binary_result st rest (to_int32 (a * 2 ^ s.toNat)))
      ∧ (m.code.code[st.pc]? = some i_ishr →
          step cls call m st = binary_result st rest (a / 2 ^ s.toNat)
            ∧ 2 ^ s.toNat * (a / 2 ^ s.toNat) ≤ a
            ∧ a < 2 ^ s.toNat * (a / 2 ^ s.toNat + 1)
            ∧ is_int32 (a / 2 ^ s.toNat)
            ∧ (a < 0 ↔ a / 2 ^ s.toNat < 0))
      ∧ (m.code.code[st.pc]? = some i_iushr →
          step cls call m st
              = binary_result st rest (to_int32 ((a % 4294967296) / 2 ^ s.toNat))
            ∧ (1 ≤ s → 0 ≤ to_int32 ((a % 4294967296) / 2 ^ s.toNat))) := by
  have hc : rest.length < st.s.length := by rw [hs] at hcap; simp at hcap; omega
  have hn : shift_count s = .ok s.toNat := by
    unfold shift_count
    rw [if_pos ⟨h0, by omega⟩]
  have hpos : (0 : Int) < 2 ^ s.toNat := by positivity
  refine ⟨?_, ?_, ?_⟩
  · intro hop
    have e0 := code_at_eq m.code st.pc _ hlen hop
    have e1 := pc_inc_eq m.code st.pc _ 1 hlen hop (by decide)
    simp [step, e0, e1, pop, push, hs, hc, hn, binary_result, bind, Except.bind, pure,
      Except.pure]
  · intro hop
    have e0 := code_at_eq m.code st.pc _ hlen hop
    have e1 := pc_inc_eq m.code st.pc _ 1 hlen hop (by decide)
    have hlo : 2 ^ s.toNat * (a / 2 ^ s.toNat) ≤ a := Int.mul_ediv_self_le (Int.ne_of_gt hpos)
    have hhi : a < 2 ^ s.toNat * (a / 2 ^ s.toNat + 1) := by
      have h := Int.lt_mul_ediv_self_add (x := a) hpos
      rw [mul_add, mul_one]
      exact h
    refine ⟨?_, hlo, hhi, ⟨?_, ?_⟩, ?_, ?_⟩
    · simp [step, e0, e1, pop, push, hs, hc, hn, binary_result, bind, Except.bind, pure,
        Except.pure]
    · exact Int.le_ediv_of_mul_le hpos (by unfold is_int32 at ha; linarith)
    · exact Int.ediv_le_of_le_mul hpos (by unfold is_int32 at ha; linarith)
    · intro hneg
      exact Int.ediv_lt_of_lt_mul hpos (by linarith)
    · intro hneg
      by_contra hge
      have h3 : 0 ≤ a / 2 ^ s.toNat := Int.ediv_nonneg (by omega) (Int.le_of_lt hpos)
      omega
  · intro hop
    have e0 := code_at_eq m.code st.pc _ hlen hop
    have e1 := pc_inc_eq m.code st.pc _ 1 hlen hop (by decide)
    refine ⟨?_, ?_⟩
    · simp [step, e0, e1, pop, push, hs, hc, hn, to_u4_cast, binary_result, bind, Except.bind,
        pure, Except.pure]
    · intro h1
      have hm0 : 0 ≤ a % 4294967296 := Int.emod_nonneg a (by decide)
      have hm1 : a % 4294967296 < 4294967296 := Int.emod_lt_of_pos a (by decide)
      have hq0 : 0 ≤ (a % 4294967296) / 2 ^ s.toNat := Int.ediv_nonneg hm0 (Int.le_of_lt hpos)
      have h2 : (2 : Int) ≤ 2 ^ s.toNat := by
        have : (2 : Int) ^ 1 ≤ 2 ^ s.toNat :=
          pow_le_pow_right₀ (by decide) (by omega)
        simpa using this
      have hq1 : (a % 4294967296) / 2 ^ s.toNat < 2147483648 := by
        apply Int.ediv_lt_of_lt_mul hpos
        nlinarith
      rw [to_int32_of_range _ ⟨by omega, by omega⟩]
      exact hq0

/-- Witness of C27: `iushr` of -1 by 28 leaves 15. -/
theorem shifts_by_top_count_witness :
    step empty_class no_call (single_op i_iushr) (operands [28, -1])
      = .ok (.next { operands [28, -1] with s := { length := 2, contents := [15] },
                                             pc := 1 }) :=
  ((shifts_by_top_count empty_class no_call (single_op i_iushr) (operands [28, -1]) (-1) 28 []
    (by decide) rfl (by decide) (by decide) (by decide) (by decide)).2.2 rfl).1

/-! ### Fused loads and stores, array lengths (C28, C30) -/

/-- C28: for `k` in `0..3` and a state whose local slot `k` exists and holds `x`, the
fused opcode `iload_k` (in the method `m1`) and the two-byte instruction `iload k`
(in the method `m2`) leave the same operand stack, locals, heap and output: `x` is
pushed (or `push` fails on a full stack, for both); `istore_k` and `istore k`
likewise both pop the top `v` and set slot `k` to it (or both fail on an empty
stack). The only difference is the program counter, which the fused form advances
by 1 and the two-byte form by 2. -/
theorem fused_load_store_as_indexed (cls : class_file_t) (call : callee_t)
    (m1 m2 : method_t) (st : state_t) (k : Nat) (x : Int)
    (hlen1 : m1.code.code.length < 4294967296) (hlen2 : m2.code.code.length < 4294967296)
    (hk : k ≤ 3) (hx : st.locals[k]? = some x) :
    (m1.code.code[st.pc]? = some (i_iload_0 + k) → m2.code.code[st.pc]? = some i_iload →
        m2.code.code[st.pc + 1]? = some k →
        step cls call m1 st = pushed st x 1 ∧ step cls call m2 st = pushed st x 2)
      ∧ (m1.code.code[st.pc]? = some (i_istore_0 + k) →
          m2.code.code[st.pc]? = some i_istore → m2.code.code[st.pc + 1]? = some k →
          (∀ (v : Int) (rest : List Int), st.s.contents = v :: rest →
            step cls call m1 st
                = .ok (.next { st with s := { st.s with contents := rest },
                                       locals := st.locals.set k v, pc := st.pc + 1 })
              ∧ step cls call m2 st
                = .ok (.next { st with s := { st.s with contents := rest },
                                       locals := st.locals.set k v, pc := st.pc + 2 }))
            ∧ (st.s.contents = [] →
                step cls call m1 st = .error .abort ∧ step cls call m2 st = .error .abort)) := by
  have hkl : k < st.locals.length := by
    by_contra hn
    rw [List.getElem?_eq_none (Nat.le_of_not_lt hn)] at hx
    exact Option.noConfusion hx
  have hk4 : k = 0 ∨ k = 1 ∨ k = 2 ∨ k = 3 := by omega
  constructor
  · intro hop1 hop2 h1
    have e0 := code_at_eq m1.code st.pc _ hlen1 hop1
    have e1 := pc_inc_eq m1.code st.pc _ 1 hlen1 hop1 (by decide)
    have f0 := code_at_eq m2.code st.pc _ hlen2 hop2
    have f1 := code_at_eq m2.code _ _ hlen2 h1
    have f2 := pc_inc_eq m2.code st.pc _ 2 hlen2 h1 (by decide)
    constructor
    · by_cases hroom : st.s.contents.length < st.s.length <;>
        rcases hk4 with h | h | h | h <;> subst h <;>
        simp [step, e0, e1, local_read, hx, push, pushed, hroom, bind, Except.bind, pure,
          Except.pure]
    · by_cases hroom : st.s.contents.length < st.s.length <;>
        simp [step, f0, f1, f2, local_read, hx, push, pushed, hroom, bind, Except.bind, pure,
          Except.pure]
  · intro hop1 hop2 h1
    have e0 := code_at_eq m1.code st.pc _ hlen1 hop1
    have e1 := pc_inc_eq m1.code st.pc _ 1 hlen1 hop1 (by decide)
    have f0 := code_at_eq m2.code st.pc _ hlen2 hop2
    have f1 := code_at_eq m2.code _ _ hlen2 h1
    have f2 := pc_inc_eq m2.code st.pc _ 2 hlen2 h1 (by decide)
    refine ⟨fun v rest hs => ⟨?_, ?_⟩, fun hs => ⟨?_, ?_⟩⟩
    · rcases hk4 with h | h | h | h <;> subst h <;>
        simp [step, e0, e1, local_write, hkl, pop, hs, bind, Except.bind, pure, Except.pure]
    · simp [step, f0, f1, f2, local_write, hkl, pop, hs, bind, Except.bind, pure, Except.pure]
    · rcases hk4 with h | h | h | h <;> subst h <;>
        simp [step, e0, pop, hs, bind, Except.bind]
    · simp [step, f0, f1, pop, hs, bind, Except.bind]

/-- Witness of C28: `iload_1` and `iload 1` on the locals `[4, 9]` both push 9. -/
theorem fused_load_store_as_indexed_witness :
    step empty_class no_call (single_op (i_iload_0 + 1)) (with_locals [4, 9] [])
        = .ok (.next { with_locals [4, 9] [9] with pc := 1 })
      ∧ step empty_class no_call (op_with_byte i_iload 1) (with_locals [4, 9] [])
        = .ok (.next { with_locals [4, 9] [9] with pc := 2 }) :=
  (fused_load_store_as_indexed empty_class no_call (single_op (i_iload_0 + 1))
    (op_with_byte i_iload 1) (with_locals [4, 9] []) 1 9 (by decide) (by decide) (by decide)
    rfl).1 rfl rfl rfl

/-- C30: for a handle `h` of an allocated array of length `N`, an index `0 ≤ i < N` and
a value `v`, `iastore` on the stack `(h, i, v)` pops exactly the three operands and
pushes none, and leaves a heap in which `arraylength` pushes, for `h` and for every
other allocated handle, the length it pushed before the store. -/
theorem iastore_keeps_lengths (cls : class_file_t) (call : callee_t) (m : method_t)
    (st : state_t) (h i v : Int) (rest blk : List Int) (N : Nat)
    (hlen : m.code.code.length < 4294967296)
    (hop : m.code.code[st.pc]? = some i_iastore)
    (hs : st.s.contents = v :: i :: h :: rest)
    (hget : heap_get st.heap h = .ok blk) (hblk : blk.length = N + 1)
    (hN : N < 2147483647) (hi0 : 0 ≤ i) (hiN : i < N) :
    ∃ heap1 : heap_t,
      step cls call m st
          = .ok (.next { st with s := { st.s with contents := rest }, heap := heap1,
                                 pc := st.pc + 1 })
        ∧ rest.length + 3 = st.s.contents.length
        ∧ (∀ (cls2 : class_file_t) (call2 : callee_t) (m2 : method_t) (st2 : state_t)
            (rest2 : List Int) (h2 : Int) (blk2 : List Int),
            m2.code.code.length < 4294967296 → m2.code.code[st2.pc]? = some i_arraylength →
            st2.s.contents = h2 :: rest2 → st2.s.contents.length ≤ st2.s.length →
            heap_get st.heap h2 = .ok blk2 → 0 < blk2.length →
            ∃ x : Int,
              step cls2 call2 m2 { st2 with heap := st.heap }
                  = .ok (.next { st2 with heap := st.heap,
                                          s := { st2.s with contents := x :: rest2 },
                                          pc := st2.pc + 1 })
                ∧ step cls2 call2 m2 { st2 with heap := heap1 }
                  = .ok (.next { st2 with heap := heap1,
                                          s := { st2.s with contents := x :: rest2 },
                                          pc := st2.pc + 1 })) := by
  have hg := (heap_get_ok st.heap h blk).mp hget
  have hh : h.toNat < st.heap.length := by
    by_contra hn
    rw [List.getElem?_eq_none (Nat.le_of_not_lt hn)] at hg
    exact Option.noConfusion hg.2
  have hin : i.toNat + 1 < blk.length := by omega
  have hget1 : heap_get (st.heap.set h.toNat (blk.set (i.toNat + 1) v)) h
      = .ok (blk.set (i.toNat + 1) v) := by
    rw [heap_get_ok]
    exact ⟨hg.1, List.getElem?_set_self hh⟩
  refine ⟨st.heap.set h.toNat (blk.set (i.toNat + 1) v),
    step_iastore cls call m st h i v rest blk hlen hop hs hget hi0 (by omega) hin,
    by rw [hs]; simp, ?_⟩
  intro cls2 call2 m2 st2 rest2 h2 blk2 hlen2 hop2 hs2 hcap2 hget2 hpos2
  have hg2 := (heap_get_ok st.heap h2 blk2).mp hget2
  obtain ⟨x, hx⟩ : ∃ x, blk2[0]? = some x := ⟨blk2[0], List.getElem?_eq_getElem hpos2⟩
  refine ⟨x, ?_, ?_⟩
  · exact step_arraylength cls2 call2 m2 { st2 with heap := st.heap } h2 x rest2 blk2 hlen2
      hop2 hs2 hcap2 hget2 hx
  · by_cases hhe : h2 = h
    · subst hhe
      have hb : blk2 = blk := by
        have := hg.2
        rw [hg2.2] at this
        exact Option.some.inj this
      subst hb
      have hidx : i.toNat + 1 ≠ 0 := by omega
      exact step_arraylength cls2 call2 m2 { st2 with heap := _ } h2 x rest2 _ hlen2 hop2
        hs2 hcap2 hget1 (by rw [List.getElem?_set_ne hidx]; exact hx)
    · have hidx : h.toNat ≠ h2.toNat := by
        have := hg.1
        have := hg2.1
        omega
      have hget3 : heap_get (st.heap.set h.toNat (blk.set (i.toNat + 1) v)) h2 = .ok blk2 := by
        rw [heap_get_ok]
        exact ⟨hg2.1, by rw [List.getElem?_set_ne hidx]; exact hg2.2⟩
      exact step_arraylength cls2 call2 m2 { st2 with heap := _ } h2 x rest2 blk2 hlen2 hop2
        hs2 hcap2 hget3 hx

/-- Witness of C30: `iastore` of 42 at index 1 of the array `[3, 0, 0, 0]` under handle
0, after which `arraylength` on the handle 0 still pushes 3. -/
theorem iastore_keeps_lengths_witness :
    ∃ heap1 : heap_t,
      step empty_class no_call (single_op i_iastore) at_iastore
          = .ok (.next { at_iastore with s := { at_iastore.s with contents := [] },
                                         heap := heap1, pc := 0 + 1 })
        ∧ step empty_class no_call (single_op i_arraylength) { on_array [0] with heap := heap1 }
          = .ok (.next { on_array [3] with heap := heap1, pc := 1 }) :=
  match iastore_keeps_lengths empty_class no_call (single_op i_iastore) at_iastore
      0 1 42 [] [3, 0, 0, 0] 3 (by decide) rfl rfl rfl rfl (by decide) (by decide)
      (by decide) with
  | ⟨heap1, hstep, _, hlen⟩ =>
    ⟨heap1, hstep,
      match hlen empty_class no_call (single_op i_arraylength) (on_array [0]) [] 0 [3, 0, 0, 0]
          (by decide) rfl rfl (by decide) rfl (by decide) with
      | ⟨x, h1, h2⟩ => by
        have hx : x = 3 := by
          have h3 : step empty_class no_call (single_op i_arraylength) (on_array [0])
              = .ok (.next { on_array [3] with pc := 1 }) := rfl
          have h4 := h1.symm.trans h3
          simp [on_array] at h4
          exact h4.1
        subst hx
        exact h2⟩

/-! ### Branch targets (C24) -/

set_option maxHeartbeats 4000000 in
/-- Every iteration of the loop that does not stop fetched a byte and has the effect
`out_effect` on the output. -/
theorem step_out_ok (cls : class_file_t) (call : callee_t) (m : method_t)
    (st : state_t) (res : loop_t) (h : step cls call m st = .ok res) :
    ∃ op : Nat, code_at m.code st.pc = .ok op ∧ out_effect cls call m st op res := by
  unfold step at h
  dsimp only at h
  rw [bind_eq_ok] at h
  obtain ⟨op, hop, h⟩ := h
  refine ⟨op, hop, ?_⟩
  unfold out_effect
  by_cases c0 : op = i_bipush
  · rw [if_pos c0] at h
    refine Or.inr (Or.inr ⟨fun e => ?_, fun e => ?_, ?_⟩)
    · subst e
      exact absurd c0 (by decide)
    · subst e
      exact absurd c0 (by decide)
    simp only [bind_eq_ok, pure, Except.pure, Prod.exists, pop_eq_ok, push_eq_ok,
      local_write_eq_ok, Except.ok.injEq, heap_add] at h
    try casesm* ∃ _, _, _ ∧ _
    subst_vars
    rfl
  rw [if_neg c0] at h
  by_cases c1 : op = i_iadd
  · rw [if_pos c1] at h
    refine Or.inr (Or.inr ⟨fun e => ?_, fun e => ?_, ?_⟩)
    · subst e
      exact absurd c1 (by decide)
    · subst e
      exact absurd c1 (by decide)
    simp only [bind_eq_ok, pure, Except.pure, Prod.exists, pop_eq_ok, push_eq_ok,
      local_write_eq_ok, Except.ok.injEq, heap_add] at h
    try casesm* ∃ _, _, _ ∧ _
    subst_vars
    rfl
  rw [if_neg c1] at h
  by_cases c2 : op = i_return
  · rw [if_pos c2] at h
    refine Or.inr (Or.inr ⟨fun e => ?_, fun e => ?_, ?_⟩)
    · subst e
      exact absurd c2 (by decide)
    · subst e
      exact absurd c2 (by decide)
    simp only [bind_eq_ok, pure, Except.pure, Prod.exists, pop_eq_ok, push_eq_ok,
      local_write_eq_ok, Except.ok.injEq, heap_add] at h
    try casesm* ∃ _, _, _ ∧ _
    subst_vars
    rfl
  rw [if_neg c2] at h
  by_cases c3 : op = i_getstatic
  · rw [if_pos c3] at h
    refine Or.inr (Or.inr ⟨fun e => ?_, fun e => ?_, ?_⟩)
    · subst e
      exact absurd c3 (by decide)
    · subst e
      exact absurd c3 (by decide)
    simp only [bind_eq_ok, pure, Except.pure, Prod.exists, pop_eq_ok, push_eq_ok,
      local_write_eq_ok, Except.ok.injEq, heap_add] at h
    try casesm* ∃ _, _, _ ∧ _
    subst_vars
    rfl
  rw [if_neg c3] at h
  by_cases c4 : op = i_invokevirtual
  · rw [if_pos c4] at h
    simp only [bind_eq_ok, pure, Except.pure, Prod.exists, pop_eq_ok, push_eq_ok,
      local_write_eq_ok, Except.ok.injEq, heap_add] at h
    obtain ⟨v, s1, ⟨hpop, -⟩, h⟩ := h
    subst h
    exact Or.inl ⟨c4, v, s1.contents, _, hpop, rfl, rfl⟩
  rw [if_neg c4] at h
  by_cases c5 : i_iconst_m1 ≤ op ∧ op ≤ i_iconst_5
  · rw [if_pos c5] at h
    refine Or.inr (Or.inr ⟨fun e => ?_, fun e => ?_, ?_⟩)
    · subst e
      exact absurd c5 (by decide)
    · subst e
      exact absurd c5 (by decide)
    simp only [bind_eq_ok, pure, Except.pure, Prod.exists, pop_eq_ok, push_eq_ok,
      local_write_eq_ok, Except.ok.injEq, heap_add] at h
    try casesm* ∃ _, _, _ ∧ _
    subst_vars
    rfl
  rw [if_neg c5] at h
  by_cases c6 : op = i_sipush
  · rw [if_pos c6] at h
    refine Or.inr (Or.inr ⟨fun e => ?_, fun e => ?_, ?_⟩)
    · subst e
      exact absurd c6 (by decide)
    · subst e
      exact absurd c6 (by decide)
    simp only [bind_eq_ok, pure, Except.pure, Prod.exists, pop_eq_ok, push_eq_ok,
      local_write_eq_ok, Except.ok.injEq, heap_add] at h
    try casesm* ∃ _, _, _ ∧ _
    subst_vars
    rfl
  rw [if_neg c6] at h
  by_cases c7 : op = i_iadd
  · rw [if_pos c7] at h
    refine Or.inr (Or.inr ⟨fun e => ?_, fun e => ?_, ?_⟩)
    · subst e
      exact absurd c7 (by decide)
    · subst e
      exact absurd c7 (by decide)
    simp only [bind_eq_ok, pure, Except.pure, Prod.exists, pop_eq_ok, push_eq_ok,
      local_write_eq_ok, Except.ok.injEq, heap_add] at h
    try casesm* ∃ _, _, _ ∧ _
    subst_vars
    rfl
  rw [if_neg c7] at h
  by_cases c8 : op = i_isub
  · rw [if_pos c8] at h
    refine Or.inr (Or.inr ⟨fun e => ?_, fun e => ?_, ?_⟩)
    · subst e
      exact absurd c8 (by decide)
    · subst e
      exact absurd c8 (by decide)
    simp only [bind_eq_ok, pure, Except.pure, Prod.exists, pop_eq_ok, push_eq_ok,
      local_write_eq_ok, Except.ok.injEq, heap_add] at h
    try casesm* ∃ _, _, _ ∧ _
    subst_vars
    rfl
  rw [if_neg c8] at h
  by_cases c9 : op = i_imul
  · rw [if_pos c9] at h
    refine Or.inr (Or.inr ⟨fun e => ?_, fun e => ?_, ?_⟩)
    · subst e
      exact absurd c9 (by decide)
    · subst e
      exact absurd c9 (by decide)
    simp only [bind_eq_ok, pure, Except.pure, Prod.exists, pop_eq_ok, push_eq_ok,
      local_write_eq_ok, Except.ok.injEq, heap_add] at h
    try casesm* ∃ _, _, _ ∧ _
    subst_vars
    rfl
  rw [if_neg c9] at h
  by_cases c10 : op = i_idiv
  · rw [if_pos c10] at h
    refine Or.inr (Or.inr ⟨fun e => ?_, fun e => ?_, ?_⟩)
    · subst e
      exact absurd c10 (by decide)
    · subst e
      exact absurd c10 (by decide)
    simp only [bind_eq_ok, pure, Except.pure, Prod.exists, pop_eq_ok, push_eq_ok,
      local_write_eq_ok, Except.ok.injEq, heap_add] at h
    try casesm* ∃ _, _, _ ∧ _
    subst_vars
    rfl
  rw [if_neg c10] at h
  by_cases c11 : op = i_irem
  · rw [if_pos c11] at h
    refine Or.inr (Or.inr ⟨fun e => ?_, fun e => ?_, ?_⟩)
    · subst e
      exact absurd c11 (by decide)
    · subst e
      exact absurd c11 (by decide)
    simp only [bind_eq_ok, pure, Except.pure, Prod.exists, pop_eq_ok, push_eq_ok,
      local_write_eq_ok, Except.ok.injEq, heap_add] at h
    try casesm* ∃ _, _, _ ∧ _
    subst_vars
    rfl
  rw [if_neg c11] at h
  by_cases c12 : op = i_ineg
  · rw [if_pos c12] at h
    refine Or.inr (Or.inr ⟨fun e => ?_, fun e => ?_, ?_⟩)
    · subst e
      exact absurd c12 (by decide)
    · subst e
      exact absurd c12 (by decide)
    simp only [bind_eq_ok, pure, Except.pure, Prod.exists, pop_eq_ok, push_eq_ok,
      local_write_eq_ok, Except.ok.injEq, heap_add] at h
    try casesm* ∃ _, _, _ ∧ _
    subst_vars
    rfl
  rw [if_neg c12] at h
  by_cases c13 : op = i_ishl
  · rw [if_pos c13] at h
    refine Or.inr (Or.inr ⟨fun e => ?_, fun e => ?_, ?_⟩)
    · subst e
      exact absurd c13 (by decide)
    · subst e
      exact absurd c13 (by decide)
    simp only [bind_eq_ok, pure, Except.pure, Prod.exists, pop_eq_ok, push_eq_ok,
      local_write_eq_ok, Except.ok.injEq, heap_add] at h
    try casesm* ∃ _, _, _ ∧ _
    subst_vars
    rfl
  rw [if_neg c13] at h
  by_cases c14 : op = i_ishr
  · rw [if_pos c14] at h
    refine Or.inr (Or.inr ⟨fun e => ?_, fun e => ?_, ?_⟩)
    · subst e
      exact absurd c14 (by decide)
    · subst e
      exact absurd c14 (by decide)
    simp only [bind_eq_ok, pure, Except.pure, Prod.exists, pop_eq_ok, push_eq_ok,
      local_write_eq_ok, Except.ok.injEq, heap_add] at h
    try casesm* ∃ _, _, _ ∧ _
    subst_vars
    rfl
  rw [if_neg c14] at h
  by_cases c15 : op = i_iushr
  · rw [if_pos c15] at h
    refine Or.inr (Or.inr ⟨fun e => ?_, fun e => ?_, ?_⟩)
    · subst e
      exact absurd c15 (by decide)
    · subst e
      exact absurd c15 (by decide)
    simp only [bind_eq_ok, pure, Except.pure, Prod.exists, pop_eq_ok, push_eq_ok,
      local_write_eq_ok, Except.ok.injEq, heap_add] at h
    try casesm* ∃ _, _, _ ∧ _
    subst_vars
    rfl
  rw [if_neg c15] at h
  by_cases c16 : op = i_iand
  · rw [if_pos c16] at h
    refine Or.inr (Or.inr ⟨fun e => ?_, fun e => ?_, ?_⟩)
    · subst e
      exact absurd c16 (by decide)
    · subst e
      exact absurd c16 (by decide)
    simp only [bind_eq_ok, pure, Except.pure, Prod.exists, pop_eq_ok, push_eq_ok,
      local_write_eq_ok, Except.ok.injEq, heap_add] at h
    try casesm* ∃ _, _, _ ∧ _
    subst_vars
    rfl
  rw [if_neg c16] at h
  by_cases c17 : op = i_ior
  · rw [if_pos c17] at h
    refine Or.inr (Or.inr ⟨fun e => ?_, fun e => ?_, ?_⟩)
    · subst e
      exact absurd c17 (by decide)
    · subst e
      exact absurd c17 (by decide)
    simp only [bind_eq_ok, pure, Except.pure, Prod.exists, pop_eq_ok, push_eq_ok,
      local_write_eq_ok, Except.ok.injEq, heap_add] at h
    try casesm* ∃ _, _, _ ∧ _
    subst_vars
    rfl
  rw [if_neg c17] at h
  by_cases c18 : op = i_ixor
  · rw [if_pos c18] at h
    refine Or.inr (Or.inr ⟨fun e => ?_, fun e => ?_, ?_⟩)
    · subst e
      exact absurd c18 (by decide)
    · subst e
      exact absurd c18 (by decide)
    simp only [bind_eq_ok, pure, Except.pure, Prod.exists, pop_eq_ok, push_eq_ok,
      local_write_eq_ok, Except.ok.injEq, heap_add] at h
    try casesm* ∃ _, _, _ ∧ _
    subst_vars
    rfl
  rw [if_neg c18] at h
  by_cases c19 : op = i_iload
  · rw [if_pos c19] at h
    refine Or.inr (Or.inr ⟨fun e => ?_, fun e => ?_, ?_⟩)
    · subst e
      exact absurd c19 (by decide)
    · subst e
      exact absurd c19 (by decide)
    simp only [bind_eq_ok, pure, Except.pure, Prod.exists, pop_eq_ok, push_eq_ok,
      local_write_eq_ok, Except.ok.injEq, heap_add] at h
    try casesm* ∃ _, _, _ ∧ _
    subst_vars
    rfl
  rw [if_neg c19] at h
  by_cases c20 : op = i_istore
  · rw [if_pos c20] at h
    refine Or.inr (Or.inr ⟨fun e => ?_, fun e => ?_, ?_⟩)
    · subst e
      exact absurd c20 (by decide)
    · subst e
      exact absurd c20 (by decide)
    simp only [bind_eq_ok, pure, Except.pure, Prod.exists, pop_eq_ok, push_eq_ok,
      local_write_eq_ok, Except.ok.injEq, heap_add] at h
    try casesm* ∃ _, _, _ ∧ _
    subst_vars
    rfl
  rw [if_neg c20] at h
  by_cases c21 : op = i_iinc
  · rw [if_pos c21] at h
    refine Or.inr (Or.inr ⟨fun e => ?_, fun e => ?_, ?_⟩)
    · subst e
      exact absurd c21 (by decide)
    · subst e
      exact absurd c21 (by decide)
    simp only [bind_eq_ok, pure, Except.pure, Prod.exists, pop_eq_ok, push_eq_ok,
      local_write_eq_ok, Except.ok.injEq, heap_add] at h
    try casesm* ∃ _, _, _ ∧ _
    subst_vars
    rfl
  rw [if_neg c21] at h
  by_cases c22 : i_iload_0 ≤ op ∧ op ≤ i_iload_3
  · rw [if_pos c22] at h
    refine Or.inr (Or.inr ⟨fun e => ?_, fun e => ?_, ?_⟩)
    · subst e
      exact absurd c22 (by decide)
    · subst e
      exact absurd c22 (by decide)
    simp only [bind_eq_ok, pure, Except.pure, Prod.exists, pop_eq_ok, push_eq_ok,
      local_write_eq_ok, Except.ok.injEq, heap_add] at h
    try casesm* ∃ _, _, _ ∧ _
    subst_vars
    rfl
  rw [if_neg c22] at h
  by_cases c23 : i_istore_0 ≤ op ∧ op ≤ i_istore_3
  · rw [if_pos c23] at h
    refine Or.inr (Or.inr ⟨fun e => ?_, fun e => ?_, ?_⟩)
    · subst e
      exact absurd c23 (by decide)
    · subst e
      exact absurd c23 (by decide)
    simp only [bind_eq_ok, pure, Except.pure, Prod.exists, pop_eq_ok, push_eq_ok,
      local_write_eq_ok, Except.ok.injEq, heap_add] at h
    try casesm* ∃ _, _, _ ∧ _
    subst_vars
    rfl
  rw [if_neg c23] at h
  by_cases c24 : op = i_ldc
  · rw [if_pos c24] at h
    refine Or.inr (Or.inr ⟨fun e => ?_, fun e => ?_, ?_⟩)
    · subst e
      exact absurd c24 (by decide)
    · subst e
      exact absurd c24 (by decide)
    simp only [bind_eq_ok, pure, Except.pure, Prod.exists, pop_eq_ok, push_eq_ok,
      local_write_eq_ok, Except.ok.injEq, heap_add] at h
    try casesm* ∃ _, _, _ ∧ _
    subst_vars
    rfl
  rw [if_neg c24] at h
  by_cases c25 : i_ifeq ≤ op ∧ op ≤ i_ifle
  · rw [if_pos c25] at h
    refine Or.inr (Or.inr ⟨fun e => ?_, fun e => ?_, ?_⟩)
    · subst e
      exact absurd c25 (by decide)
    · subst e
      exact absurd c25 (by decide)
    simp only [bind_eq_ok, pure, Except.pure, Prod.exists, pop_eq_ok, push_eq_ok,
      local_write_eq_ok, Except.ok.injEq, heap_add] at h
    obtain ⟨a, s1, -, h⟩ := h
    have hb : ∃ pc1 : Nat, res = .next { st with pc := pc1, s := s1 } := by
      iterate 6 refine ite_branch_ok _ _ _ _ _ _ h (fun h => ?_)
      exact ⟨_, (Except.ok.inj h).symm⟩
    obtain ⟨pc1, rfl⟩ := hb
    rfl
  rw [if_neg c25] at h
  by_cases c26 : i_if_icmpeq ≤ op ∧ op ≤ i_if_icmple
  · rw [if_pos c26] at h
    refine Or.inr (Or.inr ⟨fun e => ?_, fun e => ?_, ?_⟩)
    · subst e
      exact absurd c26 (by decide)
    · subst e
      exact absurd c26 (by decide)
    simp only [bind_eq_ok, pure, Except.pure, Prod.exists, pop_eq_ok, push_eq_ok,
      local_write_eq_ok, Except.ok.injEq, heap_add] at h
    obtain ⟨b, s1, -, a, s2, -, h⟩ := h
    have hb : ∃ pc1 : Nat, res = .next { st with pc := pc1, s := s2 } := by
      iterate 6 refine ite_branch_ok _ _ _ _ _ _ h (fun h => ?_)
      exact ⟨_, (Except.ok.inj h).symm⟩
    obtain ⟨pc1, rfl⟩ := hb
    rfl
  rw [if_neg c26] at h
  by_cases c27 : op = i_goto
  · rw [if_pos c27] at h
    refine Or.inr (Or.inr ⟨fun e => ?_, fun e => ?_, ?_⟩)
    · subst e
      exact absurd c27 (by decide)
    · subst e
      exact absurd c27 (by decide)
    obtain ⟨pc1, rfl⟩ := branch_ok _ _ _ _ h
    rfl
  rw [if_neg c27] at h
  by_cases c28 : op = i_ireturn
  · rw [if_pos c28] at h
    refine Or.inr (Or.inr ⟨fun e => ?_, fun e => ?_, ?_⟩)
    · subst e
      exact absurd c28 (by decide)
    · subst e
      exact absurd c28 (by decide)
    simp only [bind_eq_ok, pure, Except.pure, Prod.exists, pop_eq_ok, push_eq_ok,
      local_write_eq_ok, Except.ok.injEq, heap_add] at h
    try casesm* ∃ _, _, _ ∧ _
    subst_vars
    rfl
  rw [if_neg c28] at h
  by_cases c29 : op = i_invokestatic
  · rw [if_pos c29] at h
    simp only [bind_eq_ok] at h
    obtain ⟨b1, hb1, b2, hb2, meth, hm, ⟨s1, loc1⟩, hp, ⟨r, heap1, out1⟩, hcall, h⟩ := h
    obtain ⟨st1, rfl, -⟩ := invoke_return_ok _ _ _ _ h
    have hst := invoke_return_next st s1 r heap1 out1 st1 h
    have hout : st1.out = out1 := by rw [hst]
    refine Or.inr (Or.inl ⟨c29, meth, loc1, r, heap1, st1, ?_, ?_, rfl⟩)
    · simp [invoked, hb1, hb2, hm, hp, bind, Except.bind, pure, Except.pure]
    · rw [hout]
      exact hcall
  rw [if_neg c29] at h
  by_cases c30 : op = i_nop
  · rw [if_pos c30] at h
    refine Or.inr (Or.inr ⟨fun e => ?_, fun e => ?_, ?_⟩)
    · subst e
      exact absurd c30 (by decide)
    · subst e
      exact absurd c30 (by decide)
    simp only [bind_eq_ok, pure, Except.pure, Prod.exists, pop_eq_ok, push_eq_ok,
      local_write_eq_ok, Except.ok.injEq, heap_add] at h
    try casesm* ∃ _, _, _ ∧ _
    subst_vars
    rfl
  rw [if_neg c30] at h
  by_cases c31 : op = i_dup
  · rw [if_pos c31] at h
    refine Or.inr (Or.inr ⟨fun e => ?_, fun e => ?_, ?_⟩)
    · subst e
      exact absurd c31 (by decide)
    · subst e
      exact absurd c31 (by decide)
    simp only [bind_eq_ok, pure, Except.pure, Prod.exists, pop_eq_ok, push_eq_ok,
      local_write_eq_ok, Except.ok.injEq, heap_add] at h
    try casesm* ∃ _, _, _ ∧ _
    subst_vars
    rfl
  rw [if_neg c31] at h
  by_cases c32 : op = i_newarray
  · rw [if_pos c32] at h
    refine Or.inr (Or.inr ⟨fun e => ?_, fun e => ?_, ?_⟩)
    · subst e
      exact absurd c32 (by decide)
    · subst e
      exact absurd c32 (by decide)
    simp only [bind_eq_ok, pure, Except.pure, Prod.exists, pop_eq_ok, push_eq_ok,
      local_write_eq_ok, Except.ok.injEq, heap_add] at h
    try casesm* ∃ _, _, _ ∧ _
    subst_vars
    rfl
  rw [if_neg c32] at h
  by_cases c33 : op = i_arraylength
  · rw [if_pos c33] at h
    refine Or.inr (Or.inr ⟨fun e => ?_, fun e => ?_, ?_⟩)
    · subst e
      exact absurd c33 (by decide)
    · subst e
      exact absurd c33 (by decide)
    simp only [bind_eq_ok, pure, Except.pure, Prod.exists, pop_eq_ok, push_eq_ok,
      local_write_eq_ok, Except.ok.injEq, heap_add] at h
    try casesm* ∃ _, _, _ ∧ _
    subst_vars
    rfl
  rw [if_neg c33] at h
  by_cases c34 : op = i_areturn
  · rw [if_pos c34] at h
    refine Or.inr (Or.inr ⟨fun e => ?_, fun e => ?_, ?_⟩)
    · subst e
      exact absurd c34 (by decide)
    · subst e
      exact absurd c34 (by decide)
    simp only [bind_eq_ok, pure, Except.pure, Prod.exists, pop_eq_ok, push_eq_ok,
      local_write_eq_ok, Except.ok.injEq, heap_add] at h
    try casesm* ∃ _, _, _ ∧ _
    subst_vars
    rfl
  rw [if_neg c34] at h
  by_cases c35 : op = i_iastore
  · rw [if_pos c35] at h
    refine Or.inr (Or.inr ⟨fun e => ?_, fun e => ?_, ?_⟩)
    · subst e
      exact absurd c35 (by decide)
    · subst e
      exact absurd c35 (by decide)
    simp only [bind_eq_ok, pure, Except.pure, Prod.exists, pop_eq_ok, push_eq_ok,
      local_write_eq_ok, Except.ok.injEq, heap_add] at h
    try casesm* ∃ _, _, _ ∧ _
    subst_vars
    rfl
  rw [if_neg c35] at h
  by_cases c36 : op = i_iaload
  · rw [if_pos c36] at h
    refine Or.inr (Or.inr ⟨fun e => ?_, fun e => ?_, ?_⟩)
    · subst e
      exact absurd c36 (by decide)
    · subst e
      exact absurd c36 (by decide)
    simp only [bind_eq_ok, pure, Except.pure, Prod.exists, pop_eq_ok, push_eq_ok,
      local_write_eq_ok, Except.ok.injEq, heap_add] at h
    try casesm* ∃ _, _, _ ∧ _
    subst_vars
    rfl
  rw [if_neg c36] at h
  by_cases c37 : op = i_aload
  · rw [if_pos c37] at h
    refine Or.inr (Or.inr ⟨fun e => ?_, fun e => ?_, ?_⟩)
    · subst e
      exact absurd c37 (by decide)
    · subst e
      exact absurd c37 (by decide)
    simp only [bind_eq_ok, pure, Except.pure, Prod.exists, pop_eq_ok, push_eq_ok,
      local_write_eq_ok, Except.ok.injEq, heap_add] at h
    try casesm* ∃ _, _, _ ∧ _
    subst_vars
    rfl
  rw [if_neg c37] at h
  by_cases c38 : op = i_astore
  · rw [if_pos c38] at h
    refine Or.inr (Or.inr ⟨fun e => ?_, fun e => ?_, ?_⟩)
    · subst e
      exact absurd c38 (by decide)
    · subst e
      exact absurd c38 (by decide)
    simp only [bind_eq_ok, pure, Except.pure, Prod.exists, pop_eq_ok, push_eq_ok,
      local_write_eq_ok, Except.ok.injEq, heap_add] at h
    try casesm* ∃ _, _, _ ∧ _
    subst_vars
    rfl
  rw [if_neg c38] at h
  by_cases c39 : i_aload_0 ≤ op ∧ op ≤ i_aload_3
  · rw [if_pos c39] at h
    refine Or.inr (Or.inr ⟨fun e => ?_, fun e => ?_, ?_⟩)
    · subst e
      exact absurd c39 (by decide)
    · subst e
      exact absurd c39 (by decide)
    simp only [bind_eq_ok, pure, Except.pure, Prod.exists, pop_eq_ok, push_eq_ok,
      local_write_eq_ok, Except.ok.injEq, heap_add] at h
    try casesm* ∃ _, _, _ ∧ _
    subst_vars
    rfl
  rw [if_neg c39] at h
  by_cases c40 : i_astore_0 ≤ op ∧ op ≤ i_astore_3
  · rw [if_pos c40] at h
    refine Or.inr (Or.inr ⟨fun e => ?_, fun e => ?_, ?_⟩)
    · subst e
      exact absurd c40 (by decide)
    · subst e
      exact absurd c40 (by decide)
    simp only [bind_eq_ok, pure, Except.pure, Prod.exists, pop_eq_ok, push_eq_ok,
      local_write_eq_ok, Except.ok.injEq, heap_add] at h
    try casesm* ∃ _, _, _ ∧ _
    subst_vars
    rfl
  rw [if_neg c40] at h
  simp only [pure, Except.pure, Except.ok.injEq] at h
  subst h
  exact Or.inr (Or.inr ⟨c4, c29, rfl⟩)

/-- The output after a run that returns is the output before it followed by the values
that were on top of the stack at the `invokevirtual` it executed, in order. -/
theorem run_out (cls : class_file_t) :
    ∀ (fuel : Nat) (m : method_t) (st : state_t) (r : optional_value_t) (st1 : state_t),
      run cls fuel m st = .ok (r, st1) →
      st1.out = st.out ++ tops_at_invokevirtual cls fuel m st
  | 0, m, st, r, st1, h => by simp [run] at h
  | fuel + 1, m, st, r, st1, h => by
    rw [run_succ] at h
    cases hs : step cls (execute cls fuel) m st with
    | error e => rw [hs] at h; exact Except.noConfusion h
    | ok res =>
      rw [hs] at h
      obtain ⟨op, hop, heff⟩ := step_out_ok cls _ m st res hs
      rcases heff with ⟨rfl, v, rest, st2, hst, rfl, hout⟩
        | ⟨rfl, meth, loc, r2, heap2, st2, hinv, hcall, rfl⟩ | ⟨n1, n2, hout⟩
      · have ih := run_out cls fuel m st2 r st1 h
        rw [ih, hout]
        simp [tops_at_invokevirtual, hop, hs, hst]
      · have ih := run_out cls fuel m st2 r st1 h
        have hc : st2.out = st.out ++ tops_at_invokevirtual cls fuel meth
            (state_t.entry meth loc st.heap st.out) := by
          unfold execute at hcall
          cases hr : run cls fuel meth (state_t.entry meth loc st.heap st.out) with
          | error e => rw [hr] at hcall; exact Except.noConfusion hcall
          | ok p =>
            obtain ⟨r3, st3⟩ := p
            rw [hr] at hcall
            simp only [Except.ok.injEq, Prod.mk.injEq] at hcall
            rw [← hcall.2.2]
            exact run_out cls fuel meth _ r3 st3 hr
        rw [ih, hc]
        simp [tops_at_invokevirtual, hop, hs, hinv]
      · cases res with
        | next st2 =>
          have ih := run_out cls fuel m st2 r st1 h
          have ho : st2.out = st.out := hout
          rw [ih, ho]
          simp [tops_at_invokevirtual, hop, hs, n1, n2]
        | done r2 st2 =>
          simp only [Except.ok.injEq, Prod.mk.injEq] at h
          obtain ⟨rfl, rfl⟩ := h
          have ho : st2.out = st.out := hout
          rw [ho]
          simp [tops_at_invokevirtual, hop, hs, n1, n2]

/-- What one iteration that does not return appends to the output is the head of the
tops to come. -/
theorem step_out_tops (cls : class_file_t) (fuel : Nat) (m : method_t) (st st2 : state_t)
    (hs : step cls (execute cls fuel) m st = .ok (.next st2)) :
    ∃ e : List Int, st2.out = st.out ++ e
      ∧ tops_at_invokevirtual cls (fuel + 1) m st = e ++ tops_at_invokevirtual cls fuel m st2 := by
  obtain ⟨op, hop, heff⟩ := step_out_ok cls _ m st _ hs
  rcases heff with ⟨rfl, v, rest, st3, hst, he, hout⟩
    | ⟨rfl, meth, loc, r2, heap2, st3, hinv, hcall, he⟩ | ⟨n1, n2, hout⟩
  · obtain rfl : st2 = st3 := loop_t.next.inj he
    refine ⟨[v], hout, ?_⟩
    simp [tops_at_invokevirtual, hop, hs, hst]
  · obtain rfl : st2 = st3 := loop_t.next.inj he
    refine ⟨tops_at_invokevirtual cls fuel meth (state_t.entry meth loc st.heap st.out), ?_, ?_⟩
    · unfold execute at hcall
      cases hr : run cls fuel meth (state_t.entry meth loc st.heap st.out) with
      | error e => rw [hr] at hcall; exact Except.noConfusion hcall
      | ok p =>
        obtain ⟨r3, st3⟩ := p
        rw [hr] at hcall
        simp only [Except.ok.injEq, Prod.mk.injEq] at hcall
        rw [← hcall.2.2]
        exact run_out cls fuel meth _ r3 st3 hr
    · simp [tops_at_invokevirtual, hop, hs, hinv]
  · refine ⟨[], ?_, ?_⟩
    · have ho : st2.out = st.out := hout
      rw [ho]
      simp
    · simp [tops_at_invokevirtual, hop, hs, n1, n2]

/-- At every point of the iterations of a frame, the output is the output at the start
followed by the tops at the `invokevirtual` executed so far. -/
theorem loop_out_tops (cls : class_file_t) (m : method_t) (fuel : Nat) (st : state_t)
    (fuel1 : Nat) (st1 : state_t) (h : loop_reaches cls m fuel st fuel1 st1) :
    ∃ e : List Int, st1.out = st.out ++ e
      ∧ tops_at_invokevirtual cls fuel m st = e ++ tops_at_invokevirtual cls fuel1 m st1 := by
  induction h with
  | here fuel st => exact ⟨[], by simp, by simp⟩
  | iterate fuel st st2 fuel2 st3 hs _ ih =>
    obtain ⟨e1, ho1, ht1⟩ := step_out_tops cls fuel m st st2 hs
    obtain ⟨e2, ho2, ht2⟩ := ih
    exact ⟨e1 ++ e2, by rw [ho2, ho1, List.append_assoc],
      by rw [ht1, ht2, List.append_assoc]⟩

/-- C23: `invokevirtual` pops exactly the top operand `v`, appends `v` to the output
(one printed line) and advances the program counter by 3; `getstatic` changes
neither the operand stack, the locals nor the output and advances the program
counter by 3. Hence the output of a run that returns is the output before it
followed, in order, by the values that were on top of the stack at each executed
`invokevirtual`; and at every point of a run, returned or not, the output is the
output at the start followed by the tops at the `invokevirtual` executed so far. -/
theorem invokevirtual_emits_top (cls : class_file_t) (call : callee_t) (m : method_t)
    (st : state_t) (b2 : Nat)
    (hlen : m.code.code.length < 4294967296)
    (h2 : m.code.code[st.pc + 2]? = some b2) :
    (m.code.code[st.pc]? = some i_invokevirtual →
        ∀ (v : Int) (rest : List Int), st.s.contents = v :: rest →
          step cls call m st
            = .ok (.next { st with s := { st.s with contents := rest },
                                   out := st.out ++ [v], pc := st.pc + 3 }))
      ∧ (m.code.code[st.pc]? = some i_getstatic →
          step cls call m st = .ok (.next { st with pc := st.pc + 3 }))
      ∧ (∀ (fuel : Nat) (locals : List Int) (heap : heap_t) (out : List Int)
          (r : optional_value_t) (heap1 : heap_t) (out1 : List Int),
          execute cls fuel m locals heap out = .ok (r, heap1, out1) →
          out1 = out ++ tops_at_invokevirtual cls fuel m (state_t.entry m locals heap out))
      ∧ (∀ (fuel : Nat) (st0 : state_t) (fuel1 : Nat) (st1 : state_t),
          loop_reaches cls m fuel st0 fuel1 st1 →
          ∃ e : List Int, st1.out = st0.out ++ e
            ∧ tops_at_invokevirtual cls fuel m st0
              = e ++ tops_at_invokevirtual cls fuel1 m st1) := by
  have e3 := pc_inc_eq m.code st.pc _ 3 hlen h2 (by decide)
  refine ⟨?_, ?_, ?_, fun fuel st0 fuel1 st1 h => loop_out_tops cls m fuel st0 fuel1 st1 h⟩
  · intro hop v rest hs
    have e0 := code_at_eq m.code st.pc _ hlen hop
    simp [step, e0, e3, pop, hs, bind, Except.bind, pure, Except.pure]
  · intro hop
    have e0 := code_at_eq m.code st.pc _ hlen hop
    simp [step, e0, e3, bind, Except.bind, pure, Except.pure]
  · intro fuel locals heap out r heap1 out1 h
    unfold execute at h
    cases hr : run cls fuel m (state_t.entry m locals heap out) with
    | error e => rw [hr] at h; exact Except.noConfusion h
    | ok p =>
      obtain ⟨r3, st3⟩ := p
      rw [hr] at h
      simp only [Except.ok.injEq, Prod.mk.injEq] at h
      rw [← h.2.2]
      exact run_out cls fuel m _ r3 st3 hr

set_option maxRecDepth 8192 in
/-- Witness of C23: the method that prints 7, then 2 leaves the output `[7, 2]`, the tops
of the stack at its two `invokevirtual`. -/
theorem invokevirtual_emits_top_witness :
    execute empty_class 7 print_7_2 [] [] [] = .ok ({ has_value := false, value := 0 }, [], [7, 2])
      ∧ [7, 2] = [] ++ tops_at_invokevirtual empty_class 7 print_7_2
          (state_t.entry print_7_2 [] [] []) :=
  ⟨rfl, (invokevirtual_emits_top empty_class no_call print_7_2
    (state_t.entry print_7_2 [] [] []) 2 (by decide) rfl).2.2.1 7 [] [] [] _ [] [7, 2] rfl⟩

/-! ### areturn (C31) -/

/-- The iterations that lead from one state of a frame to another do not change what
the loop returns. -/
theorem run_of_reaches (cls : class_file_t) (m : method_t) (fuel : Nat) (st : state_t)
    (fuel1 : Nat) (st1 : state_t) (h : loop_reaches cls m fuel st fuel1 st1) :
    run cls fuel m st = run cls fuel1 m st1 := by
  induction h with
  | here fuel st => rfl
  | iterate fuel st st2 fuel2 st3 hs _ ih =>
    rw [run_succ, hs]
    exact ih

/-- C31 (amended): `areturn` ends the current method exactly as `ireturn` does: in every
state the iteration on `areturn` (in the method `m1`) leaves what the iteration on
`ireturn` (in the method `m2`) leaves, and so does the loop; with `v` on top of the
operand stack, `execute` returns at once a result tagged present and carrying `v`.
So a static method that reaches an `areturn` with the handle `v` on top hands `v`
to its caller through `invokestatic` whenever the rest of the caller's stack, its
arguments removed, has room for it: the caller goes on with `v` pushed on the rest
of its stack, the heap and the output of the callee, and the program counter 3
further. When there is no room the assertion of `push` stops the run. -/
theorem areturn_as_ireturn (cls : class_file_t) (call : callee_t) (m1 m2 : method_t)
    (st : state_t)
    (hlen1 : m1.code.code.length < 4294967296) (hlen2 : m2.code.code.length < 4294967296)
    (hop1 : m1.code.code[st.pc]? = some i_areturn)
    (hop2 : m2.code.code[st.pc]? = some i_ireturn) :
    step cls call m1 st = step cls call m2 st
      ∧ (∀ fuel : Nat, run cls fuel m1 st = run cls fuel m2 st)
      ∧ (∀ (v : Int) (rest : List Int), st.s.contents = v :: rest →
          step cls call m1 st
              = .ok (.done { has_value := true, value := v }
                  { st with s := { st.s with contents := rest } })
            ∧ ∀ fuel : Nat, run cls (fuel + 1) m1 st
              = .ok ({ has_value := true, value := v },
                  { st with s := { st.s with contents := rest } }))
      ∧ (∀ (v : Int) (rest : List Int) (fuel fuel1 : Nat) (mc : method_t) (stc : state_t)
          (b1 b2 : Nat) (xs restc : List Int),
          st.s.contents = v :: rest →
          mc.code.code.length < 4294967296 →
          mc.code.code[stc.pc]? = some i_invokestatic →
          mc.code.code[stc.pc + 1]? = some b1 → mc.code.code[stc.pc + 2]? = some b2 →
          cls.find_method_from_index (jump_of b1 b2) = some m1 →
          get_number_of_parameters m1 = xs.length → xs.length ≤ m1.code.max_locals →
          stc.s.contents = xs.reverse ++ restc →
          loop_reaches cls m1 fuel
            (state_t.entry m1 (xs ++ List.replicate (m1.code.max_locals - xs.length) 0)
              stc.heap stc.out) (fuel1 + 1) st →
          step cls (execute cls fuel) mc stc
            = if restc.length < stc.s.length then
                .ok (.next { stc with s := { stc.s with contents := v :: restc },
                                      heap := st.heap, out := st.out, pc := stc.pc + 3 })
              else .error .abort) := by
  have e0 := code_at_eq m1.code st.pc _ hlen1 hop1
  have f0 := code_at_eq m2.code st.pc _ hlen2 hop2
  have hsame : ∀ c : callee_t, step cls c m1 st = step cls c m2 st := by
    intro c
    simp [step, e0, f0, bind, Except.bind, pure, Except.pure]
  have hdone : ∀ (c : callee_t) (v : Int) (rest : List Int), st.s.contents = v :: rest →
      step cls c m1 st
        = .ok (.done { has_value := true, value := v }
            { st with s := { st.s with contents := rest } }) := by
    intro c v rest hs
    simp [step, e0, pop, hs, bind, Except.bind, pure, Except.pure]
  have hrun : ∀ (v : Int) (rest : List Int), st.s.contents = v :: rest →
      ∀ fuel : Nat, run cls (fuel + 1) m1 st
        = .ok ({ has_value := true, value := v },
            { st with s := { st.s with contents := rest } }) := by
    intro v rest hs fuel
    rw [run_succ, hdone _ v rest hs]
  refine ⟨hsame call, ?_, fun v rest hs => ⟨hdone call v rest hs, hrun v rest hs⟩, ?_⟩
  · intro fuel
    cases fuel with
    | zero => rfl
    | succ n =>
      rw [run_succ, run_succ, hsame]
      cases hstep : step cls (execute cls n) m2 st with
      | error e => rfl
      | ok res =>
        cases res with
        | done r st1 => rfl
        | next st1 =>
          rw [← hsame] at hstep
          cases hc : st.s.contents with
          | nil =>
            simp [step, e0, pop, hc, bind, Except.bind] at hstep
          | cons v rest =>
            rw [hdone _ v rest hc] at hstep
            simp at hstep
  · intro v rest fuel fuel1 mc stc b1 b2 xs restc hs hlenc hopc h1 h2 hfind hn hmax hsc hreach
    have hcall : execute cls fuel m1
        (xs ++ List.replicate (m1.code.max_locals - xs.length) 0) stc.heap stc.out
        = .ok ({ has_value := true, value := v }, st.heap, st.out) := by
      unfold execute
      rw [run_of_reaches cls m1 fuel _ (fuel1 + 1) st hreach, hrun v rest hs fuel1]
    rw [step_invokestatic cls _ mc stc b1 b2 m1 xs restc hlenc hopc h1 h2 hfind hn hmax hsc,
      hcall]
    have e3 := pc_inc_eq mc.code stc.pc _ 3 hlenc h2 (by decide)
    by_cases hroom : restc.length < stc.s.length <;>
      simp [invoke_return, push, hroom, e3, Except.bind, bind, pure, Except.pure]

/-- Witness of C31: the method `make` reaches its `areturn` with the handle 0 of its new
array on top, and the caller `invokestatic make; arraylength; ireturn` goes on with
the handle 0 on its stack and the new array in the heap. -/
theorem areturn_as_ireturn_witness :
    step array_class (execute array_class 3) use_array (state_t.entry use_array [] [] [])
      = .ok (.next { state_t.entry use_array [] [] [] with
          s := { length := 1, contents := [0] }, heap := [[3, 0, 0, 0]], pc := 3 }) :=
  (areturn_as_ireturn array_class no_call make_array
    { make_array with code := { make_array.code with
        code := [i_iconst_0 + 3, i_newarray, 10, i_ireturn] } }
    at_make_areturn (by decide) (by decide) rfl rfl).2.2.2
    0 [] 3 0 use_array (state_t.entry use_array [] [] []) 0 1 [] [] rfl (by decide) rfl rfl rfl
    rfl rfl (by decide) rfl
    (loop_reaches.iterate 2 _ _ 1 _ rfl (loop_reaches.iterate 1 _ _ 1 _ rfl
      (loop_reaches.here 1 _)))

set_option maxRecDepth 8192 in
/-- Counterexample to C31 as stated: the static method `make` ends in `areturn` and
returns the handle 0 of its new array, and the caller
`bipush 5; invokestatic make; areturn`, whose stack of capacity 1 is full at the
call, does not receive the handle: the run stops on the assertion of `push`. -/
theorem areturn_to_full_caller :
    execute array_class 3 make_array [] [] []
        = .ok ({ has_value := true, value := 0 }, [[3, 0, 0, 0]], [])
      ∧ step array_class (execute array_class 3) push_then_make
          { state_t.entry push_then_make [] [] [] with
            s := { length := 1, contents := [5] }, pc := 2 }
        = .error .abort
      ∧ ∀ fuel : Nat, execute array_class (fuel + 5) push_then_make [] [] [] = .error .abort :=
  ⟨rfl, rfl, fun _ => rfl⟩

/-! ### Reference locals and the stack round trip (C32, C33) -/

/-- Two methods that hold the same byte after the opcode at `pc` read the same operand
byte. -/
theorem code_at_congr (c1 c2 : code_t) (i : Nat)
    (h : c1.code[i]? = c2.code[i]?) (hi : i < 4294967296) :
    code_at c1 i = code_at c2 i := by
  unfold code_at
  rw [Nat.mod_eq_of_lt hi, h]

/-- An address that holds a byte of the code lies below the length of the code. -/
theorem pc_lt_length (c : code_t) (i b : Nat) (h : c.code[i]? = some b) :
    i < c.code.length := by
  by_contra hn
  rw [List.getElem?_eq_none (Nat.le_of_not_lt hn)] at h
  exact Option.noConfusion h

/-- C32: the reference-typed local instructions are state for state identical to their
integer counterparts: for every state, `aload i` (in the method `m1`) leaves what
`iload i` (in the method `m2`, same operand byte) leaves, failures included, and so
do `astore i` and `istore i`, `aload_k` and `iload_k`, `astore_k` and `istore_k`
for `k` in `0..3`. -/
theorem reference_locals_as_integer (cls : class_file_t) (call : callee_t)
    (m1 m2 : method_t) (st : state_t)
    (hlen1 : m1.code.code.length < 4294967296) (hlen2 : m2.code.code.length < 4294967296) :
    (m1.code.code[st.pc]? = some i_aload → m2.code.code[st.pc]? = some i_iload →
        m1.code.code[st.pc + 1]? = m2.code.code[st.pc + 1]? →
        step cls call m1 st = step cls call m2 st)
      ∧ (m1.code.code[st.pc]? = some i_astore → m2.code.code[st.pc]? = some i_istore →
          m1.code.code[st.pc + 1]? = m2.code.code[st.pc + 1]? →
          step cls call m1 st = step cls call m2 st)
      ∧ (∀ k : Nat, k ≤ 3 → m1.code.code[st.pc]? = some (i_aload_0 + k) →
          m2.code.code[st.pc]? = some (i_iload_0 + k) →
          step cls call m1 st = step cls call m2 st)
      ∧ (∀ k : Nat, k ≤ 3 → m1.code.code[st.pc]? = some (i_astore_0 + k) →
          m2.code.code[st.pc]? = some (i_istore_0 + k) →
          step cls call m1 st = step cls call m2 st) := by
  refine ⟨?_, ?_, ?_, ?_⟩
  · intro hop1 hop2 hb
    have e0 := code_at_eq m1.code st.pc _ hlen1 hop1
    have f0 := code_at_eq m2.code st.pc _ hlen2 hop2
    have hpc := pc_lt_length m1.code st.pc _ hop1
    have e1 := code_at_congr m1.code m2.code (st.pc + 1) hb (by omega)
    simp [step, e0, f0, e1, bind, Except.bind, pure, Except.pure]
  · intro hop1 hop2 hb
    have e0 := code_at_eq m1.code st.pc _ hlen1 hop1
    have f0 := code_at_eq m2.code st.pc _ hlen2 hop2
    have hpc := pc_lt_length m1.code st.pc _ hop1
    have e1 := code_at_congr m1.code m2.code (st.pc + 1) hb (by omega)
    simp [step, e0, f0, e1, bind, Except.bind, pure, Except.pure]
  · intro k hk hop1 hop2
    have e0 := code_at_eq m1.code st.pc _ hlen1 hop1
    have f0 := code_at_eq m2.code st.pc _ hlen2 hop2
    have hk4 : k = 0 ∨ k = 1 ∨ k = 2 ∨ k = 3 := by omega
    rcases hk4 with h | h | h | h <;> subst h <;>
      simp [step, e0, f0, bind, Except.bind, pure, Except.pure]
  · intro k hk hop1 hop2
    have e0 := code_at_eq m1.code st.pc _ hlen1 hop1
    have f0 := code_at_eq m2.code st.pc _ hlen2 hop2
    have hk4 : k = 0 ∨ k = 1 ∨ k = 2 ∨ k = 3 := by omega
    rcases hk4 with h | h | h | h <;> subst h <;>
      simp [step, e0, f0, bind, Except.bind, pure, Except.pure]

/-- Witness of C32: `aload 1` and `iload 1` on the locals `[4, 9]` both push 9. -/
theorem reference_locals_as_integer_witness :
    step empty_class no_call (op_with_byte i_aload 1) (with_locals [4, 9] [])
        = step empty_class no_call (op_with_byte i_iload 1) (with_locals [4, 9] [])
      ∧ step empty_class no_call (op_with_byte i_iload 1) (with_locals [4, 9] [])
        = .ok (.next { with_locals [4, 9] [9] with pc := 2 }) :=
  ⟨(reference_locals_as_integer empty_class no_call (op_with_byte i_aload 1)
    (op_with_byte i_iload 1) (with_locals [4, 9] []) (by decide) (by decide)).1 rfl rfl rfl,
    rfl⟩

/-- C33: on an operand stack `s` with fewer than `max_stack` entries, `pop` applied to the
stack that `push(s, v)` leaves returns `v` and leaves `s` itself (same size, same
entries); and on a non-empty stack `s` within its capacity, pushing back the value
that `pop` returned restores `s`. -/
theorem push_pop_round_trip (s : stack_t) (v : Int) :
    (s.contents.length < s.length →
        ∃ s1 : stack_t, push s v = .ok s1 ∧ s1.size = s.size + 1 ∧ pop s1 = .ok (v, s))
      ∧ (s.contents ≠ [] → s.contents.length ≤ s.length →
          ∃ (top : Int) (s1 : stack_t), pop s = .ok (top, s1) ∧ s1.size + 1 = s.size
            ∧ push s1 top = .ok s) := by
  constructor
  · intro hroom
    exact ⟨{ s with contents := v :: s.contents }, by simp [push, hroom],
      by simp [stack_t.size], by simp [pop]⟩
  · intro hne hcap
    cases hc : s.contents with
    | nil => exact absurd hc hne
    | cons top below =>
      have hl : below.length < s.length := by rw [hc] at hcap; simp at hcap; omega
      refine ⟨top, { s with contents := below }, by simp [pop, hc],
        by simp [stack_t.size, hc], ?_⟩
      simp [push, hl]
      cases s with
      | mk length contents =>
        simp at hc
        simp [hc]

/-- Witness of C33: pushing 7 on the stack `[5]` of capacity 2, then popping. -/
theorem push_pop_round_trip_witness :
    ∃ s1 : stack_t, push { length := 2, contents := [5] } 7 = .ok s1
      ∧ pop s1 = .ok (7, { length := 2, contents := [5] }) :=
  match (push_pop_round_trip { length := 2, contents := [5] } 7).1 (by decide) with
  | ⟨s1, h1, _, h2⟩ => ⟨s1, h1, h2⟩

/-! ### istore and iload (C34) -/

/-- C34: for a local index `i` of an existing slot and a state with `v` on top of the
stack, `istore i` (and `istore_k` for `i = k ≤ 3`) sets `locals[i] = v`, leaves
every other local slot unchanged, removes exactly the top stack entry and leaves
the heap and the output unchanged; an `iload i` (or `iload_k`) executed afterwards
on these locals pushes `v`, and the state after the store has room for it. -/
theorem istore_sets_slot (cls : class_file_t) (call : callee_t) (m : method_t) (st : state_t)
    (i : Nat) (v : Int) (rest : List Int)
    (hlen : m.code.code.length < 4294967296)
    (hs : st.s.contents = v :: rest) (hcap : st.s.contents.length ≤ st.s.length)
    (hi : i < st.locals.length) :
    (m.code.code[st.pc]? = some i_istore → m.code.code[st.pc + 1]? = some i →
        step cls call m st
          = .ok (.next { st with s := { st.s with contents := rest },
                                 locals := st.locals.set i v, pc := st.pc + 2 }))
      ∧ (i ≤ 3 → m.code.code[st.pc]? = some (i_istore_0 + i) →
          step cls call m st
            = .ok (.next { st with s := { st.s with contents := rest },
                                   locals := st.locals.set i v, pc := st.pc + 1 }))
      ∧ (st.locals.set i v)[i]? = some v
      ∧ (∀ j : Nat, j ≠ i → (st.locals.set i v)[j]? = st.locals[j]?)
      ∧ rest.length < st.s.length
      ∧ (∀ (cls2 : class_file_t) (call2 : callee_t) (m2 : method_t) (st2 : state_t),
          m2.code.code.length < 4294967296 → st2.locals = st.locals.set i v →
          (m2.code.code[st2.pc]? = some i_iload → m2.code.code[st2.pc + 1]? = some i →
              step cls2 call2 m2 st2 = pushed st2 v 2)
            ∧ (i ≤ 3 → m2.code.code[st2.pc]? = some (i_iload_0 + i) →
                step cls2 call2 m2 st2 = pushed st2 v 1)) := by
  have hroom : rest.length < st.s.length := by rw [hs] at hcap; simp at hcap; omega
  refine ⟨?_, ?_, List.getElem?_set_self hi, fun j hj => List.getElem?_set_ne (Ne.symm hj),
    hroom, ?_⟩
  · intro hop h1
    have e0 := code_at_eq m.code st.pc _ hlen hop
    have e1 := code_at_eq m.code _ _ hlen h1
    have e2 := pc_inc_eq m.code st.pc _ 2 hlen h1 (by decide)
    simp [step, e0, e1, e2, local_write, hi, pop, hs, bind, Except.bind, pure, Except.pure]
  · intro hk hop
    have e0 := code_at_eq m.code st.pc _ hlen hop
    have e1 := pc_inc_eq m.code st.pc _ 1 hlen hop (by decide)
    have hk4 : i = 0 ∨ i = 1 ∨ i = 2 ∨ i = 3 := by omega
    rcases hk4 with h | h | h | h <;> subst h <;>
      simp [step, e0, e1, local_write, hi, pop, hs, bind, Except.bind, pure, Except.pure]
  · intro cls2 call2 m2 st2 hlen2 hloc
    have hx : st2.locals[i]? = some v := by rw [hloc]; exact List.getElem?_set_self hi
    constructor
    · intro hop h1
      have e0 := code_at_eq m2.code st2.pc _ hlen2 hop
      have e1 := code_at_eq m2.code _ _ hlen2 h1
      have e2 := pc_inc_eq m2.code st2.pc _ 2 hlen2 h1 (by decide)
      by_cases hr : st2.s.contents.length < st2.s.length <;>
        simp [step, e0, e1, e2, local_read, hx, push, pushed, hr, bind, Except.bind, pure,
          Except.pure]
    · intro hk hop
      have e0 := code_at_eq m2.code st2.pc _ hlen2 hop
      have e1 := pc_inc_eq m2.code st2.pc _ 1 hlen2 hop (by decide)
      have hk4 : i = 0 ∨ i = 1 ∨ i = 2 ∨ i = 3 := by omega
      by_cases hr : st2.s.contents.length < st2.s.length <;>
        rcases hk4 with h | h | h | h <;> subst h <;>
        simp [step, e0, e1, local_read, hx, push, pushed, hr, bind, Except.bind, pure,
          Except.pure]

/-- Witness of C34: `istore 1` of the value 7 into the locals `[4, 9]`, then `iload 1`,
which pushes 7 back. -/
theorem istore_sets_slot_witness :
    step empty_class no_call istore_iload_1 (with_locals [4, 9] [7])
        = .ok (.next { with_locals [4, 7] [] with pc := 2 })
      ∧ step empty_class no_call istore_iload_1 { with_locals [4, 7] [] with pc := 2 }
        = .ok (.next { with_locals [4, 7] [7] with pc := 4 }) :=
  match istore_sets_slot empty_class no_call istore_iload_1 (with_locals [4, 9] [7]) 1 7 []
      (by decide) rfl (by decide) (by decide) with
  | ⟨h1, _, _, _, _, h2⟩ =>
    ⟨h1 rfl rfl,
      (h2 empty_class no_call istore_iload_1 { with_locals [4, 7] [] with pc := 2 }
        (by decide) rfl).1 rfl rfl⟩

end TeenyJVM
